import Mathlib

/-!
Verification of the AnkamaLauncher update engine against its specification.

The definitions below are shallow embeddings of the JavaScript sources:

* `src/lib/updater/actions/updateActionTypes.js` and the `Update` sequencer
  (`clearQueueOnFragmentsChange`, `actionCanBeCanceledOnFragmentsChange`);
* the diff engine `DiffHelper` in `src/lib/updater/helpers/updateHelper.js`
  (`findFilesToDownloadAndFragmentsToDelete`, `checkPacks`,
  `markRemainingFilesToBeDeleted`);
* the update queue (`exports.add`, `exports.remove`, `exports.setIndex`,
  `exports.pause`, `exports.resume`, `exports.pauseCurrentUpdate`,
  `exports.resumeUpdate`, `exports.startFirstUpdateInQueue`,
  `exports.onUpdateCompleted`);
* `src/lib/controllablePromise.js`;
* the blob fetch module and `Repository.prototype.streamableRequest`;
* `UpdateActionRepair` in the actions library;
* the `D2PAdapter` archive codec.

JavaScript objects are modelled as association lists with JS-object update
semantics (`setk` updates an existing key in place, otherwise appends; `delk`
removes a key).  Mutation is replaced by explicit state passing; asynchronous
control flow is modelled by atomic transition steps.
-/

/-! ## Association lists with JavaScript object semantics -/

/-- Association list used to model a JavaScript object keyed by strings. -/
abbrev JObj (α : Type) : Type := List (String × α)

namespace JObj

/-- `obj[k]` — first binding wins (keys of a JS object are unique). -/
def getk {α : Type} (l : JObj α) (k : String) : Option α :=
  match l.find? (fun p => p.1 = k) with
  | some p => some p.2
  | none => none

/-- `obj[k] = v` — update the existing binding in place, else append. -/
def setk {α : Type} (l : JObj α) (k : String) (v : α) : JObj α :=
  match l with
  | [] => [(k, v)]
  | (k', v') :: t => if k' = k then (k, v) :: t else (k', v') :: setk t k v

/-- `delete obj[k]`. -/
def delk {α : Type} (l : JObj α) (k : String) : JObj α :=
  l.filter (fun p => p.1 ≠ k)

/-- The keys of the object, in insertion order. -/
def keys {α : Type} (l : JObj α) : List String := l.map Prod.fst

/-- `k in obj`. -/
def hask {α : Type} (l : JObj α) (k : String) : Bool :=
  l.any (fun p => p.1 = k)

theorem getk_eq_none_iff {α : Type} (l : JObj α) (k : String) :
    l.getk k = none ↔ ∀ p ∈ l, p.1 ≠ k := by
  unfold getk
  cases h : l.find? (fun p => p.1 = k) with
  | none =>
    simp only [true_iff]
    intro p hp
    have := List.find?_eq_none.mp h p hp
    simpa using this
  | some p =>
    simp only [reduceCtorEq, false_iff, not_forall]
    have hmem := List.mem_of_find?_eq_some h
    have hpred := List.find?_some h
    exact ⟨p, hmem, by simpa using hpred⟩

theorem getk_eq_some_mem {α : Type} {l : JObj α} {k : String} {v : α}
    (h : l.getk k = some v) : (k, v) ∈ l := by
  unfold getk at h
  cases hf : l.find? (fun p => p.1 = k) with
  | none => rw [hf] at h; cases h
  | some p =>
    rw [hf] at h
    have hmem := List.mem_of_find?_eq_some hf
    have hpred := List.find?_some hf
    have hk : p.1 = k := by simpa using hpred
    have hv : p.2 = v := by cases h; rfl
    have : p = (k, v) := by
      cases p; simp_all
    rwa [this] at hmem

theorem keys_setk {α : Type} (l : JObj α) (k : String) (v : α) :
    (l.setk k v).keys = if l.hask k then l.keys else l.keys ++ [k] := by
  induction l with
  | nil => simp [setk, keys, hask]
  | cons p t ih =>
    obtain ⟨k', v'⟩ := p
    by_cases hk : k' = k
    · simp [setk, keys, hask, hk]
    · simp only [setk, hask, keys, List.any_cons, List.map_cons, if_neg hk]
      have : (decide (k' = k) || t.any fun p => decide (p.1 = k)) =
          t.any fun p => decide (p.1 = k) := by simp [hk]
      rw [this]
      by_cases ht : hask t k
      · simp only [hask] at ht
        rw [ht, if_pos rfl]
        simpa [keys, hask, ht] using ih
      · simp only [hask, Bool.not_eq_true] at ht
        rw [ht, if_neg (by simp)]
        have h2 := ih
        rw [show hask t k = false from ht] at h2
        rw [if_neg (by simp)] at h2
        simp [keys] at h2 ⊢
        simp [h2]

theorem getk_setk_self {α : Type} (l : JObj α) (k : String) (v : α) :
    (l.setk k v).getk k = some v := by
  induction l with
  | nil => simp [setk, getk, List.find?]
  | cons p t ih =>
    obtain ⟨k', v'⟩ := p
    by_cases hk : k' = k
    · simp [setk, getk, hk, List.find?]
    · simp only [setk, if_neg hk]
      simp only [getk, List.find?] at ih ⊢
      rw [show (decide (k' = k)) = false by simp [hk]]
      exact ih

theorem getk_setk_ne {α : Type} (l : JObj α) (k k' : String) (v : α)
    (h : k' ≠ k) : (l.setk k v).getk k' = l.getk k' := by
  induction l with
  | nil => simp [setk, getk, List.find?, h, Ne.symm h]
  | cons p t ih =>
    obtain ⟨k₀, v₀⟩ := p
    by_cases hk : k₀ = k
    · subst hk
      simp [setk, getk, List.find?, Ne.symm h]
    · simp only [setk, if_neg hk]
      simp only [getk, List.find?] at ih ⊢
      cases hd : decide (k₀ = k') with
      | true => simp [hd]
      | false => simp only [hd]; exact ih

theorem getk_delk_self {α : Type} (l : JObj α) (k : String) :
    (l.delk k).getk k = none := by
  rw [getk_eq_none_iff]
  intro p hp
  simp only [delk, List.mem_filter] at hp
  simpa using hp.2

theorem getk_delk_ne {α : Type} (l : JObj α) (k k' : String) (h : k' ≠ k) :
    (l.delk k).getk k' = l.getk k' := by
  induction l with
  | nil => simp [delk, getk]
  | cons p t ih =>
    obtain ⟨k₀, v₀⟩ := p
    by_cases hk : k₀ = k
    · subst hk
      have : decide (k₀ = k') = false := by simp [Ne.symm h]
      simp only [delk, List.filter]
      rw [show (decide ¬(k₀, v₀).1 = k₀) = false by simp]
      simp only [getk, List.find?, this]
      exact ih
    · simp only [delk, List.filter]
      rw [show (decide ¬(k₀, v₀).1 = k) = true by simpa using hk]
      simp only [getk, List.find?]
      cases hd : decide (k₀ = k') with
      | true => simp [hd]
      | false => simp only [hd]; exact ih


theorem getk_nil {α : Type} (k : String) : getk ([] : JObj α) k = none := rfl

theorem getk_cons {α : Type} (k0 k : String) (v0 : α) (t : JObj α) :
    getk ((k0, v0) :: t) k = if k0 = k then some v0 else t.getk k := by
  by_cases h : k0 = k <;> simp [getk, List.find?, h]

theorem getk_of_mem_nodup {α : Type} {l : JObj α} {k : String} {v : α}
    (hnd : l.keys.Nodup) (hmem : (k, v) ∈ l) : l.getk k = some v := by
  induction l with
  | nil => cases hmem
  | cons p t ih =>
    obtain ⟨k0, v0⟩ := p
    rw [getk_cons]
    rcases List.mem_cons.mp hmem with h | h
    · obtain ⟨h1, h2⟩ := Prod.mk.injEq .. ▸ h.symm
      rw [if_pos h1, h2]
    · have hk0 : k0 ≠ k := by
        intro he
        subst he
        have hmk : k0 ∈ keys t := List.mem_map_of_mem Prod.fst h
        exact (List.nodup_cons.mp hnd).1 hmk
      rw [if_neg hk0]
      exact ih (List.nodup_cons.mp hnd).2 h

theorem getk_isSome_setk {α : Type} (l : JObj α) (k k' : String) (v : α)
    (h : (l.getk k').isSome) : ((l.setk k v).getk k').isSome := by
  by_cases hk : k' = k
  · subst hk; rw [getk_setk_self]; rfl
  · rwa [getk_setk_ne _ _ _ _ hk]

end JObj

/-- Generic preservation of a predicate along a left fold. -/
theorem foldlPreserve {α β : Type} (P : β → Prop) (step : β → α → β)
    (xs : List α) (init : β)
    (h : ∀ b a, a ∈ xs → P b → P (step b a)) (h0 : P init) :
    P (xs.foldl step init) := by
  induction xs generalizing init with
  | nil => exact h0
  | cons x t ih =>
    exact ih _ (fun b a ha hb => h b a (List.mem_cons_of_mem x ha) hb)
      (h init x (List.mem_cons_self x t) h0)


/-! ## Action types (`src/lib/updater/actions/updateActionTypes.js`) -/

/-- The twelve action types of the update sequencer, from
`updateActionTypes.js`. -/
inductive ActionType : Type
  | getRemoteHashes
  | getLocalHashes
  | repair
  | loadConfiguration
  | createDiff
  | writeReleaseInfos
  | checkConfiguration
  | createDirectories
  | downloadFragment
  | deleteFiles
  | clearEmptyDirectories
  | saveHashes
deriving DecidableEq, Repr

/-- A queued action: its type plus the fragment parameters the sequencer
attaches (only the parts relevant to queue clearing). -/
structure QueuedAction where
  type : ActionType
  fragment : Option String := none
  fragments : List String := []
deriving DecidableEq, Repr

/-- `Update.actionCanBeCanceledOnFragmentsChange` (part_003, lines 602-613):
an action type is non-cancelable exactly when it is one of GetRemoteHashes,
LoadConfiguration, CheckConfiguration, WriteReleaseInfos. -/
def actionCanBeCanceledOnFragmentsChange (t : ActionType) : Bool :=
  let nonCancelableTypes : List ActionType :=
    [ActionType.getRemoteHashes, ActionType.loadConfiguration,
     ActionType.checkConfiguration, ActionType.writeReleaseInfos]
  !(nonCancelableTypes.any (fun n => n = t))

/-- `Update.clearQueueOnFragmentsChange` (part_003, lines 539-546): the loop
removes, scanning the queue backwards, every queued action whose type can be
canceled on fragments change; this is exactly a filter keeping the
non-cancelable ones. -/
def clearQueueOnFragmentsChange (q : List QueuedAction) : List QueuedAction :=
  q.filter (fun a => !actionCanBeCanceledOnFragmentsChange a.type)

/-! ## C4 theorems -/

/-- **C4 (counterexample).**  The claim says queued `GetLocalHashes` actions
are preserved when the fragment list changes; but
`actionCanBeCanceledOnFragmentsChange` does not list `GET_LOCAL_HASHES` among
the non-cancelable types, so a queued `GetLocalHashes` action is removed: a
queue holding exactly one `GetLocalHashes` action is cleared to the empty
queue. -/
theorem C4_getLocalHashes_counterexample :
    clearQueueOnFragmentsChange [{ type := ActionType.getLocalHashes }] = [] := by
  rfl

/-- **C4 (amended).**  When the fragment list changes during a running update,
the sequencer removes from its pending queue every action except those of the
four types GetRemoteHashes, LoadConfiguration, CheckConfiguration and
WriteReleaseInfos (queued GetLocalHashes actions are removed too): the cleared
queue is exactly the sub-list of actions of those four types. -/
theorem C4_clearQueue_keeps_exactly_nonCancelable (q : List QueuedAction) :
    clearQueueOnFragmentsChange q =
      q.filter (fun a =>
        a.type = ActionType.getRemoteHashes ∨
        a.type = ActionType.loadConfiguration ∨
        a.type = ActionType.checkConfiguration ∨
        a.type = ActionType.writeReleaseInfos) := by
  unfold clearQueueOnFragmentsChange
  congr 1
  funext a
  cases a with
  | mk t fr frs => cases t <;> simp [actionCanBeCanceledOnFragmentsChange]

/-! ## Manifest data model (§3 of the spec; `updateHelper.js`, `diffHelper.js`) -/

/-- A manifest file record `{hash, size, executable}`. -/
structure MFile where
  hash : String
  size : Nat
  executable : Bool
deriving DecidableEq, Repr

/-- A pack record `{size, hashes}`. -/
structure PackInfo where
  size : Nat
  hashes : List String
deriving DecidableEq, Repr

/-- An inner file of an archive `{hash, size}`. -/
structure ArchiveFile where
  hash : String
  size : Nat
deriving DecidableEq, Repr

/-- An archive record `{files}` of a manifest fragment. -/
structure ArchiveInfo where
  files : JObj ArchiveFile
deriving DecidableEq, Repr

/-- A manifest fragment `{files, packs?, archives?}`. -/
structure Fragment where
  files : JObj MFile
  packs : Option (JObj PackInfo) := none
  archives : Option (JObj ArchiveInfo) := none
deriving DecidableEq, Repr

/-- A manifest: fragment name to fragment record. -/
abbrev Manifest := JObj Fragment

/-- `updateHelper.verifyFragmentsList` (updateHelper.js, lines 18-24): true
when every requested fragment is present in the remote manifest (the source
throws on the first missing one). -/
def verifyFragmentsList (fragments : List String) (remote : Manifest) : Bool :=
  fragments.all (fun fr => (remote.getk fr).isSome)

/-! ## Fetch module response handling (part_016, C7) -/

/-- The context `onResponse` sees (part_016, lines 138-164): the controllable
promise flags, whether the attempt was started with a `Range` header
(`shouldResume`), the temp file state, the expected size, and the response
status and `accept-ranges` header. -/
structure FetchResponseCtx where
  isSettled : Bool
  isPaused : Bool
  hasStream : Bool
  shouldResume : Bool
  fileExists : Bool
  fileSize : Nat
  expectedSize : Nat
  status : Nat
  acceptRanges : Option String
deriving DecidableEq, Repr

/-- Outcome of the `onResponse` handler. -/
inductive FetchOutcome : Type
  | ignore
  | resolveDone
  | cleanAndRetry
  | rejectError (msg : String)
  | streamBody
deriving DecidableEq, Repr

/-- `onResponse` (part_016, lines 138-207), up to the point where the response
body is piped into the temp file. -/
def onResponse (c : FetchResponseCtx) : FetchOutcome :=
  if c.isSettled || c.isPaused || c.hasStream then .ignore
  else if c.shouldResume && c.fileExists && c.fileSize == c.expectedSize then
    .resolveDone
  else if c.status == 416 then .cleanAndRetry
  else if c.status != 206 && c.status != 200 then
    .rejectError "Code"
  else if c.shouldResume && !(c.acceptRanges == some "bytes") then
    .rejectError "Partial content not supported"
  else .streamBody

/-- `startElectronFetch`'s header setup (part_016, lines 209-218): whether the
attempt resumes and which `Range` header it sends, given the temp file
state. -/
def startFetchSetup (fileExists : Bool) (fileSize : Nat) :
    Bool × Option String :=
  if fileExists then
    if fileSize ≠ 0 then (true, some ("bytes=" ++ toString fileSize ++ "-"))
    else (false, none)
  else (false, none)

/-! ## C7 theorems -/

/-- **C7 (counterexample).**  A resumed download (non-empty temp of 5 bytes
out of 10 expected, so the request carried `Range: bytes=5-`) answered with
status 200 and no `Accept-Ranges` header is *rejected* with
"Partial content not supported" — the temp file is not discarded and the
download is not retried from zero, contradicting the claim. -/
theorem C7_noAcceptRanges_rejects_counterexample :
    (startFetchSetup true 5 = (true, some "bytes=5-")) ∧
    onResponse { isSettled := false, isPaused := false, hasStream := false,
                 shouldResume := true, fileExists := true, fileSize := 5,
                 expectedSize := 10, status := 200, acceptRanges := none } =
      .rejectError "Partial content not supported" ∧
    onResponse { isSettled := false, isPaused := false, hasStream := false,
                 shouldResume := true, fileExists := true, fileSize := 5,
                 expectedSize := 10, status := 200, acceptRanges := none } ≠
      .cleanAndRetry := by
  refine ⟨by decide, by decide, by decide⟩

/-- **C7 (amended).**  For every Fetcher download resumed with a non-empty
partial temp file (the request carries `Range: bytes=<size>-`), if the
server's response (status 200 or 206) does not carry `Accept-Ranges: bytes`
and the temp is not already complete, the fetcher *rejects* the download with
"Partial content not supported"; it does not discard the temp and retry from
zero (only HTTP 416 triggers clean-and-retry). -/
theorem C7_noAcceptRanges_rejects (c : FetchResponseCtx)
    (hs : c.isSettled = false) (hp : c.isPaused = false)
    (hr : c.hasStream = false) (hres : c.shouldResume = true)
    (hincomplete : ¬(c.fileExists = true ∧ c.fileSize = c.expectedSize))
    (hstatus : c.status = 200 ∨ c.status = 206)
    (har : c.acceptRanges ≠ some "bytes") :
    onResponse c = .rejectError "Partial content not supported" ∧
    (∀ c' : FetchResponseCtx, c'.isSettled = false → c'.isPaused = false →
      c'.hasStream = false → c'.shouldResume = true →
      ¬(c'.fileExists = true ∧ c'.fileSize = c'.expectedSize) →
      c'.status = 416 → onResponse c' = .cleanAndRetry) := by
  constructor
  · unfold onResponse
    rw [hs, hp, hr, hres]
    simp only [Bool.or_self, Bool.or_false, Bool.false_or]
    rw [if_neg (by simp)]
    have h1 : (c.fileExists && c.fileSize == c.expectedSize) = false := by
      rcases h : c.fileExists with _ | _
      · simp
      · simp only [Bool.true_and]
        rcases h2 : c.fileSize == c.expectedSize with _ | _
        · rfl
        · exact absurd ⟨h, by simpa using h2⟩ hincomplete
    rw [Bool.true_and, h1]
    rcases hstatus with h | h <;>
      simp [h, har, if_neg, beq_eq_false_iff_ne]
  · intro c' h1 h2 h3 h4 h5 h6
    unfold onResponse
    rw [h1, h2, h3, h4, h6]
    have h7 : (c'.fileExists && c'.fileSize == c'.expectedSize) = false := by
      rcases h : c'.fileExists with _ | _
      · simp
      · simp only [Bool.true_and]
        rcases hb : c'.fileSize == c'.expectedSize with _ | _
        · rfl
        · exact absurd ⟨h, by simpa using hb⟩ h5
    simp [h7]

/-- Witness for `C7_noAcceptRanges_rejects` at a concrete response context. -/
theorem C7_noAcceptRanges_rejects_witness :
    onResponse { isSettled := false, isPaused := false, hasStream := false,
                 shouldResume := true, fileExists := true, fileSize := 3,
                 expectedSize := 8, status := 206, acceptRanges := some "none" } =
      .rejectError "Partial content not supported" :=
  (C7_noAcceptRanges_rejects _ rfl rfl rfl rfl
    (by intro h; exact absurd h.2 (by decide)) (Or.inr rfl) (by decide)).1

/-! ## Repository requests (part_016 and `helpers/index.js`, C9) -/

/-- An outgoing HTTP request: the URL actually fetched and the value of the
`Host` header, if any header object carries one. -/
structure HttpRequest where
  url : String
  hostHeader : Option String
deriving DecidableEq, Repr

/-- The repository state the requests read (`helpers/index.js`, constructor,
lines 108-121): the canonical server URL, the original host, and the
DNS-cached per-IP server URLs. -/
structure RepositoryModel where
  server : String
  host : String
  cachedServers : List String
deriving DecidableEq, Repr

/-- The blob fetch module's request (part_016, lines 96-116, 220-224):
`url = cachedServers[Math.floor(Math.random() * cachedServers.length)] + subpath`
with headers `{ host }`.  The random draw is modelled by the chosen index
`pick` (the value of the floor). -/
def fetchBlobRequest (repo : RepositoryModel) (subpath : String) (pick : Nat) :
    HttpRequest :=
  { url := repo.cachedServers.getD pick "" ++ subpath
    hostHeader := some repo.host }

/-- `Repository.prototype.streamableRequest` (`helpers/index.js`, lines
206-249): `fullPath = this.server + subPath`, fetched with options
`{timeout, useElectronNet}` only — no headers object, hence no `Host`
header, and no use of the cached servers. -/
def streamableRequest (repo : RepositoryModel) (subPath : String) :
    HttpRequest :=
  { url := repo.server ++ subPath
    hostHeader := none }

/-! ## C9 theorems -/

/-- **C9 (counterexample).**  A repository whose cached DNS list holds the
single endpoint `http://1.1.1.1:80` sends the manifest request for
`/cytrus.json` to `http://cy.example.com/cytrus.json` — the configured server,
not a cached IP endpoint — and with no `Host` header; so manifest requests are
neither routed through the cached IP list nor carry the host name,
contradicting the claim. -/
theorem C9_manifestRequest_counterexample :
    streamableRequest
        { server := "http://cy.example.com", host := "cy.example.com",
          cachedServers := ["http://1.1.1.1:80"] } "/cytrus.json" =
      { url := "http://cy.example.com/cytrus.json", hostHeader := none } ∧
    (∀ pick : Nat,
      (streamableRequest
          { server := "http://cy.example.com", host := "cy.example.com",
            cachedServers := ["http://1.1.1.1:80"] } "/cytrus.json").url ≠
        (fetchBlobRequest
          { server := "http://cy.example.com", host := "cy.example.com",
            cachedServers := ["http://1.1.1.1:80"] } "/cytrus.json" pick).url) := by
  refine ⟨rfl, fun pick => ?_⟩
  rcases pick with _ | n
  · decide
  · show ("http://cy.example.com/cytrus.json" : String) ≠
      List.getD ["http://1.1.1.1:80"] (n + 1) "" ++ "/cytrus.json"
    rw [show List.getD ["http://1.1.1.1:80"] (n + 1) "" = "" from rfl]
    decide

/-- **C9 (amended).**  Only blob downloads through the fetch module are sent
to a cached DNS endpoint — the one at the drawn index — with the original host
name in the `Host` header; manifest (JSON) and streamed repository requests
through `Repository.prototype.streamableRequest` always use the configured
server URL and carry no `Host` header. -/
theorem C9_request_routing (repo : RepositoryModel) (subpath : String)
    (pick : Nat) (hpick : pick < repo.cachedServers.length) :
    fetchBlobRequest repo subpath pick =
      { url := repo.cachedServers.get ⟨pick, hpick⟩ ++ subpath,
        hostHeader := some repo.host } ∧
    (∀ sub : String, streamableRequest repo sub =
      { url := repo.server ++ sub, hostHeader := none }) := by
  refine ⟨?_, fun sub => rfl⟩
  unfold fetchBlobRequest
  rw [List.getD_eq_getElem repo.cachedServers "" hpick]
  rfl

/-- Witness for `C9_request_routing` at a concrete repository. -/
theorem C9_request_routing_witness :
    fetchBlobRequest
        { server := "http://cy.example.com", host := "cy.example.com",
          cachedServers := ["http://1.1.1.1:80", "http://2.2.2.2:80"] }
        "/g/hashes/ab/abcd" 1 =
      { url := "http://2.2.2.2:80/g/hashes/ab/abcd",
        hostHeader := some "cy.example.com" } :=
  (C9_request_routing _ _ 1 (by decide)).1

/-! ## Repair action (`saveHashes.js` part: `UpdateActionRepair`, C10) -/

/-- The record `UpdateActionRepair.repairFile` stores per file: on success
`{hash, executable}`, on any read error `{hash: ''}` (which carries no
`executable` field, modelled as `none`). -/
structure RepairEntry where
  hash : String
  executable : Option Bool
deriving DecidableEq, Repr

/-- A fragment bucket of the repair result, `{files}`. -/
abbrev RepairHashes := JObj (JObj RepairEntry)

/-- The entry `repairFile` records for a file, given the outcome of reading
its hash and executable mode (`none` models any error: missing file,
unreadable, …) — `UpdateActionRepair.repairFile`, lines 277-309. -/
def repairEntryFor (readFile : String → Option (String × Bool)) (filePath : String) :
    RepairEntry :=
  match readFile filePath with
  | some (h, e) => { hash := h, executable := some e }
  | none => { hash := "", executable := none }

/-- `UpdateActionRepair.computeFilesToRepair` (lines 254-269): the fragment
buckets are initialised for every remote fragment in the selection, and every
file of those fragments is queued for repair. -/
def computeFilesToRepair (fragments : List String) (remote : Manifest) :
    List (String × String) :=
  remote.foldl
    (fun acc p =>
      if fragments.contains p.1 then
        acc ++ p.2.files.keys.map (fun f => (p.1, f))
      else acc) []

/-- The initial `this.hashes` buckets of `computeFilesToRepair`. -/
def repairInitBuckets (fragments : List String) (remote : Manifest) :
    RepairHashes :=
  remote.foldl
    (fun acc p => if fragments.contains p.1 then acc.setk p.1 [] else acc) []

/-- One `repairFile` completion: store the entry for the file in its fragment
bucket. -/
def repairStep (readFile : String → Option (String × Bool))
    (acc : RepairHashes) (p : String × String) : RepairHashes :=
  acc.setk p.1 (((acc.getk p.1).getD []).setk p.2 (repairEntryFor readFile p.2))

/-- `UpdateActionRepair.createPromise` (lines 205-248): verify the fragment
list, compute the files to repair, hash each of them (every per-file error is
swallowed into a `{hash: ''}` record), and resolve with the hashes table.
The bounded concurrency of 10 does not change the resulting table, which is
modelled by the sequential fold. -/
def repairRun (fragments : List String) (remote : Manifest)
    (readFile : String → Option (String × Bool)) :
    Except String RepairHashes :=
  if !verifyFragmentsList fragments remote then
    .error "Fragment was requested but not found in this version."
  else
    .ok ((computeFilesToRepair fragments remote).foldl
      (repairStep readFile) (repairInitBuckets fragments remote))

/-- Lookup of a file entry in a repair table. -/
def repairLookup (tbl : RepairHashes) (fr f : String) : Option RepairEntry :=
  ((tbl.getk fr).getD []).getk f

theorem repairStep_lookup (readFile : String → Option (String × Bool))
    (acc : RepairHashes) (p : String × String) (fr f : String) :
    repairLookup (repairStep readFile acc p) fr f =
      if p.1 = fr ∧ p.2 = f then some (repairEntryFor readFile p.2)
      else repairLookup acc fr f := by
  unfold repairLookup repairStep
  by_cases h1 : p.1 = fr
  · subst h1
    rw [JObj.getk_setk_self]
    by_cases h2 : p.2 = f
    · subst h2
      simp [JObj.getk_setk_self]
    · rw [if_neg (by simp [h2])]
      simp only [Option.getD_some]
      exact JObj.getk_setk_ne _ _ _ _ (fun h => h2 h.symm)
  · rw [if_neg (by simp [h1])]
    rw [JObj.getk_setk_ne _ _ _ _ (fun h => h1 h.symm)]

theorem repairFold_stable (readFile : String → Option (String × Bool))
    (l : List (String × String)) (acc : RepairHashes) (fr f : String)
    (h : repairLookup acc fr f = some (repairEntryFor readFile f)) :
    repairLookup (l.foldl (repairStep readFile) acc) fr f =
      some (repairEntryFor readFile f) := by
  induction l generalizing acc with
  | nil => exact h
  | cons q t ih =>
    simp only [List.foldl_cons]
    apply ih
    rw [repairStep_lookup]
    by_cases hq : q.1 = fr ∧ q.2 = f
    · rw [if_pos hq, hq.2]
    · rw [if_neg hq]; exact h

theorem repairFold_mem (readFile : String → Option (String × Bool))
    (l : List (String × String)) (acc : RepairHashes) (fr f : String)
    (h : (fr, f) ∈ l) :
    repairLookup (l.foldl (repairStep readFile) acc) fr f =
      some (repairEntryFor readFile f) := by
  induction l generalizing acc with
  | nil => cases h
  | cons q t ih =>
    simp only [List.foldl_cons]
    rcases List.mem_cons.mp h with hq | ht
    · apply repairFold_stable
      rw [repairStep_lookup, ← hq]
      simp
    · exact ih _ ht

theorem repairFold_bucket_isSome (readFile : String → Option (String × Bool))
    (l : List (String × String)) (acc : RepairHashes) (fr : String)
    (h : (acc.getk fr).isSome) :
    ((l.foldl (repairStep readFile) acc).getk fr).isSome := by
  induction l generalizing acc with
  | nil => exact h
  | cons q t ih =>
    simp only [List.foldl_cons]
    apply ih
    unfold repairStep
    by_cases hq : q.1 = fr
    · subst hq; rw [JObj.getk_setk_self]; rfl
    · rw [JObj.getk_setk_ne _ _ _ _ (fun hh => hq hh.symm)]; exact h

theorem repairInitBuckets_isSome (fragments : List String) (remote : Manifest)
    (fr : String) (frag : Fragment) (hmem : (fr, frag) ∈ remote)
    (hsel : fragments.contains fr) :
    ((repairInitBuckets fragments remote).getk fr).isSome := by
  unfold repairInitBuckets
  have main : ∀ (l : Manifest) (acc : RepairHashes),
      ((fr, frag) ∈ l ∨ (acc.getk fr).isSome) →
      ((l.foldl (fun acc p =>
        if fragments.contains p.1 then acc.setk p.1 [] else acc) acc).getk
          fr).isSome := by
    intro l
    induction l with
    | nil =>
      intro acc h
      rcases h with h | h
      · cases h
      · exact h
    | cons q t ih =>
      intro acc h
      simp only [List.foldl_cons]
      rcases h with h | h
      · rcases List.mem_cons.mp h with hq | ht
        · apply ih
          right
          subst hq
          show ((if fragments.contains fr = true then JObj.setk acc fr []
            else acc).getk fr).isSome = true
          rw [if_pos hsel, JObj.getk_setk_self]
          rfl
        · exact ih _ (Or.inl ht)
      · apply ih
        right
        by_cases hc : fragments.contains q.1
        · rw [if_pos hc]
          by_cases hq : q.1 = fr
          · subst hq; rw [JObj.getk_setk_self]; rfl
          · rw [JObj.getk_setk_ne _ _ _ _ (fun hh => hq hh.symm)]; exact h
        · rw [if_neg hc]; exact h
  exact main remote [] (Or.inl hmem)

theorem computeFilesToRepair_mem (fragments : List String) (remote : Manifest)
    (fr : String) (frag : Fragment) (f : String)
    (hmem : (fr, frag) ∈ remote) (hsel : fragments.contains fr)
    (hf : f ∈ frag.files.keys) :
    (fr, f) ∈ computeFilesToRepair fragments remote := by
  unfold computeFilesToRepair
  have main : ∀ (l : Manifest) (acc : List (String × String)),
      ((fr, frag) ∈ l ∨ (fr, f) ∈ acc) →
      (fr, f) ∈ l.foldl (fun acc p =>
        if fragments.contains p.1 then
          acc ++ p.2.files.keys.map (fun f => (p.1, f))
        else acc) acc := by
    intro l
    induction l with
    | nil =>
      intro acc h
      rcases h with h | h
      · cases h
      · exact h
    | cons q t ih =>
      intro acc h
      simp only [List.foldl_cons]
      rcases h with h | h
      · rcases List.mem_cons.mp h with hq | ht
        · apply ih
          right
          subst hq
          show (fr, f) ∈ (if fragments.contains fr = true then
              acc ++ frag.files.keys.map (fun g => (fr, g)) else acc)
          rw [if_pos hsel]
          exact List.mem_append_right _ (List.mem_map_of_mem _ hf)
        · exact ih _ (Or.inl ht)
      · apply ih
        right
        by_cases hc : fragments.contains q.1
        · rw [if_pos hc]; exact List.mem_append_left _ h
        · rw [if_neg hc]; exact h
  exact main remote [] (Or.inl hmem)

/-! ## C10 theorems -/

/-- **C10.**  During the Repair action, for every manifested file of the
selected fragments, the resulting hashes table has an entry: on a successful
read it is `{hash, executable}`, and when the local hash or executable mode
cannot be read (modelled by `readFile f = none`) it is the `{hash: ''}`
record; the Repair promise is never rejected because of an individual
unreadable file — it resolves with a table containing an entry for every
manifested file of every selected fragment. -/
theorem C10_repair_resolves_with_full_table (fragments : List String)
    (remote : Manifest) (readFile : String → Option (String × Bool))
    (hver : ∀ fr ∈ fragments, (remote.getk fr).isSome) :
    ∃ tbl, repairRun fragments remote readFile = .ok tbl ∧
      ∀ fr frag, fr ∈ fragments → remote.getk fr = some frag →
        ∀ f e, frag.files.getk f = some e →
          (∃ bucket, tbl.getk fr = some bucket ∧
            bucket.getk f = some (repairEntryFor readFile f)) ∧
          (readFile f = none →
            repairEntryFor readFile f = { hash := "", executable := none }) := by
  have hverify : verifyFragmentsList fragments remote = true := by
    unfold verifyFragmentsList
    rw [List.all_eq_true]
    intro fr hfr
    simpa using hver fr hfr
  refine ⟨_, by unfold repairRun; rw [hverify]; rfl, ?_⟩
  intro fr frag hfr hget f e hf
  have hmem : (fr, frag) ∈ remote := JObj.getk_eq_some_mem hget
  have hsel : fragments.contains fr := by simpa using hfr
  have hfkey : f ∈ frag.files.keys := by
    unfold JObj.keys
    have := JObj.getk_eq_some_mem hf
    exact List.mem_map_of_mem Prod.fst this
  have hin : (fr, f) ∈ computeFilesToRepair fragments remote :=
    computeFilesToRepair_mem fragments remote fr frag f hmem hsel hfkey
  have hlook := repairFold_mem readFile (computeFilesToRepair fragments remote)
    (repairInitBuckets fragments remote) fr f hin
  have hsome := repairFold_bucket_isSome readFile
    (computeFilesToRepair fragments remote)
    (repairInitBuckets fragments remote) fr
    (repairInitBuckets_isSome fragments remote fr frag hmem hsel)
  constructor
  · obtain ⟨bucket, hbucket⟩ := Option.isSome_iff_exists.mp hsome
    refine ⟨bucket, hbucket, ?_⟩
    unfold repairLookup at hlook
    rw [hbucket] at hlook
    simpa using hlook
  · intro hnone
    unfold repairEntryFor
    rw [hnone]

/-- Witness for `C10_repair_resolves_with_full_table`: a repair over one
selected fragment with one file whose read fails records the `{hash: ''}`
entry and resolves. -/
theorem C10_repair_witness :
    ∃ tbl,
      repairRun ["main"]
          [("main", { files := [("a.bin", { hash := "aa", size := 4, executable := false })] })]
          (fun _ => none) = .ok tbl ∧
      ∀ fr frag, fr ∈ ["main"] →
        JObj.getk [("main",
            ({ files := [("a.bin", { hash := "aa", size := 4, executable := false })] } : Fragment))]
          fr = some frag →
        ∀ f e, frag.files.getk f = some e →
          (∃ bucket, tbl.getk fr = some bucket ∧
            bucket.getk f = some (repairEntryFor (fun _ => none) f)) ∧
          ((fun _ => (none : Option (String × Bool))) f = none →
            repairEntryFor (fun _ => none) f = { hash := "", executable := none }) :=
  C10_repair_resolves_with_full_table ["main"] _ _ (by decide)

/-! ## ControllablePromise (`src/lib/controllablePromise.js`, C6) -/

/-- The five states of a ControllablePromise (lines 1-10). -/
inductive CPStatus : Type
  | resumed
  | paused
  | fulfilled
  | canceled
  | rejected
deriving DecidableEq, Repr

/-- The observable state of a ControllablePromise.  `pendingMain` models a
deferred `fulfillMain` stored in `this.resolveMain` (line 86); `mainFulfilled`
and `mainRejected` are the settlement of the underlying native promise (what
`then`/`catch` consumers observe); `pausePending` / `cancelPending` model a
`pause()` / `cancel()` waiting for the executor because no handler was
registered (lines 154-156, 244-248). -/
structure CPState where
  status : CPStatus
  lock : Bool
  pendingMain : Bool
  mainFulfilled : Bool
  mainRejected : Bool
  hasPauseFn : Bool
  hasResumeFn : Bool
  hasCancelFn : Bool
  pausePending : Bool
  cancelPending : Bool
deriving DecidableEq, Repr

/-- `isSettled` (lines 314-316). -/
def CPState.isSettledS (s : CPState) : Bool :=
  s.status = .fulfilled || s.status = .canceled || s.status = .rejected

/-- Events of the ControllablePromise machine: the executor's `resolve` /
`reject` (including the deferred settle on the next tick and the microtasks
they release), and the `pause` / `resume` / `cancel` methods. -/
inductive CPEvent : Type
  | execResolve
  | execReject
  | pause
  | resume
  | cancel
deriving DecidableEq, Repr

/-- The executor's `resolve` closure (lines 68-89).  `resolvePause()` and
`resolveCancel()` release a waiting handler-less `pause()` / `cancel()`
(their `.then` continuations — microtasks — run before the `setTimeout`
callback); the `setTimeout` callback then rejects if canceled, fulfills if
not paused, and otherwise stores the fulfillment for the next `resume()`. -/
def cpExecResolve (s : CPState) : CPState :=
  let s1 := if s.pausePending then
    { s with pausePending := false, lock := false, status := .paused } else s
  let s2 := if s1.cancelPending then
    { s1 with cancelPending := false, lock := false, status := .canceled, mainRejected := s1.mainRejected || !s1.mainFulfilled }
  else s1
  if s2.status = .canceled then
    { s2 with mainRejected := s2.mainRejected || !s2.mainFulfilled }
  else if s2.status ≠ .paused then
    { s2 with status := .fulfilled, mainFulfilled := s2.mainFulfilled || !s2.mainRejected }
  else
    { s2 with pendingMain := true }

/-- The executor's `reject` closure (lines 91-96): release any waiting
`pause()` / `cancel()` with the error (their `catch` clears the lock), set
the state to `REJECTED` and reject the main promise. -/
def cpExecReject (s : CPState) : CPState :=
  let s1 := if s.pausePending then
    { s with pausePending := false, lock := false } else s
  let s2 := if s1.cancelPending then
    { s1 with cancelPending := false, lock := false } else s1
  { s2 with status := .rejected, mainRejected := s2.mainRejected || !s2.mainFulfilled }

/-- `pause()` (lines 129-170).  Guard failures (operation in progress,
canceled, settled) raise a PreconditionError without mutating state.  With no
registered pause handler the resolution is deferred to the executor
(`pausePending`); with a handler (the fetch module's resolves synchronously)
the `.then` continuation clears the lock and sets the state to `PAUSED`. -/
def cpPause (s : CPState) : CPState :=
  if s.lock then s
  else if s.status = .canceled then s
  else if s.isSettledS then s
  else if s.status = .paused then s
  else if !s.hasPauseFn then { s with lock := true, pausePending := true }
  else { s with status := .paused }

/-- `resume()` (lines 175-220).  With no registered resume handler it calls
`this.resolveMain()`, delivering a fulfillment deferred while paused; the
`.then` continuation then sets the state to `RESUMED` (so the `FULFILLED`
state set by `fulfillMain` is immediately overwritten — the ghost field
`mainFulfilled` records that the main promise was fulfilled).  With a resume
handler, `resolveMain` is not called. -/
def cpResume (s : CPState) : CPState :=
  if s.lock then s
  else if s.status = .canceled then s
  else if s.isSettledS then s
  else if s.status = .resumed then s
  else if !s.hasResumeFn then
    { s with status := .resumed, mainFulfilled := s.mainFulfilled || (s.pendingMain && !s.mainRejected) }
  else { s with status := .resumed }

/-- `cancel()` (lines 225-268).  With no cancel handler the resolution is
deferred to the executor (`cancelPending`); with a handler that resolves
synchronously, the state becomes `CANCELED` and the main promise is rejected
with a cancel error. -/
def cpCancel (s : CPState) : CPState :=
  if s.lock then s
  else if s.status = .canceled then s
  else if s.isSettledS then s
  else if !s.hasCancelFn then { s with lock := true, cancelPending := true }
  else { s with status := .canceled, mainRejected := s.mainRejected || !s.mainFulfilled }

/-- One step of the ControllablePromise machine. -/
def cpStep (s : CPState) (e : CPEvent) : CPState :=
  match e with
  | .execResolve => cpExecResolve s
  | .execReject => cpExecReject s
  | .pause => cpPause s
  | .resume => cpResume s
  | .cancel => cpCancel s

/-- Run a sequence of events. -/
def cpRun (s : CPState) (es : List CPEvent) : CPState :=
  es.foldl cpStep s

/-- Invariant used for C6: while no `resume()` has been processed after the
paused interval began, the main promise is unfulfilled, and whenever the
status has escaped `PAUSED`/`CANCELED` the main promise has already been
rejected (so a late `resolve` cannot fulfill it). -/
def cpNoFulfillInv (s : CPState) : Prop :=
  s.mainFulfilled = false ∧
    (s.status = .paused ∨ s.status = .canceled ∨ s.mainRejected = true)

theorem cpStep_preserves_noFulfill (s : CPState) (e : CPEvent)
    (he : e ≠ .resume) (h : cpNoFulfillInv s) :
    cpNoFulfillInv (cpStep s e) := by
  obtain ⟨hmf, hst⟩ := h
  cases e with
  | resume => exact absurd rfl he
  | execResolve =>
    show cpNoFulfillInv (cpExecResolve s)
    unfold cpExecResolve cpNoFulfillInv
    rcases hpp : s.pausePending with _ | _ <;>
      rcases hcp : s.cancelPending with _ | _ <;>
        simp only [if_true, if_false, Bool.false_eq_true, Bool.true_eq_false] <;>
        · first
          | (rcases hst with hst | hst | hst <;>
              simp_all <;>
              rcases hs : s.status <;> simp_all)
  | execReject =>
    show cpNoFulfillInv (cpExecReject s)
    unfold cpExecReject cpNoFulfillInv
    rcases hpp : s.pausePending with _ | _ <;>
      rcases hcp : s.cancelPending with _ | _ <;> simp_all
  | pause =>
    show cpNoFulfillInv (cpPause s)
    unfold cpPause cpNoFulfillInv
    rcases hl : s.lock with _ | _ <;> simp_all <;>
      rcases hs : s.status <;> simp_all [CPState.isSettledS] <;>
        rcases hpf : s.hasPauseFn <;> simp_all
  | cancel =>
    show cpNoFulfillInv (cpCancel s)
    unfold cpCancel cpNoFulfillInv
    rcases hl : s.lock with _ | _ <;> simp_all <;>
      rcases hs : s.status <;> simp_all [CPState.isSettledS] <;>
        rcases hcf : s.hasCancelFn <;> simp_all

theorem cpRun_preserves_noFulfill (s : CPState) (es : List CPEvent)
    (he : ∀ e ∈ es, e ≠ .resume) (h : cpNoFulfillInv s) :
    cpNoFulfillInv (cpRun s es) := by
  induction es generalizing s with
  | nil => exact h
  | cons e t ih =>
    exact ih _ (fun x hx => he x (List.mem_cons_of_mem e hx))
      (cpStep_preserves_noFulfill s e (he e (List.mem_cons_self e t)) h)

/-! ## C6 theorem -/

/-- **C6.**  If the executor calls `resolve` while the promise is paused, the
promise does not fulfill during the paused interval: (1) the `resolve` is
deferred — after the resolve event the state is still `PAUSED`, the main
promise is unfulfilled, and the fulfillment is stored in `resolveMain`
(`pendingMain`); (2) along any further sequence of events containing no
`resume()`, the main promise never fulfills; (3) upon the next `resume()`
(no resume handler registered — with one, the handler restarts the work
instead), the deferred fulfillment is delivered and the promise fulfills. -/
theorem C6_pause_defers_fulfillment :
    (∀ s : CPState, s.status = .paused → s.cancelPending = false →
      (cpStep s .execResolve).status = .paused ∧
      (cpStep s .execResolve).pendingMain = true ∧
      (cpStep s .execResolve).mainFulfilled = s.mainFulfilled) ∧
    (∀ (s : CPState) (es : List CPEvent), s.status = .paused →
      s.mainFulfilled = false → (∀ e ∈ es, e ≠ .resume) →
      (cpRun s es).mainFulfilled = false) ∧
    (∀ s : CPState, s.status = .paused → s.pendingMain = true →
      s.lock = false → s.hasResumeFn = false → s.mainRejected = false →
      (cpStep s .resume).mainFulfilled = true) := by
  refine ⟨?_, ?_, ?_⟩
  · intro s hp hcp
    show (cpExecResolve s).status = .paused ∧
      (cpExecResolve s).pendingMain = true ∧
      (cpExecResolve s).mainFulfilled = s.mainFulfilled
    unfold cpExecResolve
    rcases hpp : s.pausePending with _ | _ <;> simp_all
  · intro s es hp hmf he
    exact (cpRun_preserves_noFulfill s es he ⟨hmf, Or.inl hp⟩).1
  · intro s hp hpm hl hrf hmr
    show (cpResume s).mainFulfilled = true
    unfold cpResume
    simp_all [CPState.isSettledS]

/-- Witness for `C6_pause_defers_fulfillment`: a paused promise with the fetch
module's handler set (pause/resume/cancel registered, hence conjunct 3 is
exercised on a handler-less variant), at concrete states. -/
theorem C6_pause_defers_fulfillment_witness :
    ((cpStep { status := .paused, lock := false, pendingMain := false,
               mainFulfilled := false, mainRejected := false,
               hasPauseFn := true, hasResumeFn := false, hasCancelFn := true,
               pausePending := false, cancelPending := false } .execResolve).pendingMain
        = true) ∧
    ((cpRun { status := .paused, lock := false, pendingMain := true,
              mainFulfilled := false, mainRejected := false,
              hasPauseFn := true, hasResumeFn := false, hasCancelFn := true,
              pausePending := false, cancelPending := false }
        [.pause, .execResolve, .pause]).mainFulfilled = false) ∧
    ((cpStep { status := .paused, lock := false, pendingMain := true,
               mainFulfilled := false, mainRejected := false,
               hasPauseFn := true, hasResumeFn := false, hasCancelFn := true,
               pausePending := false, cancelPending := false } .resume).mainFulfilled
        = true) := by
  refine ⟨(C6_pause_defers_fulfillment.1 _ rfl rfl).2.1, ?_, ?_⟩
  · exact C6_pause_defers_fulfillment.2.1 _ [.pause, .execResolve, .pause]
      rfl rfl (by intro e hx; fin_cases hx <;> decide)
  · exact C6_pause_defers_fulfillment.2.2 _ rfl rfl rfl rfl rfl

/-! ## Diff engine (`DiffHelper`, updateHelper.js lines 117-381; C2, C3, C5) -/

/-- An entry of the `hashes` inverted index of a diff fragment
(`{fileName, size, executable}`, lines 227-231). -/
structure HashRec where
  fileName : String
  size : Nat
  executable : Bool
deriving DecidableEq, Repr

/-- A diff file entry.  JavaScript objects carry only some of these fields
depending on the entry kind; an absent boolean is falsy and an absent
hash/packFiles is modelled as `none`. -/
structure DFile where
  isPack : Bool := false
  download : Bool := false
  updatePermissions : Bool := false
  hash : Option String := none
  size : Nat := 0
  executable : Bool := false
  packFiles : Option (JObj MFile) := none
deriving DecidableEq, Repr

/-- A diff fragment bucket `{files, hashes, archives}`
(`createEmptyFragmentIfNeeded`, lines 370-378). -/
structure DiffFragment where
  files : JObj DFile := []
  hashes : JObj (List HashRec) := []
  archives : JObj ArchiveInfo := []
deriving DecidableEq, Repr

/-- The diff: fragment name to bucket. -/
abbrev Diff := JObj DiffFragment

/-- `DiffHelper.createEmptyFragmentIfNeeded` (lines 370-378). -/
def createEmptyFragmentIfNeeded (d : Diff) (fr : String) : Diff :=
  if (d.getk fr).isSome then d else d.setk fr {}

/-- `updateHelper.createDeletedFile` (lines 55-60): `{size: 0, hash: null}`. -/
def createDeletedFile : DFile := { size := 0, hash := none }

/-- The body of the inner file loop of
`DiffHelper.findFilesToDownloadAndFragmentsToDelete` (lines 192-240),
threading the diff and the local-manifest scratch copy. -/
def diffFileStep (fragments : List String) (isWin32 : Bool)
    (fragmentName : String) (remoteFragment : Fragment)
    (st : Diff × Manifest) (q : String × MFile) : Diff × Manifest :=
  let diff := st.1
  let localMan := st.2
  let fileName := q.1
  let remoteFile := q.2
  let isFragmentIgnored := !(fragments.contains fragmentName)
  let localFragOpt := localMan.getk fragmentName
  let localFile := match localFragOpt with
    | some lf => lf.files.getk fileName
    | none => none
  if localFile.isSome && isFragmentIgnored then (diff, localMan)
  else
    let sameHash := match localFile with
      | some lf => remoteFile.hash == lf.hash
      | none => false
    let sameExecutable :=
      if !isWin32 && localFile.isSome then
        match localFile with
        | some lf => remoteFile.executable == lf.executable
        | none => true
      else true
    let diff1 :=
      if !sameHash || !sameExecutable then
        match diff.getk fragmentName with
        | some bucket =>
          let bucket1 := { bucket with files := bucket.files.setk fileName { isPack := false, download := !sameHash, updatePermissions := !sameExecutable, hash := some remoteFile.hash, size := remoteFile.size, executable := remoteFile.executable, packFiles := none } }
          let bucket2 := match remoteFragment.archives with
            | some archs => match archs.getk fileName with
              | some a => { bucket1 with archives := bucket1.archives.setk fileName a }
              | none => bucket1
            | none => bucket1
          let recs := (bucket2.hashes.getk remoteFile.hash).getD []
          let bucket3 := { bucket2 with hashes := bucket2.hashes.setk remoteFile.hash (recs ++ [{ fileName := fileName, size := remoteFile.size, executable := remoteFile.executable }]) }
          diff.setk fragmentName bucket3
        | none => diff
      else diff
    let localMan1 := match localFragOpt with
      | some lf =>
        let lf1 := { lf with files := lf.files.delk fileName }
        let lf2 := match lf1.archives with
          | some archs =>
            if (archs.getk fileName).isSome then
              { lf1 with archives := some (archs.delk fileName) }
            else lf1
          | none => lf1
        localMan.setk fragmentName lf2
      | none => localMan
    (diff1, localMan1)

/-- The body of the outer fragment loop of
`findFilesToDownloadAndFragmentsToDelete` (lines 181-241). -/
def diffFragmentStep (fragments : List String) (isWin32 : Bool)
    (st : Diff × Manifest) (p : String × Fragment) : Diff × Manifest :=
  let isFragmentIgnored := !(fragments.contains p.1)
  if (st.2.getk p.1).isNone && isFragmentIgnored then st
  else
    let diff0 := createEmptyFragmentIfNeeded st.1 p.1
    p.2.files.foldl (diffFileStep fragments isWin32 p.1 p.2) (diff0, st.2)

/-- `DiffHelper.findFilesToDownloadAndFragmentsToDelete` (lines 171-242):
returns the diff built by the first pass, together with the pruned
local-manifest scratch copy (`this.localHashes`, originally a deep copy). -/
def findFilesToDownloadAndFragmentsToDelete (fragments : List String)
    (localHashes remoteHashes : Manifest) (isWin32 : Bool) : Diff × Manifest :=
  remoteHashes.foldl (diffFragmentStep fragments isWin32) ([], localHashes)

/-- `DiffHelper.getFilesInPack` (lines 309-328). -/
def getFilesInPack (pack : PackInfo) (fd : DiffFragment) : JObj MFile :=
  pack.hashes.foldl (fun acc fileHash =>
    match fd.hashes.getk fileHash with
    | some files => files.foldl (fun acc file =>
        acc.setk file.fileName { hash := fileHash, size := file.size, executable := file.executable }) acc
    | none => acc) []

/-- `DiffHelper.mustDownloadPack` (lines 336-338):
`Object.keys(filesInPack).length > pack.hashes.length * PACK_FILE_RATIO` with
`PACK_FILE_RATIO = 0.5`; the floating comparison `count > len * 0.5` is exact
and equivalent to `len < 2 * count`. -/
def mustDownloadPack (pack : PackInfo) (filesInPack : JObj MFile) : Bool :=
  pack.hashes.length < 2 * filesInPack.length

/-- `DiffHelper.checkPack` (lines 283-301).
`fragmentDiff.files[fileName].download = false` requires the entry to be
present (it is, for every diff produced by the first pass — a missing entry
would be a TypeError in the source); modelled as update-if-present. -/
def checkPack (fd : DiffFragment) (ph : String) (pack : PackInfo) : DiffFragment :=
  let filesInPack := getFilesInPack pack fd
  if mustDownloadPack pack filesInPack then
    let files1 := filesInPack.foldl (fun fs q =>
      match fs.getk q.1 with
      | some e => fs.setk q.1 { e with download := false }
      | none => fs) fd.files
    { fd with files := files1.setk ph { download := true, isPack := true, packFiles := some filesInPack, hash := some ph, size := pack.size } }
  else fd

/-- `DiffHelper.checkPacksInFragment` (lines 269-274). -/
def checkPacksInFragment (packs : JObj PackInfo) (fd : DiffFragment) : DiffFragment :=
  packs.foldl (fun fd q => checkPack fd q.1 q.2) fd

/-- `DiffHelper.checkPacks` (lines 248-261). -/
def checkPacks (remoteHashes : Manifest) (diff : Diff) : Diff :=
  remoteHashes.foldl (fun d p =>
    match p.2.packs with
    | some packs =>
      match d.getk p.1 with
      | some fd => d.setk p.1 (checkPacksInFragment packs fd)
      | none => d
    | none => d) diff

/-- `updateHelper.isFileMarkedForDownload` (lines 33-45): true when the file
name is present — with any entry, downloading or not — in some fragment of
the diff. -/
def isFileMarkedForDownload (fragmentsToDownload : Diff) (fileName : String) : Bool :=
  fragmentsToDownload.any (fun p => (p.2.files.getk fileName).isSome)

/-- The body of the inner file loop of `markRemainingFilesToBeDeleted`
(lines 357-361): record `{size:0, hash:null}` for the file in its fragment's
bucket unless the file name is already present somewhere in the diff. -/
def markFileStep (p1 : String) (d : Diff) (q : String × MFile) : Diff :=
  if isFileMarkedForDownload d q.1 then d
  else
    match d.getk p1 with
    | some fd => d.setk p1 { fd with files := fd.files.setk q.1 createDeletedFile }
    | none => d

/-- The body of the outer fragment loop of `markRemainingFilesToBeDeleted`
(lines 353-362). -/
def markFragmentStep (d : Diff) (p : String × Fragment) : Diff :=
  p.2.files.foldl (markFileStep p.1) (createEmptyFragmentIfNeeded d p.1)

/-- `DiffHelper.markRemainingFilesToBeDeleted` (lines 344-363), operating on
the pruned local manifest left by the first pass and the evolving diff. -/
def markRemainingFilesToBeDeleted (localHashes : Manifest) (diff : Diff) : Diff :=
  localHashes.foldl markFragmentStep diff

/-- `DiffHelper.createPromise` (lines 144-165): verify the fragment list,
then run the three passes. -/
def createDiff (fragments : List String) (localHashes remoteHashes : Manifest)
    (isWin32 : Bool) : Except String Diff :=
  if !verifyFragmentsList fragments remoteHashes then
    .error "fragment was requested but not found in this version"
  else
    let st := findFilesToDownloadAndFragmentsToDelete fragments localHashes remoteHashes isWin32
    .ok (markRemainingFilesToBeDeleted st.2 (checkPacks remoteHashes st.1))

/-! ## Deletion-pass lemmas (C5) -/

/-- The entry for file `f` in fragment `fr`'s bucket of the diff (outer
`none` when the bucket does not exist). -/
def diffEntry (d : Diff) (fr f : String) : Option (Option DFile) :=
  (d.getk fr).map (fun fd => fd.files.getk f)

theorem setk_of_getk_none {α : Type} (l : JObj α) (k : String) (v : α)
    (h : l.getk k = none) : l.setk k v = l ++ [(k, v)] := by
  induction l with
  | nil => rfl
  | cons p t ih =>
    obtain ⟨k0, v0⟩ := p
    rw [JObj.getk_cons] at h
    by_cases hk : k0 = k
    · rw [if_pos hk] at h; cases h
    · rw [if_neg hk] at h
      show JObj.setk ((k0, v0) :: t) k v = (k0, v0) :: (t ++ [(k, v)])
      unfold JObj.setk
      rw [if_neg hk, ih h]

theorem setk_of_getk_self {α : Type} (l : JObj α) (k : String) (v : α)
    (h : l.getk k = some v) : l.setk k v = l := by
  induction l with
  | nil => cases h
  | cons p t ih =>
    obtain ⟨k0, v0⟩ := p
    rw [JObj.getk_cons] at h
    by_cases hk : k0 = k
    · rw [if_pos hk] at h
      injection h with h
      show JObj.setk ((k0, v0) :: t) k v = (k0, v0) :: t
      unfold JObj.setk
      rw [if_pos hk, hk, h]
    · rw [if_neg hk] at h
      show JObj.setk ((k0, v0) :: t) k v = (k0, v0) :: t
      unfold JObj.setk
      rw [if_neg hk, ih h]

theorem isMarked_setk (d : Diff) (p1 : String) (newfd oldfd : DiffFragment)
    (f : String) (hget : d.getk p1 = some oldfd)
    (hsame : (newfd.files.getk f).isSome = (oldfd.files.getk f).isSome) :
    isFileMarkedForDownload (d.setk p1 newfd) f = isFileMarkedForDownload d f := by
  induction d with
  | nil => cases hget
  | cons p t ih =>
    obtain ⟨k0, v0⟩ := p
    rw [JObj.getk_cons] at hget
    by_cases hk : k0 = p1
    · rw [if_pos hk] at hget
      injection hget with hget
      show isFileMarkedForDownload ((if k0 = p1 then (p1, newfd) :: t
        else (k0, v0) :: JObj.setk t p1 newfd)) f = _
      rw [if_pos hk]
      unfold isFileMarkedForDownload
      simp only [List.any_cons]
      rw [hget, hsame]
    · rw [if_neg hk] at hget
      show isFileMarkedForDownload ((if k0 = p1 then (p1, newfd) :: t
        else (k0, v0) :: JObj.setk t p1 newfd)) f = _
      rw [if_neg hk]
      unfold isFileMarkedForDownload at ih ⊢
      simp only [List.any_cons]
      rw [ih hget]

theorem isMarked_createEmpty (d : Diff) (p1 f : String) :
    isFileMarkedForDownload (createEmptyFragmentIfNeeded d p1) f =
      isFileMarkedForDownload d f := by
  unfold createEmptyFragmentIfNeeded
  cases hg : d.getk p1 with
  | some fd => simp [hg]
  | none =>
    simp only [hg, Option.isSome_none, Bool.false_eq_true, if_false]
    rw [setk_of_getk_none d p1 {} hg]
    unfold isFileMarkedForDownload
    rw [List.any_append]
    simp [JObj.getk]

theorem diffEntry_createEmpty_ne (d : Diff) (p1 fr f : String) (hne : p1 ≠ fr) :
    diffEntry (createEmptyFragmentIfNeeded d p1) fr f = diffEntry d fr f := by
  unfold createEmptyFragmentIfNeeded diffEntry
  cases hg : d.getk p1 with
  | some fd => simp [hg]
  | none =>
    simp only [hg, Option.isSome_none, Bool.false_eq_true, if_false]
    rw [JObj.getk_setk_ne _ _ _ _ (fun h => hne h.symm)]

theorem diffEntry_createEmpty_self (d : Diff) (fr f : String) :
    diffEntry (createEmptyFragmentIfNeeded d fr) fr f =
      some (((d.getk fr).getD {}).files.getk f) := by
  unfold createEmptyFragmentIfNeeded diffEntry
  cases hg : d.getk fr with
  | some fd => simp [hg]
  | none =>
    simp only [hg, Option.isSome_none, Bool.false_eq_true, if_false]
    rw [JObj.getk_setk_self]
    rfl

theorem diffEntry_markFileStep (p1 : String) (d : Diff) (q : String × MFile)
    (fr f : String) (hq : q.1 ≠ f) :
    diffEntry (markFileStep p1 d q) fr f = diffEntry d fr f := by
  unfold markFileStep
  by_cases hm : isFileMarkedForDownload d q.1
  · rw [if_pos hm]
  · rw [if_neg hm]
    cases hg : d.getk p1 with
    | none => rfl
    | some fd =>
      unfold diffEntry
      by_cases hfr : p1 = fr
      · subst hfr
        rw [JObj.getk_setk_self, hg]
        show some (((fd.files.setk q.1 createDeletedFile)).getk f) =
          some (fd.files.getk f)
        rw [JObj.getk_setk_ne _ _ _ _ (fun h => hq h.symm)]
      · rw [JObj.getk_setk_ne _ _ _ _ (fun h => hfr h.symm)]

theorem isMarked_markFileStep (p1 : String) (d : Diff) (q : String × MFile)
    (f : String) (hq : q.1 ≠ f) :
    isFileMarkedForDownload (markFileStep p1 d q) f =
      isFileMarkedForDownload d f := by
  unfold markFileStep
  by_cases hm : isFileMarkedForDownload d q.1
  · rw [if_pos hm]
  · rw [if_neg hm]
    cases hg : d.getk p1 with
    | none => rfl
    | some fd =>
      apply isMarked_setk d p1 _ fd f hg
      show ((fd.files.setk q.1 createDeletedFile).getk f).isSome = _
      rw [JObj.getk_setk_ne _ _ _ _ (fun h => hq h.symm)]

theorem markFragmentStep_preserve (d : Diff) (p : String × Fragment)
    (fr f : String) (hne : p.1 ≠ fr) (hfiles : ∀ q ∈ p.2.files, q.1 ≠ f) :
    diffEntry (markFragmentStep d p) fr f = diffEntry d fr f ∧
    isFileMarkedForDownload (markFragmentStep d p) f =
      isFileMarkedForDownload d f := by
  unfold markFragmentStep
  have h0 : diffEntry (createEmptyFragmentIfNeeded d p.1) fr f = diffEntry d fr f ∧
      isFileMarkedForDownload (createEmptyFragmentIfNeeded d p.1) f =
        isFileMarkedForDownload d f :=
    ⟨diffEntry_createEmpty_ne d p.1 fr f hne, isMarked_createEmpty d p.1 f⟩
  exact foldlPreserve
    (fun x => diffEntry x fr f = diffEntry d fr f ∧
      isFileMarkedForDownload x f = isFileMarkedForDownload d f)
    (markFileStep p.1) p.2.files _
    (fun b a ha hb =>
      ⟨(diffEntry_markFileStep p.1 b a fr f (hfiles a ha)).trans hb.1,
       (isMarked_markFileStep p.1 b a f (hfiles a ha)).trans hb.2⟩)
    h0

theorem markFileFold_preserve (p1 : String) (fl : List (String × MFile))
    (d : Diff) (fr f : String) (hfl : ∀ q ∈ fl, q.1 ≠ f) :
    diffEntry (fl.foldl (markFileStep p1) d) fr f = diffEntry d fr f ∧
    isFileMarkedForDownload (fl.foldl (markFileStep p1) d) f =
      isFileMarkedForDownload d f :=
  foldlPreserve
    (fun x => diffEntry x fr f = diffEntry d fr f ∧
      isFileMarkedForDownload x f = isFileMarkedForDownload d f)
    (markFileStep p1) fl d
    (fun b a ha hb =>
      ⟨(diffEntry_markFileStep p1 b a fr f (hfl a ha)).trans hb.1,
       (isMarked_markFileStep p1 b a f (hfl a ha)).trans hb.2⟩)
    ⟨rfl, rfl⟩

theorem markFragmentFold_entry (L : List (String × Fragment)) (d : Diff)
    (fr f : String) (hL : ∀ p ∈ L, p.1 ≠ fr ∧ ∀ q ∈ p.2.files, q.1 ≠ f) :
    diffEntry (L.foldl markFragmentStep d) fr f = diffEntry d fr f ∧
    isFileMarkedForDownload (L.foldl markFragmentStep d) f =
      isFileMarkedForDownload d f :=
  foldlPreserve
    (fun x => diffEntry x fr f = diffEntry d fr f ∧
      isFileMarkedForDownload x f = isFileMarkedForDownload d f)
    markFragmentStep L d
    (fun b a ha hb =>
      ⟨(markFragmentStep_preserve b a fr f (hL a ha).1 (hL a ha).2).1.trans hb.1,
       (markFragmentStep_preserve b a fr f (hL a ha).1 (hL a ha).2).2.trans hb.2⟩)
    ⟨rfl, rfl⟩

theorem diffEntry_getD (x y : Diff) (fr f : String)
    (h : diffEntry x fr f = diffEntry y fr f) :
    ((x.getk fr).getD {}).files.getk f = ((y.getk fr).getD {}).files.getk f := by
  unfold diffEntry at h
  cases hga : x.getk fr <;> cases hgb : y.getk fr <;>
    rw [hga, hgb] at h <;> simp_all

theorem C5_deletion_pass
    (lm : Manifest) (d : Diff) (fr : String) (lfrag : Fragment) (f : String)
    (e : MFile)
    (hnodupLm : (JObj.keys lm).Nodup)
    (hnodupFiles : (JObj.keys lfrag.files).Nodup)
    (hlf : lm.getk fr = some lfrag)
    (hf : lfrag.files.getk f = some e)
    (hunique : ∀ fr' lfrag', fr' ≠ fr → lm.getk fr' = some lfrag' →
      lfrag'.files.getk f = none) :
    (isFileMarkedForDownload d f = false →
      ∃ fd', (markRemainingFilesToBeDeleted lm d).getk fr = some fd' ∧
        fd'.files.getk f = some createDeletedFile) ∧
    (isFileMarkedForDownload d f = true →
      ∀ fd', (markRemainingFilesToBeDeleted lm d).getk fr = some fd' →
        fd'.files.getk f = ((d.getk fr).getD {}).files.getk f) := by
  obtain ⟨L1, L2, hsplit⟩ := List.append_of_mem (JObj.getk_eq_some_mem hlf)
  have hndk : ((L1.map Prod.fst) ++ fr :: (L2.map Prod.fst)).Nodup := by
    have := hnodupLm
    rw [hsplit] at this
    simpa [JObj.keys] using this
  obtain ⟨hnd1, hnd2, hdisj⟩ := List.nodup_append.mp hndk
  have hfrL1 : fr ∉ L1.map Prod.fst := fun hin =>
    hdisj hin (List.mem_cons_self fr _)
  have hfrL2 : fr ∉ L2.map Prod.fst := (List.nodup_cons.mp hnd2).1
  have hgetmem : ∀ p : String × Fragment, p ∈ L1 ∨ p ∈ L2 →
      p.1 ≠ fr ∧ ∀ q ∈ p.2.files, q.1 ≠ f := by
    intro p hp
    have hne : p.1 ≠ fr := by
      intro he
      rcases hp with hp | hp
      · exact hfrL1 (he ▸ List.mem_map_of_mem Prod.fst hp)
      · exact hfrL2 (he ▸ List.mem_map_of_mem Prod.fst hp)
    refine ⟨hne, ?_⟩
    have hmem : p ∈ lm := by
      rw [hsplit]
      rcases hp with hp | hp
      · exact List.mem_append_left _ hp
      · exact List.mem_append_right _ (List.mem_cons_of_mem _ hp)
    have hget : lm.getk p.1 = some p.2 := JObj.getk_of_mem_nodup hnodupLm hmem
    have hnone := hunique p.1 p.2 hne hget
    exact fun q hq => (JObj.getk_eq_none_iff p.2.files f).mp hnone q hq
  have hL1cond : ∀ p ∈ L1, p.1 ≠ fr ∧ ∀ q ∈ p.2.files, q.1 ≠ f :=
    fun p hp => hgetmem p (Or.inl hp)
  have hL2cond : ∀ p ∈ L2, p.1 ≠ fr ∧ ∀ q ∈ p.2.files, q.1 ≠ f :=
    fun p hp => hgetmem p (Or.inr hp)
  obtain ⟨F1, F2, hfsplit⟩ := List.append_of_mem (JObj.getk_eq_some_mem hf)
  have hndf : ((F1.map Prod.fst) ++ f :: (F2.map Prod.fst)).Nodup := by
    have := hnodupFiles
    rw [hfsplit] at this
    simpa [JObj.keys] using this
  obtain ⟨hq1, hq2, hqdisj⟩ := List.nodup_append.mp hndf
  have hF1cond : ∀ q ∈ F1, q.1 ≠ f := by
    intro q hq he
    exact hqdisj (he ▸ List.mem_map_of_mem Prod.fst hq) (List.mem_cons_self f _)
  have hF2cond : ∀ q ∈ F2, q.1 ≠ f := by
    intro q hq he
    exact (List.nodup_cons.mp hq2).1 (he ▸ List.mem_map_of_mem Prod.fst hq)
  have hrun : markRemainingFilesToBeDeleted lm d =
      L2.foldl markFragmentStep
        (markFragmentStep (L1.foldl markFragmentStep d) (fr, lfrag)) := by
    unfold markRemainingFilesToBeDeleted
    rw [hsplit, List.foldl_append, List.foldl_cons]
  set d1 := L1.foldl markFragmentStep d with hd1
  have h1 := markFragmentFold_entry L1 d fr f hL1cond
  set d2 := createEmptyFragmentIfNeeded d1 fr with hd2
  have h2a : diffEntry d2 fr f = some (((d1.getk fr).getD {}).files.getk f) :=
    diffEntry_createEmpty_self d1 fr f
  have hent1 : ((d1.getk fr).getD {}).files.getk f =
      ((d.getk fr).getD {}).files.getk f := diffEntry_getD d1 d fr f h1.1
  have h2b : isFileMarkedForDownload d2 f = isFileMarkedForDownload d f :=
    (isMarked_createEmpty d1 fr f).trans h1.2
  have hstepRun : markFragmentStep d1 (fr, lfrag) =
      F2.foldl (markFileStep fr)
        (markFileStep fr (F1.foldl (markFileStep fr) d2) ((f, e))) := by
    show lfrag.files.foldl (markFileStep fr) d2 = _
    rw [hfsplit, List.foldl_append, List.foldl_cons]
  set d3 := F1.foldl (markFileStep fr) d2 with hd3
  have h3 := markFileFold_preserve fr F1 d2 fr f hF1cond
  have hm3 : isFileMarkedForDownload d3 f = isFileMarkedForDownload d f :=
    h3.2.trans h2b
  have hentry3 : diffEntry d3 fr f =
      some (((d.getk fr).getD {}).files.getk f) := by
    rw [h3.1, h2a, hent1]
  constructor
  · intro hm
    obtain ⟨fd3, hfd3⟩ : ∃ fd3, d3.getk fr = some fd3 := by
      unfold diffEntry at hentry3
      cases hg : d3.getk fr
      · rw [hg] at hentry3; cases hentry3
      · exact ⟨_, rfl⟩
    have hs4 : markFileStep fr d3 (f, e) =
        d3.setk fr { fd3 with files := fd3.files.setk f createDeletedFile } := by
      unfold markFileStep
      rw [show ((f, e)).1 = f from rfl, hm3, hm]
      simp only [Bool.false_eq_true, if_false, hfd3]
    have h4 : diffEntry (markFileStep fr d3 (f, e)) fr f =
        some (some createDeletedFile) := by
      rw [hs4]
      unfold diffEntry
      rw [JObj.getk_setk_self]
      show some ((fd3.files.setk f createDeletedFile).getk f) = _
      rw [JObj.getk_setk_self]
    have h5 := markFileFold_preserve fr F2 (markFileStep fr d3 (f, e)) fr f hF2cond
    have h6 := markFragmentFold_entry L2
      (F2.foldl (markFileStep fr) (markFileStep fr d3 (f, e))) fr f hL2cond
    have hfinal : diffEntry (markRemainingFilesToBeDeleted lm d) fr f =
        some (some createDeletedFile) := by
      rw [hrun, hstepRun]
      rw [h6.1, h5.1, h4]
    unfold diffEntry at hfinal
    cases hg : (markRemainingFilesToBeDeleted lm d).getk fr with
    | none => rw [hg] at hfinal; cases hfinal
    | some fd' =>
      rw [hg] at hfinal
      refine ⟨fd', rfl, ?_⟩
      simpa using hfinal
  · intro hm fd' hfd'
    have hs4 : markFileStep fr d3 (f, e) = d3 := by
      unfold markFileStep
      rw [show ((f, e)).1 = f from rfl, hm3, hm]
      simp only [if_true]
    have h5 := markFileFold_preserve fr F2 d3 fr f hF2cond
    have h6 := markFragmentFold_entry L2 (F2.foldl (markFileStep fr) d3) fr f
      hL2cond
    have hfinal : diffEntry (markRemainingFilesToBeDeleted lm d) fr f =
        some (((d.getk fr).getD {}).files.getk f) := by
      rw [hrun, hstepRun, hs4, h6.1, h5.1, hentry3]
    unfold diffEntry at hfinal
    rw [hfd'] at hfinal
    simpa using hfinal

/-! ## C5 theorems -/

/-- Local manifest of the C5 counterexample: fragments `A` and `B` both hold
`f` with hash `h` and no exec bit. -/
def localC5 : Manifest :=
  [("A", { files := [("f", { hash := "h", size := 1, executable := false })] }),
   ("B", { files := [("f", { hash := "h", size := 1, executable := false })] })]

/-- Remote manifest of the C5 counterexample: same as the local one except
that `B`'s copy of `f` gains the executable bit (a permission-only change). -/
def remoteC5 : Manifest :=
  [("A", { files := [("f", { hash := "h", size := 1, executable := false })] }),
   ("B", { files := [("f", { hash := "h", size := 1, executable := true })] })]

/-- The diff of the C5 counterexample (selection `["B"]`, non-Windows). -/
def diffC5 : Diff := (createDiff ["B"] localC5 remoteC5 false).toOption.getD []

/-- **C5 (counterexample).**  Diffing with selection `["B"]`: `A` is ignored
but locally present, so its copy of `f` remains after step 1; `B`'s diff
holds a permission-only entry for `f` (`download = false`), so `f` is not
marked for download in any fragment of the diff — yet the deletion pass
records no `{size:0, hash:null}` entry for `f` in `A`'s bucket, because
`isFileMarkedForDownload` tests mere presence, not the download flag.  This
contradicts the claim. -/
theorem C5_presence_blocks_deletion_counterexample :
    (createDiff ["B"] localC5 remoteC5 false).toOption = some diffC5 ∧
    ((findFilesToDownloadAndFragmentsToDelete ["B"] localC5 remoteC5
        false).2.getk "A").map (fun lf => (lf.files.getk "f").isSome) =
      some true ∧
    diffC5.all (fun p => match p.2.files.getk "f" with
      | some en => !en.download
      | none => true) = true ∧
    (diffC5.getk "A").map (fun fd => fd.files.getk "f") = some none := by
  refine ⟨by decide, by decide, by decide, by decide⟩

/-- **C5 (amended).**  In the DiffEngine's deletion pass, every file of the
local manifest that remains after step 1 and whose name is *not present in
any fragment of the diff* (not merely "not marked for download": presence of
any entry — download, permission-only or pack-cleared — blocks deletion) is
recorded as `{size:0, hash:null}` in its fragment's diff bucket; conversely a
remaining local file whose name is present in some fragment of the diff
receives no deletion entry (its fragment's bucket keeps its previous entry
for that name).  Stated for a remaining file occurring in a single local
fragment (paths are unique across fragments). -/
theorem C5_deletion_pass_presence (lm : Manifest) (d : Diff) (fr : String)
    (lfrag : Fragment) (f : String) (e : MFile)
    (hnodupLm : (JObj.keys lm).Nodup)
    (hnodupFiles : (JObj.keys lfrag.files).Nodup)
    (hlf : lm.getk fr = some lfrag)
    (hf : lfrag.files.getk f = some e)
    (hunique : ∀ fr' lfrag', fr' ≠ fr → lm.getk fr' = some lfrag' →
      lfrag'.files.getk f = none) :
    (isFileMarkedForDownload d f = false →
      ∃ fd', (markRemainingFilesToBeDeleted lm d).getk fr = some fd' ∧
        fd'.files.getk f = some createDeletedFile) ∧
    (isFileMarkedForDownload d f = true →
      ∀ fd', (markRemainingFilesToBeDeleted lm d).getk fr = some fd' →
        fd'.files.getk f = ((d.getk fr).getD {}).files.getk f) :=
  C5_deletion_pass lm d fr lfrag f e hnodupLm hnodupFiles hlf hf hunique

/-- Witness for `C5_deletion_pass_presence`: a single remaining local file
`g` not present in the (empty) diff gets its deletion entry. -/
theorem C5_deletion_pass_witness :
    ∃ fd', (markRemainingFilesToBeDeleted
        [("A", { files := [("g", { hash := "h", size := 1, executable := false })] })]
        []).getk "A" = some fd' ∧
      fd'.files.getk "g" = some createDeletedFile :=
  (C5_deletion_pass_presence
      [("A", { files := [("g", { hash := "h", size := 1, executable := false })] })]
      [] "A" { files := [("g", { hash := "h", size := 1, executable := false })] }
      "g" { hash := "h", size := 1, executable := false }
      (by decide) (by decide) (by decide) (by decide)
      (fun fr' lfrag' hne hget => by
        rw [JObj.getk_cons, if_neg (fun h => hne h.symm)] at hget
        cases hget)).1 rfl

/-! ## Self-diff lemmas (C3) -/

theorem JObj.getk_setk {α : Type} (l : JObj α) (k k' : String) (v : α) :
    (l.setk k v).getk k' = if k' = k then some v else l.getk k' := by
  by_cases h : k' = k
  · subst h; rw [if_pos rfl, JObj.getk_setk_self]
  · rw [if_neg h, JObj.getk_setk_ne _ _ _ _ h]

theorem JObj.getk_isSome_of_mem {α : Type} {l : JObj α} {p : String × α}
    (h : p ∈ l) : (l.getk p.1).isSome := by
  induction l with
  | nil => cases h
  | cons q t ih =>
    obtain ⟨k0, v0⟩ := q
    rw [JObj.getk_cons]
    rcases List.mem_cons.mp h with hq | ht
    · subst hq; rw [if_pos rfl]; rfl
    · by_cases hk : k0 = p.1
      · rw [if_pos hk]; rfl
      · rw [if_neg hk]; exact ih ht

theorem JObj.delk_of_not_mem {α : Type} (l : JObj α) (k : String)
    (h : k ∉ l.keys) : l.delk k = l := by
  induction l with
  | nil => rfl
  | cons q t ih =>
    obtain ⟨k0, v0⟩ := q
    have hk0 : k0 ≠ k := by
      intro he
      exact h (he ▸ List.mem_cons_self k0 _)
    have ht : k ∉ JObj.keys t := fun hin => h (List.mem_cons_of_mem _ hin)
    show List.filter (fun p => p.1 ≠ k) ((k0, v0) :: t) = (k0, v0) :: t
    rw [List.filter_cons]
    rw [if_pos (by simpa using hk0)]
    have := ih ht
    unfold JObj.delk at this
    rw [this]

theorem JObj.delk_head {α : Type} (k : String) (v : α) (t : JObj α)
    (h : k ∉ JObj.keys t) : JObj.delk ((k, v) :: t) k = t := by
  show List.filter (fun p => p.1 ≠ k) ((k, v) :: t) = t
  rw [List.filter_cons, if_neg (by simp)]
  have := JObj.delk_of_not_mem t k h
  unfold JObj.delk at this
  rw [this]

theorem JObj.setk_setk {α : Type} (l : JObj α) (k : String) (v v' : α) :
    (l.setk k v).setk k v' = l.setk k v' := by
  induction l with
  | nil => simp [JObj.setk]
  | cons q t ih =>
    obtain ⟨k0, v0⟩ := q
    by_cases hk : k0 = k
    · simp [JObj.setk, hk]
    · simp only [JObj.setk, if_neg hk]
      rw [ih]

/-- Running the inner file loop of the first diff pass over a *selected*
fragment whose local scratch equals the remote file list leaves the diff
untouched and empties the scratch files. -/
theorem diffFileFold_self (fragments : List String) (w : Bool) (frN : String)
    (fragOuter : Fragment) (todo : List (String × MFile))
    (hsel : fragments.contains frN = true) :
    ∀ (d : Diff) (lm : Manifest) (lfCur : Fragment),
      lm.getk frN = some lfCur → lfCur.files = todo →
      (JObj.keys todo).Nodup →
      ∃ lf' : Fragment,
        (todo.foldl (diffFileStep fragments w frN fragOuter) (d, lm)) =
          (d, lm.setk frN lf') ∧ lf'.files = [] := by
  induction todo with
  | nil =>
    intro d lm lfCur hget hfiles hnd
    refine ⟨lfCur, ?_, hfiles⟩
    simp only [List.foldl_nil]
    rw [setk_of_getk_self lm frN lfCur hget]
  | cons q rest ih =>
    intro d lm lfCur hget hfiles hnd
    obtain ⟨fN, rf⟩ := q
    simp only [List.foldl_cons]
    have hfn : fN ∉ JObj.keys rest :=
      (List.nodup_cons.mp (by simpa [JObj.keys] using hnd)).1
    have hloc : lfCur.files.getk fN = some rf := by
      rw [hfiles, JObj.getk_cons, if_pos rfl]
    have hdelk : lfCur.files.delk fN = rest := by
      rw [hfiles]; exact JObj.delk_head fN rf rest hfn
    obtain ⟨lf2, hstep, hlf2⟩ : ∃ lf2,
        diffFileStep fragments w frN fragOuter (d, lm) (fN, rf) =
          (d, lm.setk frN lf2) ∧ lf2.files = rest := by
      unfold diffFileStep
      simp only [hget, hsel, hloc, hdelk, Bool.not_true, Bool.and_false,
        Option.isSome_some, Bool.false_eq_true, if_false, beq_self_eq_true,
        Bool.not_false, Bool.or_self, Bool.and_true]
      cases harch : lfCur.archives with
      | none =>
        refine ⟨{ lfCur with files := rest }, ?_, rfl⟩
        simp [harch]
      | some archs =>
        by_cases hin : (archs.getk fN).isSome
        · refine ⟨{ lfCur with files := rest, archives := some (archs.delk fN) },
            ?_, rfl⟩
          simp [harch, hin]
        · refine ⟨{ lfCur with files := rest }, ?_, rfl⟩
          simp [harch, hin]
    rw [hstep]
    obtain ⟨lf', hres, hlf'⟩ := ih d (lm.setk frN lf2) lf2
      (JObj.getk_setk_self lm frN lf2) hlf2
      ((List.nodup_cons.mp (by simpa [JObj.keys] using hnd)).2)
    refine ⟨lf', ?_, hlf'⟩
    rw [hres, JObj.setk_setk]

/-- Running the inner file loop over an *ignored* fragment whose files are all
locally present changes nothing (each iteration is skipped for the second
pass). -/
theorem diffFileFold_ignored (fragments : List String) (w : Bool)
    (frN : String) (fragOuter : Fragment) (todo : List (String × MFile))
    (hsel : fragments.contains frN = false) :
    ∀ (d : Diff) (lm : Manifest) (lfCur : Fragment),
      lm.getk frN = some lfCur →
      (∀ q ∈ todo, ((lfCur.files.getk q.1)).isSome) →
      todo.foldl (diffFileStep fragments w frN fragOuter) (d, lm) = (d, lm) := by
  induction todo with
  | nil => intro d lm lfCur hget hall; rfl
  | cons q rest ih =>
    intro d lm lfCur hget hall
    simp only [List.foldl_cons]
    have hsome := hall q (List.mem_cons_self q rest)
    have hstep : diffFileStep fragments w frN fragOuter (d, lm) q = (d, lm) := by
      unfold diffFileStep
      simp only [hget, hsel]
      simp [hsome]
    rw [hstep]
    exact ih d lm lfCur hget (fun p hp => hall p (List.mem_cons_of_mem q hp))

theorem hask_of_getk_isSome {α : Type} (l : JObj α) (k : String)
    (h : (l.getk k).isSome) : l.hask k = true := by
  induction l with
  | nil => simp [JObj.getk] at h
  | cons p t ih =>
    obtain ⟨k0, v0⟩ := p
    rw [JObj.getk_cons] at h
    show (decide (k0 = k) || JObj.hask t k) = true
    by_cases hk : k0 = k
    · simp [hk]
    · rw [if_neg hk] at h
      simp [ih h]

/-- Effect of one fragment step of the first pass when the local fragment
equals the remote one: the diff keeps only empty buckets, the fragment's
scratch files are emptied when selected and untouched when ignored, and other
fragments' scratch is untouched. -/
theorem diffFragmentStep_self (fragments : List String) (w : Bool)
    (d : Diff) (lm : Manifest) (p : String × Fragment)
    (hget : lm.getk p.1 = some p.2)
    (hnd : (JObj.keys p.2.files).Nodup)
    (hempty : ∀ fr fd, d.getk fr = some fd → fd = ({} : DiffFragment)) :
    ∃ (d' : Diff) (lm' : Manifest),
      diffFragmentStep fragments w (d, lm) p = (d', lm') ∧
      (∀ fr fd, d'.getk fr = some fd → fd = ({} : DiffFragment)) ∧
      (∀ fr, fr ≠ p.1 → lm'.getk fr = lm.getk fr) ∧
      (fragments.contains p.1 = true →
        ∃ lf' : Fragment, lm'.getk p.1 = some lf' ∧ lf'.files = []) ∧
      (fragments.contains p.1 = false → lm' = lm) ∧
      JObj.keys lm' = JObj.keys lm := by
  have hrun : diffFragmentStep fragments w (d, lm) p =
      p.2.files.foldl (diffFileStep fragments w p.1 p.2)
        (createEmptyFragmentIfNeeded d p.1, lm) := by
    unfold diffFragmentStep
    rw [show ((d, lm).2.getk p.1) = some p.2 from hget]
    rfl
  have hd0 : ∀ fr fd,
      (createEmptyFragmentIfNeeded d p.1).getk fr = some fd →
        fd = ({} : DiffFragment) := by
    intro fr fd hfd
    unfold createEmptyFragmentIfNeeded at hfd
    by_cases hg : (d.getk p.1).isSome
    · rw [if_pos hg] at hfd; exact hempty fr fd hfd
    · rw [if_neg hg, JObj.getk_setk] at hfd
      by_cases hfr : fr = p.1
      · rw [if_pos hfr] at hfd; injection hfd with h; exact h.symm
      · rw [if_neg hfr] at hfd; exact hempty fr fd hfd
  by_cases hc : fragments.contains p.1
  · obtain ⟨lf', hres, hlf'⟩ :=
      diffFileFold_self fragments w p.1 p.2 p.2.files hc
        (createEmptyFragmentIfNeeded d p.1) lm p.2 hget rfl hnd
    refine ⟨createEmptyFragmentIfNeeded d p.1, lm.setk p.1 lf',
      by rw [hrun, hres], hd0, ?_, ?_, ?_, ?_⟩
    · intro fr hfr
      exact JObj.getk_setk_ne lm p.1 fr lf' hfr
    · intro _
      exact ⟨lf', JObj.getk_setk_self lm p.1 lf', hlf'⟩
    · intro hfalse; rw [hc] at hfalse; cases hfalse
    · rw [JObj.keys_setk,
        if_pos (hask_of_getk_isSome lm p.1 (by rw [hget]; rfl))]
  · have hc' : fragments.contains p.1 = false := by
      cases h : fragments.contains p.1
      · rfl
      · exact absurd h hc
    have hres := diffFileFold_ignored fragments w p.1 p.2 p.2.files hc'
      (createEmptyFragmentIfNeeded d p.1) lm p.2 hget
      (fun q hq => JObj.getk_isSome_of_mem hq)
    refine ⟨createEmptyFragmentIfNeeded d p.1, lm,
      by rw [hrun, hres], hd0, fun fr _ => rfl, ?_, fun _ => rfl, rfl⟩
    intro htrue; rw [hc'] at htrue; cases htrue

/-- Running the whole first pass with a local scratch agreeing with the
remote list: all diff buckets are empty, selected fragments' scratch files
are emptied, ignored fragments' scratch is untouched. -/
theorem diffFold_self (fragments : List String) (w : Bool)
    (R : List (String × Fragment)) :
    ∀ (d : Diff) (lm : Manifest),
      (∀ fr fd, d.getk fr = some fd → fd = ({} : DiffFragment)) →
      (∀ p ∈ R, lm.getk p.1 = some p.2) →
      (∀ p ∈ R, (JObj.keys p.2.files).Nodup) →
      (JObj.keys R).Nodup →
      ∃ (d' : Diff) (lm' : Manifest),
        R.foldl (diffFragmentStep fragments w) (d, lm) = (d', lm') ∧
        (∀ fr fd, d'.getk fr = some fd → fd = ({} : DiffFragment)) ∧
        (∀ fr, fr ∉ JObj.keys R → lm'.getk fr = lm.getk fr) ∧
        (∀ fr ∈ JObj.keys R, fragments.contains fr = true →
          ∃ lf' : Fragment, lm'.getk fr = some lf' ∧ lf'.files = []) ∧
        (∀ fr ∈ JObj.keys R, fragments.contains fr = false →
          lm'.getk fr = lm.getk fr) ∧
        JObj.keys lm' = JObj.keys lm := by
  induction R with
  | nil =>
    intro d lm hempty hget hndf hndk
    exact ⟨d, lm, rfl, hempty, fun fr _ => rfl, fun fr hfr => absurd hfr
      (by simp [JObj.keys]), fun fr hfr => absurd hfr (by simp [JObj.keys]), rfl⟩
  | cons p rest ih =>
    intro d lm hempty hget hndf hndk
    have hndk' : (JObj.keys rest).Nodup :=
      (List.nodup_cons.mp (by simpa [JObj.keys] using hndk)).2
    have hp1rest : p.1 ∉ JObj.keys rest :=
      (List.nodup_cons.mp (by simpa [JObj.keys] using hndk)).1
    obtain ⟨d1, lm1, hstep, hd1, hlm1ne, hlm1sel, hlm1ign, hlm1keys⟩ :=
      diffFragmentStep_self fragments w d lm p
        (hget p (List.mem_cons_self p rest))
        (hndf p (List.mem_cons_self p rest)) hempty
    have hgetrest : ∀ q ∈ rest, lm1.getk q.1 = some q.2 := by
      intro q hq
      have hne : q.1 ≠ p.1 := by
        intro he
        exact hp1rest (he ▸ List.mem_map_of_mem Prod.fst hq)
      rw [hlm1ne q.1 hne]
      exact hget q (List.mem_cons_of_mem p hq)
    obtain ⟨d', lm', hres, hd', hlmne, hlmsel, hlmign, hlmkeys⟩ :=
      ih d1 lm1 hd1 hgetrest
        (fun q hq => hndf q (List.mem_cons_of_mem p hq)) hndk'
    refine ⟨d', lm', ?_, hd', ?_, ?_, ?_, hlmkeys.trans hlm1keys⟩
    · simp only [List.foldl_cons, hstep, hres]
    · intro fr hfr
      have hfr1 : fr ≠ p.1 := by
        intro he
        exact hfr (he ▸ List.mem_cons_self p.1 _)
      have hfrrest : fr ∉ JObj.keys rest := by
        intro hin
        exact hfr (List.mem_cons_of_mem p.1 hin)
      rw [hlmne fr hfrrest, hlm1ne fr hfr1]
    · intro fr hfr hc
      have hfr' : fr = p.1 ∨ fr ∈ JObj.keys rest := by
        simpa [JObj.keys] using hfr
      rcases hfr' with he | hfr'
      · obtain ⟨lf', hlf', hfiles⟩ := hlm1sel (he ▸ hc)
        refine ⟨lf', ?_, hfiles⟩
        rw [he, hlmne p.1 hp1rest]
        exact hlf'
      · exact hlmsel fr hfr' hc
    · intro fr hfr hc
      have hfr' : fr = p.1 ∨ fr ∈ JObj.keys rest := by
        simpa [JObj.keys] using hfr
      rcases hfr' with he | hfr'
      · rw [he, hlmne p.1 hp1rest, hlm1ign (he ▸ hc)]
      · have hne : fr ≠ p.1 := fun he2 => hp1rest (he2 ▸ hfr')
        rw [hlmign fr hfr' hc, hlm1ne fr hne]

/-! ## Empty-diff pack-pass and deletion-pass lemmas (C3) -/

theorem getFilesInPack_emptyHashes (pack : PackInfo) (fd : DiffFragment)
    (h : fd.hashes = []) : getFilesInPack pack fd = [] := by
  unfold getFilesInPack
  apply foldlPreserve (fun x => x = []) _ pack.hashes []
  · intro b a _ hb
    rw [h]
    simp only [JObj.getk_nil]
    exact hb
  · rfl

theorem checkPack_emptyHashes (fd : DiffFragment) (ph : String)
    (pack : PackInfo) (h : fd.hashes = []) : checkPack fd ph pack = fd := by
  unfold checkPack
  rw [getFilesInPack_emptyHashes pack fd h]
  unfold mustDownloadPack
  simp

theorem checkPacksInFragment_emptyHashes (packs : JObj PackInfo)
    (fd : DiffFragment) (h : fd.hashes = []) :
    checkPacksInFragment packs fd = fd := by
  unfold checkPacksInFragment
  apply foldlPreserve (fun x => x = fd) _ packs fd
  · intro b a _ hb
    rw [hb, checkPack_emptyHashes fd a.1 a.2 h]
  · rfl

theorem checkPacks_of_emptyBuckets (R : Manifest) (d : Diff)
    (h : ∀ fr fd, d.getk fr = some fd → fd = ({} : DiffFragment)) :
    checkPacks R d = d := by
  unfold checkPacks
  apply foldlPreserve (fun x => x = d) _ R d
  · intro b a _ hb
    subst hb
    cases hp : a.2.packs with
    | none => rfl
    | some packs =>
      simp only
      cases hg : b.getk a.1 with
      | none => rfl
      | some fd =>
        have hfd := h a.1 fd hg
        subst hfd
        show JObj.setk b a.1 (checkPacksInFragment packs {}) = b
        rw [checkPacksInFragment_emptyHashes packs {} rfl]
        exact setk_of_getk_self b a.1 {} hg
  · rfl

/-- Every file entry of every bucket of the diff has `download = false`. -/
def diffAllNoDownload (d : Diff) : Prop :=
  ∀ fr fd, d.getk fr = some fd → ∀ f e, fd.files.getk f = some e →
    e.download = false

theorem createEmpty_noDownload (d : Diff) (p1 : String)
    (h : diffAllNoDownload d) :
    diffAllNoDownload (createEmptyFragmentIfNeeded d p1) := by
  intro fr fd hfd f e he
  unfold createEmptyFragmentIfNeeded at hfd
  by_cases hg : (d.getk p1).isSome
  · rw [if_pos hg] at hfd; exact h fr fd hfd f e he
  · rw [if_neg hg, JObj.getk_setk] at hfd
    by_cases hfr : fr = p1
    · rw [if_pos hfr] at hfd
      injection hfd with hfd
      subst hfd
      cases he
    · rw [if_neg hfr] at hfd
      exact h fr fd hfd f e he

theorem markFileStep_noDownload (p1 : String) (d : Diff) (q : String × MFile)
    (h : diffAllNoDownload d) : diffAllNoDownload (markFileStep p1 d q) := by
  unfold markFileStep
  by_cases hm : isFileMarkedForDownload d q.1
  · rwa [if_pos hm]
  · rw [if_neg hm]
    cases hg : d.getk p1 with
    | none => exact h
    | some fd =>
      intro fr fd' hfd' f e he
      rw [JObj.getk_setk] at hfd'
      by_cases hfr : fr = p1
      · rw [if_pos hfr] at hfd'
        injection hfd' with hfd'
        subst hfd'
        simp only at he
        rw [JObj.getk_setk] at he
        by_cases hf : f = q.1
        · rw [if_pos hf] at he
          injection he with he
          subst he
          rfl
        · rw [if_neg hf] at he
          exact h p1 fd hg f e he
      · rw [if_neg hfr] at hfd'
        exact h fr fd' hfd' f e he

theorem markRemaining_noDownload (lm : Manifest) (d : Diff)
    (h : diffAllNoDownload d) :
    diffAllNoDownload (markRemainingFilesToBeDeleted lm d) := by
  unfold markRemainingFilesToBeDeleted
  apply foldlPreserve diffAllNoDownload markFragmentStep lm d _ h
  intro b a _ hb
  unfold markFragmentStep
  apply foldlPreserve diffAllNoDownload (markFileStep a.1) a.2.files _ _
    (createEmpty_noDownload b a.1 hb)
  intro b' a' _ hb'
  exact markFileStep_noDownload a.1 b' a' hb'

theorem markFragmentStep_getk_ne (d : Diff) (p : String × Fragment)
    (fr : String) (hne : fr ≠ p.1) :
    (markFragmentStep d p).getk fr = d.getk fr := by
  unfold markFragmentStep
  have h0 : (createEmptyFragmentIfNeeded d p.1).getk fr = d.getk fr := by
    unfold createEmptyFragmentIfNeeded
    by_cases hg : (d.getk p.1).isSome
    · rw [if_pos hg]
    · rw [if_neg hg, JObj.getk_setk, if_neg hne]
  apply foldlPreserve (fun x => x.getk fr = d.getk fr)
    (markFileStep p.1) p.2.files _ _ h0
  intro b a _ hb
  unfold markFileStep
  by_cases hm : isFileMarkedForDownload b a.1
  · rwa [if_pos hm]
  · rw [if_neg hm]
    cases hg : b.getk p.1 with
    | none => exact hb
    | some fd =>
      show (b.setk p.1 _).getk fr = d.getk fr
      rw [JObj.getk_setk, if_neg hne]
      exact hb

theorem markRemaining_selEmpty (fragments : List String) (lm : Manifest)
    (d : Diff)
    (hlm : ∀ p ∈ lm, fragments.contains p.1 = true → p.2.files = [])
    (h : ∀ fr, fragments.contains fr = true → ∀ fd, d.getk fr = some fd →
      fd.files = []) :
    ∀ fr, fragments.contains fr = true →
      ∀ fd, (markRemainingFilesToBeDeleted lm d).getk fr = some fd →
        fd.files = [] := by
  unfold markRemainingFilesToBeDeleted
  apply foldlPreserve (fun x => ∀ fr, fragments.contains fr = true →
    ∀ fd, x.getk fr = some fd → fd.files = []) markFragmentStep lm d _ h
  intro b a ha hb
  by_cases hsel : fragments.contains a.1
  · have hfiles : a.2.files = [] := hlm a ha hsel
    intro fr hc fd hfd
    have hstep : markFragmentStep b a = createEmptyFragmentIfNeeded b a.1 := by
      unfold markFragmentStep
      rw [hfiles]
      rfl
    rw [hstep] at hfd
    unfold createEmptyFragmentIfNeeded at hfd
    by_cases hg : (b.getk a.1).isSome
    · rw [if_pos hg] at hfd; exact hb fr hc fd hfd
    · rw [if_neg hg, JObj.getk_setk] at hfd
      by_cases hfr : fr = a.1
      · rw [if_pos hfr] at hfd
        injection hfd with hfd
        subst hfd
        rfl
      · rw [if_neg hfr] at hfd
        exact hb fr hc fd hfd
  · intro fr hc fd hfd
    have hne : fr ≠ a.1 := by
      intro he
      rw [he] at hc
      exact hsel hc
    rw [markFragmentStep_getk_ne b a fr hne] at hfd
    exact hb fr hc fd hfd

/-! ## C3 theorem -/

/-- **C3.**  For every fragment selection whose names are all present in a
manifest `L` (with JS-object key uniqueness), running the DiffEngine with
local = remote = `L` yields a diff whose download set is empty — no file
entry of any bucket has `download = true` — and whose deletion entries can
only live in fragments outside the selection: every selected fragment's
bucket has an empty file set. -/
theorem C3_selfDiff_empty_download (fragments : List String) (L : Manifest)
    (w : Bool)
    (hver : verifyFragmentsList fragments L = true)
    (hndL : (JObj.keys L).Nodup)
    (hndF : ∀ p ∈ L, (JObj.keys p.2.files).Nodup) :
    ∃ d, createDiff fragments L L w = .ok d ∧
      (∀ fr fd, d.getk fr = some fd → ∀ f e, fd.files.getk f = some e →
        e.download = false) ∧
      (∀ fr, fragments.contains fr = true → ∀ fd, d.getk fr = some fd →
        fd.files = []) := by
  obtain ⟨d1, lm1, hrun, hd1, hlmne, hlmsel, hlmign, hlmkeys⟩ :=
    diffFold_self fragments w L ([] : Diff) L
      (by intro fr fd h; cases h)
      (fun p hp => JObj.getk_of_mem_nodup hndL hp) hndF hndL
  have hff : findFilesToDownloadAndFragmentsToDelete fragments L L w =
      (d1, lm1) := hrun
  have hcp : checkPacks L d1 = d1 := checkPacks_of_emptyBuckets L d1 hd1
  have hcd : createDiff fragments L L w =
      .ok (markRemainingFilesToBeDeleted lm1 d1) := by
    unfold createDiff
    rw [hver]
    simp only [Bool.not_true, Bool.false_eq_true, if_false]
    rw [hff]
    show Except.ok (markRemainingFilesToBeDeleted lm1 (checkPacks L d1)) = _
    rw [hcp]
  refine ⟨markRemainingFilesToBeDeleted lm1 d1, hcd, ?_, ?_⟩
  · have hnd1 : diffAllNoDownload d1 := by
      intro fr fd hfd f e he
      have := hd1 fr fd hfd
      subst this
      cases he
    exact markRemaining_noDownload lm1 d1 hnd1
  · apply markRemaining_selEmpty fragments lm1 d1
    · intro p hp hc
      have hnd1k : (JObj.keys lm1).Nodup := by rw [hlmkeys]; exact hndL
      have hget : lm1.getk p.1 = some p.2 := JObj.getk_of_mem_nodup hnd1k hp
      have hmem : p.1 ∈ JObj.keys L := by
        rw [← hlmkeys]
        exact List.mem_map_of_mem Prod.fst hp
      obtain ⟨lf', hlf', hfiles⟩ := hlmsel p.1 hmem hc
      rw [hget] at hlf'
      injection hlf' with hlf'
      rw [← hlf'] at hfiles
      exact hfiles
    · intro fr hc fd hfd
      have := hd1 fr fd hfd
      subst this
      rfl

/-- Witness for `C3_selfDiff_empty_download` at a concrete manifest: one
selected fragment `m` plus a locally-present unselected fragment `o`. -/
theorem C3_selfDiff_witness :
    ∃ d, createDiff ["m"]
        [("m", { files := [("a", { hash := "x", size := 1, executable := false })] }),
         ("o", { files := [("b", { hash := "y", size := 2, executable := true })] })]
        [("m", { files := [("a", { hash := "x", size := 1, executable := false })] }),
         ("o", { files := [("b", { hash := "y", size := 2, executable := true })] })]
        false = .ok d ∧
      (∀ fr fd, d.getk fr = some fd → ∀ f e, fd.files.getk f = some e →
        e.download = false) ∧
      (∀ fr, (["m"] : List String).contains fr = true →
        ∀ fd, d.getk fr = some fd → fd.files = []) :=
  C3_selfDiff_empty_download ["m"] _ false (by decide) (by decide)
    (by
      intro p hp
      rcases List.mem_cons.mp hp with h | h
      · subst h; decide
      · rcases List.mem_cons.mp h with h | h
        · subst h; decide
        · cases h)

/-! ## Pack-pass lemmas (C2) -/

/-- Consistency of a step-1 diff bucket: every downloadable file entry is
indexed under its hash, and every hash-index record points to an existing
file entry. -/
def DiffConsistent (fd : DiffFragment) : Prop :=
  (∀ f e, fd.files.getk f = some e → e.download = true →
    ∃ h, e.hash = some h ∧ ∃ r ∈ (fd.hashes.getk h).getD [], r.fileName = f) ∧
  (∀ h recs, fd.hashes.getk h = some recs → ∀ r ∈ recs,
    ((fd.files.getk r.fileName)).isSome)

/-- Well-formedness of a step-1 diff bucket. -/
def BucketWF (fd : DiffFragment) : Prop :=
  (JObj.keys fd.files).Nodup ∧ DiffConsistent fd

/-- The to-download files of a fragment diff whose content hashes are listed
in the pack — the set the claim counts. -/
def downloadInPack (fd : DiffFragment) (pack : PackInfo) : JObj DFile :=
  fd.files.filter (fun p => p.2.download &&
    (match p.2.hash with
     | some h => pack.hashes.contains h
     | none => false))

theorem JObj.nodup_keys_setk {α : Type} (l : JObj α) (k : String) (v : α)
    (h : (JObj.keys l).Nodup) : (JObj.keys (l.setk k v)).Nodup := by
  rw [JObj.keys_setk]
  by_cases hk : l.hask k
  · rwa [if_pos hk]
  · rw [if_neg hk]
    rw [List.nodup_append]
    refine ⟨h, List.nodup_singleton k, ?_⟩
    intro a ha hb
    rw [List.mem_singleton] at hb
    subst hb
    have : l.hask a = true := by
      unfold JObj.keys at ha
      obtain ⟨p, hp, hpa⟩ := List.mem_map.mp ha
      unfold JObj.hask
      rw [List.any_eq_true]
      exact ⟨p, hp, by simpa using hpa⟩
    exact hk this

theorem JObj.mem_keys_setk {α : Type} (l : JObj α) (k k' : String) (v : α)
    (h : k' ∈ JObj.keys l) : k' ∈ JObj.keys (l.setk k v) := by
  rw [JObj.keys_setk]
  by_cases hk : l.hask k
  · rwa [if_pos hk]
  · rw [if_neg hk]
    exact List.mem_append_left _ h

theorem JObj.mem_keys_setk_self {α : Type} (l : JObj α) (k : String) (v : α) :
    k ∈ JObj.keys (l.setk k v) := by
  have := JObj.getk_setk_self l k v
  have hmem := JObj.getk_eq_some_mem this
  exact List.mem_map_of_mem Prod.fst hmem

/-- Shape of the diff component after one step of the inner file loop of the
first pass: either untouched, or the fragment's bucket had its file entry set
and its hash index appended for the processed file. -/
theorem diffFileStep_fst_shape (fragments : List String) (w : Bool)
    (frN : String) (fragOuter : Fragment) (st : Diff × Manifest)
    (q : String × MFile) :
    (diffFileStep fragments w frN fragOuter st q).1 = st.1 ∨
    ∃ (bucket : DiffFragment) (dl up : Bool) (A : JObj ArchiveInfo),
      st.1.getk frN = some bucket ∧
      (diffFileStep fragments w frN fragOuter st q).1 =
        st.1.setk frN
          { files := bucket.files.setk q.1
              { isPack := false, download := dl, updatePermissions := up,
                hash := some q.2.hash, size := q.2.size,
                executable := q.2.executable, packFiles := none },
            hashes := bucket.hashes.setk q.2.hash
              ((bucket.hashes.getk q.2.hash).getD [] ++
                [{ fileName := q.1, size := q.2.size,
                   executable := q.2.executable }]),
            archives := A } := by
  unfold diffFileStep
  cases hb : st.1.getk frN with
  | none =>
    left
    simp only [hb]
    repeat' split
    all_goals rfl
  | some bucket =>
    simp only [hb]
    repeat' split
    all_goals
      first
        | (left; rfl)
        | (right; exact ⟨bucket, _, _, _, rfl, rfl⟩)

/-- The bucket update of the first pass preserves bucket well-formedness. -/
theorem bucketUpdate_WF (bucket : DiffFragment) (fN : String) (rf : MFile)
    (dl up : Bool) (A : JObj ArchiveInfo) (h : BucketWF bucket) :
    BucketWF
      { files := bucket.files.setk fN
          { isPack := false, download := dl, updatePermissions := up,
            hash := some rf.hash, size := rf.size,
            executable := rf.executable, packFiles := none },
        hashes := bucket.hashes.setk rf.hash
          ((bucket.hashes.getk rf.hash).getD [] ++
            [{ fileName := fN, size := rf.size, executable := rf.executable }]),
        archives := A } := by
  have hnd := h.1
  have hfwd := h.2.1
  have hbwd := h.2.2
  refine ⟨JObj.nodup_keys_setk _ _ _ hnd, ?_, ?_⟩
  · intro f e he hdl
    simp only at he ⊢
    rw [JObj.getk_setk] at he
    by_cases hf : f = fN
    · rw [if_pos hf] at he
      injection he with he
      subst he
      refine ⟨rf.hash, rfl, ?_⟩
      rw [JObj.getk_setk_self]
      simp only [Option.getD_some]
      refine ⟨_, List.mem_append_right _ (List.mem_singleton_self _), ?_⟩
      rw [hf]
    · rw [if_neg hf] at he
      obtain ⟨hh, hhash, r, hr, hrname⟩ := hfwd f e he hdl
      refine ⟨hh, hhash, ?_⟩
      rw [JObj.getk_setk]
      by_cases hhh : hh = rf.hash
      · rw [if_pos hhh]
        simp only [Option.getD_some]
        rw [hhh] at hr
        exact ⟨r, List.mem_append_left _ hr, hrname⟩
      · rw [if_neg hhh]
        exact ⟨r, hr, hrname⟩
  · intro hh recs hrecs r hr
    simp only at hrecs ⊢
    rw [JObj.getk_setk] at hrecs
    by_cases hhh : hh = rf.hash
    · rw [if_pos hhh] at hrecs
      injection hrecs with hrecs
      subst hrecs
      rcases List.mem_append.mp hr with hr | hr
      · cases hold : bucket.hashes.getk rf.hash with
        | none => rw [hold] at hr; cases hr
        | some recs0 =>
          rw [hold] at hr
          simp only [Option.getD_some] at hr
          exact JObj.getk_isSome_setk _ _ _ _ (hbwd rf.hash recs0 hold r hr)
      · rw [List.mem_singleton] at hr
        subst hr
        rw [JObj.getk_setk_self]
        rfl
    · rw [if_neg hhh] at hrecs
      exact JObj.getk_isSome_setk _ _ _ _ (hbwd hh recs hrecs r hr)

/-- All buckets produced by the first pass are well-formed. -/
theorem findFiles_bucketWF (fragments : List String)
    (localHashes remoteHashes : Manifest) (w : Bool) :
    ∀ fr fd, (findFilesToDownloadAndFragmentsToDelete fragments localHashes
      remoteHashes w).1.getk fr = some fd → BucketWF fd := by
  unfold findFilesToDownloadAndFragmentsToDelete
  apply foldlPreserve
    (fun (st : Diff × Manifest) => ∀ fr fd, st.1.getk fr = some fd → BucketWF fd)
    (diffFragmentStep fragments w) remoteHashes ([], localHashes)
  · intro st p _ hst
    have hstep : (diffFragmentStep fragments w st p) = st ∨
        (diffFragmentStep fragments w st p) =
          p.2.files.foldl (diffFileStep fragments w p.1 p.2)
            (createEmptyFragmentIfNeeded st.1 p.1, st.2) := by
      unfold diffFragmentStep
      dsimp only
      split
      · left; rfl
      · right; rfl
    rcases hstep with hcase | hcase
    · rw [hcase]; exact hst
    · rw [hcase]
      have h0 : ∀ fr fd,
          (createEmptyFragmentIfNeeded st.1 p.1).getk fr = some fd →
            BucketWF fd := by
        intro fr fd hfd
        unfold createEmptyFragmentIfNeeded at hfd
        by_cases hg : (st.1.getk p.1).isSome
        · rw [if_pos hg] at hfd; exact hst fr fd hfd
        · rw [if_neg hg, JObj.getk_setk] at hfd
          by_cases hfr : fr = p.1
          · rw [if_pos hfr] at hfd
            injection hfd with hfd
            subst hfd
            have hcons : DiffConsistent ({} : DiffFragment) := by
              unfold DiffConsistent
              constructor
              · intro f e he
                cases he
              · intro hh recs hrecs
                cases hrecs
            exact ⟨List.nodup_nil, hcons⟩
          · rw [if_neg hfr] at hfd; exact hst fr fd hfd
      apply foldlPreserve
        (fun (st : Diff × Manifest) => ∀ fr fd, st.1.getk fr = some fd →
          BucketWF fd)
        (diffFileStep fragments w p.1 p.2) p.2.files _ _ h0
      intro st' q _ hst'
      rcases diffFileStep_fst_shape fragments w p.1 p.2 st' q with hsame | hshape
      · intro fr fd hfd
        rw [hsame] at hfd
        exact hst' fr fd hfd
      · obtain ⟨bucket, dl, up, A, hbucket, hres⟩ := hshape
        intro fr fd hfd
        rw [hres, JObj.getk_setk] at hfd
        by_cases hfr : fr = p.1
        · rw [if_pos hfr] at hfd
          injection hfd with hfd
          subst hfd
          exact bucketUpdate_WF bucket q.1 q.2 dl up A (hst' p.1 bucket hbucket)
        · rw [if_neg hfr] at hfd
          exact hst' fr fd hfd
  · intro fr fd hfd
    cases hfd

theorem JObj.mem_keys_setk_inv {α : Type} (l : JObj α) (k k' : String) (v : α)
    (h : k' ∈ JObj.keys (l.setk k v)) : k' ∈ JObj.keys l ∨ k' = k := by
  rw [JObj.keys_setk] at h
  by_cases hk : l.hask k
  · rw [if_pos hk] at h; exact Or.inl h
  · rw [if_neg hk] at h
    rcases List.mem_append.mp h with h | h
    · exact Or.inl h
    · exact Or.inr (List.mem_singleton.mp h)

theorem getFilesInPack_keys_nodup (pack : PackInfo) (fd : DiffFragment) :
    (JObj.keys (getFilesInPack pack fd)).Nodup := by
  unfold getFilesInPack
  apply foldlPreserve (fun x => (JObj.keys x).Nodup) _ pack.hashes []
  · intro b a _ hb
    cases hg : fd.hashes.getk a with
    | none => exact hb
    | some files =>
      simp only
      apply foldlPreserve (fun x => (JObj.keys x).Nodup) _ files b _ hb
      intro b' r _ hb'
      exact JObj.nodup_keys_setk _ _ _ hb'
  · exact List.nodup_nil

theorem getFilesInPack_keys_mono (pack : PackInfo) (fd : DiffFragment)
    (l : List String) (acc : JObj MFile) (n : String)
    (h : n ∈ JObj.keys acc) :
    n ∈ JObj.keys (l.foldl (fun acc fileHash =>
      match fd.hashes.getk fileHash with
      | some files => files.foldl (fun acc file =>
          acc.setk file.fileName { hash := fileHash, size := file.size, executable := file.executable }) acc
      | none => acc) acc) := by
  apply foldlPreserve (fun x => n ∈ JObj.keys x) _ l acc _ h
  intro b a _ hb
  cases hg : fd.hashes.getk a with
  | none => exact hb
  | some files =>
    simp only
    apply foldlPreserve (fun x => n ∈ JObj.keys x) _ files b _ hb
    intro b' r _ hb'
    exact JObj.mem_keys_setk _ _ _ _ hb'

theorem getFilesInPack_mem (pack : PackInfo) (fd : DiffFragment)
    (hh : String) (recs : List HashRec) (r : HashRec)
    (hhp : hh ∈ pack.hashes) (hrecs : fd.hashes.getk hh = some recs)
    (hr : r ∈ recs) :
    r.fileName ∈ JObj.keys (getFilesInPack pack fd) := by
  unfold getFilesInPack
  have inner : ∀ (rs : List HashRec) (acc : JObj MFile), r ∈ rs →
      r.fileName ∈ JObj.keys (rs.foldl (fun acc file =>
        acc.setk file.fileName { hash := hh, size := file.size, executable := file.executable }) acc) := by
    intro rs
    induction rs with
    | nil => intro acc h; cases h
    | cons r0 rest ih =>
      intro acc h
      rcases List.mem_cons.mp h with h | h
      · subst h
        simp only [List.foldl_cons]
        apply foldlPreserve (fun x => r.fileName ∈ JObj.keys x) _ rest _ _
          (JObj.mem_keys_setk_self acc r.fileName _)
        intro b' r' _ hb'
        exact JObj.mem_keys_setk _ _ _ _ hb'
      · exact ih _ h
  have main : ∀ (l : List String) (acc : JObj MFile),
      hh ∈ l ∨ r.fileName ∈ JObj.keys acc →
      r.fileName ∈ JObj.keys (l.foldl (fun acc fileHash =>
        match fd.hashes.getk fileHash with
        | some files => files.foldl (fun acc file =>
            acc.setk file.fileName { hash := fileHash, size := file.size, executable := file.executable }) acc
        | none => acc) acc) := by
    intro l
    induction l with
    | nil =>
      intro acc h
      rcases h with h | h
      · cases h
      · exact h
    | cons h0 rest ih =>
      intro acc h
      simp only [List.foldl_cons]
      rcases h with h | h
      · rcases List.mem_cons.mp h with h | h
        · subst h
          apply ih
          right
          rw [hrecs]
          exact inner recs acc hr
        · exact ih _ (Or.inl h)
      · apply ih
        right
        cases hg : fd.hashes.getk h0 with
        | none => exact h
        | some files =>
          simp only
          apply foldlPreserve (fun x => r.fileName ∈ JObj.keys x) _ files acc _ h
          intro b' r' _ hb'
          exact JObj.mem_keys_setk _ _ _ _ hb'
  exact main pack.hashes [] (Or.inl hhp)

theorem getFilesInPack_keys_sub (pack : PackInfo) (fd : DiffFragment)
    (n : String) (h : n ∈ JObj.keys (getFilesInPack pack fd)) :
    ∃ (hh : String) (recs : List HashRec) (r : HashRec),
      fd.hashes.getk hh = some recs ∧ r ∈ recs ∧ r.fileName = n := by
  unfold getFilesInPack at h
  have main : ∀ (l : List String) (acc : JObj MFile),
      (∀ n' ∈ JObj.keys acc, ∃ (hh : String) (recs : List HashRec)
        (r : HashRec), fd.hashes.getk hh = some recs ∧ r ∈ recs ∧
          r.fileName = n') →
      ∀ n' ∈ JObj.keys (l.foldl (fun acc fileHash =>
        match fd.hashes.getk fileHash with
        | some files => files.foldl (fun acc file =>
            acc.setk file.fileName { hash := fileHash, size := file.size, executable := file.executable }) acc
        | none => acc) acc),
        ∃ (hh : String) (recs : List HashRec) (r : HashRec),
          fd.hashes.getk hh = some recs ∧ r ∈ recs ∧ r.fileName = n' := by
    intro l
    induction l with
    | nil => intro acc hacc n' hn'; exact hacc n' hn'
    | cons h0 rest ih =>
      intro acc hacc n' hn'
      simp only [List.foldl_cons] at hn'
      refine ih _ ?_ n' hn'
      cases hg : fd.hashes.getk h0 with
      | none => exact hacc
      | some files =>
        simp only
        have inner : ∀ (rs : List HashRec) (acc0 : JObj MFile),
            (∀ n' ∈ JObj.keys acc0, ∃ (hh : String) (recs : List HashRec)
              (r : HashRec), fd.hashes.getk hh = some recs ∧ r ∈ recs ∧
                r.fileName = n') →
            (∀ r ∈ rs, r ∈ files) →
            ∀ n' ∈ JObj.keys (rs.foldl (fun acc file =>
              acc.setk file.fileName { hash := h0, size := file.size, executable := file.executable }) acc0),
              ∃ (hh : String) (recs : List HashRec) (r : HashRec),
                fd.hashes.getk hh = some recs ∧ r ∈ recs ∧ r.fileName = n' := by
          intro rs
          induction rs with
          | nil => intro acc0 hacc0 _ n' hn'; exact hacc0 n' hn'
          | cons r0 rest0 ih0 =>
            intro acc0 hacc0 hsub n' hn'
            simp only [List.foldl_cons] at hn'
            refine ih0 _ ?_ (fun r hr => hsub r (List.mem_cons_of_mem r0 hr))
              n' hn'
            intro n'' hn''
            rcases JObj.mem_keys_setk_inv _ _ _ _ hn'' with hn'' | hn''
            · exact hacc0 n'' hn''
            · exact ⟨h0, files, r0, hg, hsub r0 (List.mem_cons_self r0 rest0),
                hn''.symm⟩
        exact inner files acc hacc (fun r hr => hr)
  exact main pack.hashes [] (fun n' hn' => by cases hn') n h

/-- A downloadable file entry whose hash is listed in the pack is among the
pack's member files computed by `getFilesInPack`. -/
theorem mem_members_of_download (fd : DiffFragment) (pack : PackInfo)
    (f : String) (e : DFile) (hwf : BucketWF fd)
    (hget : fd.files.getk f = some e) (hdl : e.download = true)
    (hh : String) (hhash : e.hash = some hh) (hhp : hh ∈ pack.hashes) :
    f ∈ JObj.keys (getFilesInPack pack fd) := by
  obtain ⟨hh', hhash', r, hr, hrname⟩ := hwf.2.1 f e hget hdl
  have hhe : hh' = hh := by
    rw [hhash] at hhash'
    injection hhash' with hhash'
    exact hhash'.symm
  subst hhe
  cases hrecs : fd.hashes.getk hh' with
  | none => rw [hrecs] at hr; cases hr
  | some recs =>
    rw [hrecs] at hr
    simp only [Option.getD_some] at hr
    have := getFilesInPack_mem pack fd hh' recs r hhp hrecs hr
    rwa [hrname] at this

theorem downloadInPack_sub (fd : DiffFragment) (pack : PackInfo)
    (hwf : BucketWF fd) :
    ∀ f ∈ JObj.keys (downloadInPack fd pack),
      f ∈ JObj.keys (getFilesInPack pack fd) := by
  intro f hf
  obtain ⟨p, hp, hpf⟩ := List.mem_map.mp hf
  have hpmem := (List.mem_filter.mp hp).1
  have hpred := (List.mem_filter.mp hp).2
  have hget : fd.files.getk p.1 = some p.2 :=
    JObj.getk_of_mem_nodup hwf.1 (by rwa [Prod.mk.eta])
  simp only [Bool.and_eq_true] at hpred
  obtain ⟨hdl, hhp⟩ := hpred
  cases hhash : p.2.hash with
  | none => rw [hhash] at hhp; cases hhp
  | some hh =>
    rw [hhash] at hhp
    have hhm : hh ∈ pack.hashes := by simpa using hhp
    have := mem_members_of_download fd pack p.1 p.2 hwf hget hdl hh hhash hhm
    rwa [hpf] at this

theorem downloadInPack_keys_nodup (fd : DiffFragment) (pack : PackInfo)
    (hnd : (JObj.keys fd.files).Nodup) :
    (JObj.keys (downloadInPack fd pack)).Nodup :=
  ((List.filter_sublist _).map Prod.fst).nodup hnd

/-- The claim's count hypothesis implies the code's pack trigger. -/
theorem mustDownloadPack_of_count (fd : DiffFragment) (pack : PackInfo)
    (hwf : BucketWF fd)
    (hcount : pack.hashes.length < 2 * (downloadInPack fd pack).length) :
    mustDownloadPack pack (getFilesInPack pack fd) = true := by
  unfold mustDownloadPack
  have hsub := downloadInPack_sub fd pack hwf
  have hnd := downloadInPack_keys_nodup fd pack hwf.1
  have hle : (JObj.keys (downloadInPack fd pack)).length ≤
      (JObj.keys (getFilesInPack pack fd)).length :=
    (List.subperm_of_subset hnd hsub).length_le
  have h1 : (JObj.keys (downloadInPack fd pack)).length =
      (downloadInPack fd pack).length := List.length_map _ _
  have h2 : (JObj.keys (getFilesInPack pack fd)).length =
      (getFilesInPack pack fd).length := List.length_map _ _
  rw [h1, h2] at hle
  exact decide_eq_true (lt_of_lt_of_le hcount (by omega))

/-- The download-clearing step of `checkPack`. -/
def clearDlStep (fs : JObj DFile) (q : String × MFile) : JObj DFile :=
  match fs.getk q.1 with
  | some e => fs.setk q.1 { e with download := false }
  | none => fs

theorem checkPack_clear_eq (fd : DiffFragment) (ph : String) (pack : PackInfo)
    (hmust : mustDownloadPack pack (getFilesInPack pack fd) = true) :
    checkPack fd ph pack =
      { fd with files := ((getFilesInPack pack fd).foldl clearDlStep fd.files).setk ph { download := true, isPack := true, packFiles := some (getFilesInPack pack fd), hash := some ph, size := pack.size } } := by
  unfold checkPack
  rw [if_pos hmust]
  rfl

theorem clearDlStep_isSome (fs : JObj DFile) (q : String × MFile) (n : String)
    (h : (fs.getk n).isSome) : ((clearDlStep fs q).getk n).isSome := by
  unfold clearDlStep
  cases hg : fs.getk q.1 with
  | none => exact h
  | some e => exact JObj.getk_isSome_setk _ _ _ _ h

theorem clearDlStep_false_stable (fs : JObj DFile) (q : String × MFile)
    (n : String) (h : ∃ e, fs.getk n = some e ∧ e.download = false) :
    ∃ e, (clearDlStep fs q).getk n = some e ∧ e.download = false := by
  obtain ⟨e, he, hdl⟩ := h
  unfold clearDlStep
  cases hg : fs.getk q.1 with
  | none => exact ⟨e, he, hdl⟩
  | some e' =>
    rw [JObj.getk_setk]
    by_cases hn : n = q.1
    · exact ⟨{ e' with download := false }, by rw [if_pos hn], rfl⟩
    · rw [if_neg hn]
      exact ⟨e, he, hdl⟩

theorem clearDlStep_other (fs : JObj DFile) (q : String × MFile) (n : String)
    (h : q.1 ≠ n) : (clearDlStep fs q).getk n = fs.getk n := by
  unfold clearDlStep
  cases hg : fs.getk q.1 with
  | none => rfl
  | some e => exact JObj.getk_setk_ne _ _ _ _ (fun he => h he.symm)

theorem clearDlStep_nodup (fs : JObj DFile) (q : String × MFile)
    (h : (JObj.keys fs).Nodup) : (JObj.keys (clearDlStep fs q)).Nodup := by
  unfold clearDlStep
  cases hg : fs.getk q.1 with
  | none => exact h
  | some e => exact JObj.nodup_keys_setk _ _ _ h

theorem clearDlFold_isSome (l : JObj MFile) (fs : JObj DFile) (n : String)
    (h : (fs.getk n).isSome) : ((l.foldl clearDlStep fs).getk n).isSome :=
  foldlPreserve (fun x => (x.getk n).isSome) clearDlStep l fs
    (fun b a _ hb => clearDlStep_isSome b a n hb) h

theorem clearDlFold_nodup (l : JObj MFile) (fs : JObj DFile)
    (h : (JObj.keys fs).Nodup) : (JObj.keys (l.foldl clearDlStep fs)).Nodup :=
  foldlPreserve (fun x => (JObj.keys x).Nodup) clearDlStep l fs
    (fun b a _ hb => clearDlStep_nodup b a hb) h

theorem clearDlFold_false_stable (l : JObj MFile) (fs : JObj DFile) (n : String)
    (h : ∃ e, fs.getk n = some e ∧ e.download = false) :
    ∃ e, ((l.foldl clearDlStep fs).getk n) = some e ∧ e.download = false :=
  foldlPreserve (fun x => ∃ e, x.getk n = some e ∧ e.download = false)
    clearDlStep l fs (fun b a _ hb => clearDlStep_false_stable b a n hb) h

theorem clearDlFold_other (l : JObj MFile) (fs : JObj DFile) (n : String)
    (h : ∀ q ∈ l, q.1 ≠ n) : (l.foldl clearDlStep fs).getk n = fs.getk n :=
  foldlPreserve (fun x => x.getk n = fs.getk n) clearDlStep l fs
    (fun b a ha hb => (clearDlStep_other b a n (h a ha)).trans hb) rfl

/-- Every name in the clear list that is present before the loop ends up
present with `download = false`. -/
theorem clearDlFold_member (l : JObj MFile) (fs : JObj DFile) (n : String)
    (hn : n ∈ JObj.keys l) (hpres : (fs.getk n).isSome) :
    ∃ e, ((l.foldl clearDlStep fs).getk n) = some e ∧ e.download = false := by
  induction l generalizing fs with
  | nil => cases hn
  | cons q rest ih =>
    simp only [List.foldl_cons]
    have hn' : n = q.1 ∨ n ∈ JObj.keys rest := by
      simpa [JObj.keys] using hn
    rcases hn' with he | hn'
    · subst he
      obtain ⟨e, he⟩ := Option.isSome_iff_exists.mp hpres
      apply clearDlFold_false_stable
      unfold clearDlStep
      rw [he, JObj.getk_setk_self]
      exact ⟨{ e with download := false }, rfl, rfl⟩
    · exact ih _ hn' (clearDlStep_isSome fs q n hpres)

/-- Invariant of the packs fold before the pack of interest is processed:
the hash index is untouched, file presence only grows, keys stay unique. -/
def PackPre (fd x : DiffFragment) : Prop :=
  x.hashes = fd.hashes ∧
  (∀ n, ((fd.files.getk n)).isSome → ((x.files.getk n)).isSome) ∧
  (JObj.keys x.files).Nodup

theorem getFilesInPack_congr (pack : PackInfo) (x y : DiffFragment)
    (h : x.hashes = y.hashes) : getFilesInPack pack x = getFilesInPack pack y := by
  unfold getFilesInPack
  rw [h]

theorem checkPack_pre (fd x : DiffFragment) (ph' : String) (pack' : PackInfo)
    (h : PackPre fd x) : PackPre fd (checkPack x ph' pack') := by
  obtain ⟨hh, hpres, hnd⟩ := h
  unfold checkPack
  by_cases hmust : mustDownloadPack pack' (getFilesInPack pack' x) = true
  · rw [if_pos hmust]
    refine ⟨hh, ?_, ?_⟩
    · intro n hn
      exact JObj.getk_isSome_setk _ _ _ _
        (clearDlFold_isSome _ _ _ (hpres n hn))
    · exact JObj.nodup_keys_setk _ _ _ (clearDlFold_nodup _ _ hnd)
  · rw [if_neg hmust]
    exact ⟨hh, hpres, hnd⟩

/-- Post-state of the packs fold once the pack of interest was processed. -/
def PackPost (fd : DiffFragment) (ph : String) (pack : PackInfo)
    (x : DiffFragment) : Prop :=
  x.hashes = fd.hashes ∧
  (JObj.keys x.files).Nodup ∧
  x.files.getk ph = some { download := true, isPack := true, packFiles := some (getFilesInPack pack fd), hash := some ph, size := pack.size } ∧
  (∀ f ∈ JObj.keys (getFilesInPack pack fd),
    ∃ e, x.files.getk f = some e ∧ e.download = false)

/-- Names cleared by a later pack are file names of the original bucket. -/
theorem member_isSome_of_keys (fd : DiffFragment) (pack' : PackInfo)
    (hwf : BucketWF fd) (n : String)
    (hn : n ∈ JObj.keys (getFilesInPack pack' fd)) :
    ((fd.files.getk n)).isSome := by
  obtain ⟨hh, recs, r, hrecs, hr, hrname⟩ := getFilesInPack_keys_sub pack' fd n hn
  have := hwf.2.2 hh recs hrecs r hr
  rwa [hrname] at this

theorem checkPack_post (fd x : DiffFragment) (ph ph' : String)
    (pack pack' : PackInfo) (hwf : BucketWF fd)
    (hne : ph' ≠ ph)
    (hdisj0 : fd.files.getk ph = none)
    (hdisj' : fd.files.getk ph' = none)
    (h : PackPost fd ph pack x) : PackPost fd ph pack (checkPack x ph' pack') := by
  obtain ⟨hh, hnd, hph, hmembers⟩ := h
  unfold checkPack
  by_cases hmust : mustDownloadPack pack' (getFilesInPack pack' x) = true
  · rw [if_pos hmust]
    have hfip : getFilesInPack pack' x = getFilesInPack pack' fd :=
      getFilesInPack_congr pack' x fd hh
    refine ⟨hh, JObj.nodup_keys_setk _ _ _ (clearDlFold_nodup _ _ hnd), ?_, ?_⟩
    · show (((getFilesInPack pack' x).foldl clearDlStep x.files).setk ph' _).getk ph = _
      rw [JObj.getk_setk_ne _ _ _ _ (Ne.symm hne)]
      rw [hfip]
      rw [clearDlFold_other _ _ ph ?_]
      · exact hph
      · intro q hq he
        have hqk : q.1 ∈ JObj.keys (getFilesInPack pack' fd) :=
          List.mem_map_of_mem Prod.fst hq
        have := member_isSome_of_keys fd pack' hwf q.1 hqk
        rw [he, hdisj0] at this
        cases this
    · intro f hf
      obtain ⟨e, he, hdl⟩ := hmembers f hf
      have hfneq : f ≠ ph' := by
        intro hfe
        have := member_isSome_of_keys fd pack hwf f hf
        rw [hfe, hdisj'] at this
        cases this
      show ∃ e', (((getFilesInPack pack' x).foldl clearDlStep x.files).setk ph' _).getk f = some e' ∧ e'.download = false
      rw [JObj.getk_setk_ne _ _ _ _ hfneq]
      rw [hfip]
      exact clearDlFold_false_stable _ _ f ⟨e, he, hdl⟩
  · rw [if_neg hmust]
    exact ⟨hh, hnd, hph, hmembers⟩

theorem checkPacksInFragment_pack (packs : JObj PackInfo) (fd : DiffFragment)
    (ph : String) (pack : PackInfo) (hwf : BucketWF fd)
    (hmem : (ph, pack) ∈ packs)
    (hndp : (JObj.keys packs).Nodup)
    (hdisj : ∀ kh ∈ JObj.keys packs, fd.files.getk kh = none)
    (hcount : pack.hashes.length < 2 * (downloadInPack fd pack).length) :
    PackPost fd ph pack (checkPacksInFragment packs fd) := by
  obtain ⟨P1, P2, hsplit⟩ := List.append_of_mem hmem
  subst hsplit
  have hphk : ph ∈ JObj.keys (P1 ++ (ph, pack) :: P2) := by
    exact List.mem_map_of_mem Prod.fst hmem
  have hdisj0 : fd.files.getk ph = none := hdisj ph hphk
  have hndk : ph ∉ P2.map Prod.fst := by
    have : (P1.map Prod.fst ++ ph :: P2.map Prod.fst).Nodup := by
      simpa [JObj.keys] using hndp
    have h2 := (List.nodup_append.mp this).1
    have h3 := (List.nodup_append.mp this).2.1
    exact (List.nodup_cons.mp h3).1
  unfold checkPacksInFragment
  rw [List.foldl_append, List.foldl_cons]
  have hpre : PackPre fd (P1.foldl (fun fd q => checkPack fd q.1 q.2) fd) :=
    foldlPreserve (PackPre fd) _ P1 fd
      (fun b a _ hb => checkPack_pre fd b a.1 a.2 hb)
      ⟨rfl, fun _ h => h, hwf.1⟩
  set x1 := P1.foldl (fun fd q => checkPack fd q.1 q.2) fd with hx1
  obtain ⟨hh1, hpres1, hnd1⟩ := hpre
  have hfip : getFilesInPack pack x1 = getFilesInPack pack fd :=
    getFilesInPack_congr pack x1 fd hh1
  have hmust : mustDownloadPack pack (getFilesInPack pack x1) = true := by
    rw [hfip]; exact mustDownloadPack_of_count fd pack hwf hcount
  have hpost : PackPost fd ph pack (checkPack x1 ph pack) := by
    rw [checkPack_clear_eq x1 ph pack hmust]
    refine ⟨hh1, ?_, ?_, ?_⟩
    · exact JObj.nodup_keys_setk _ _ _ (clearDlFold_nodup _ _ hnd1)
    · show (_ : JObj DFile).getk ph = _
      rw [JObj.getk_setk_self]
      rw [hfip]
    · intro f hf
      have hfpres : ((fd.files.getk f)).isSome :=
        member_isSome_of_keys fd pack hwf f hf
      have hfneq : f ≠ ph := by
        intro hfe
        rw [hfe, hdisj0] at hfpres
        cases hfpres
      show ∃ e, (_ : JObj DFile).getk f = some e ∧ e.download = false
      rw [JObj.getk_setk_ne _ _ _ _ hfneq]
      rw [hfip]
      exact clearDlFold_member _ _ f hf (hpres1 f hfpres)
  exact foldlPreserve (PackPost fd ph pack) _ P2 _
    (fun b a ha hb => by
      have haq : a.1 ∈ JObj.keys (P1 ++ (ph, pack) :: P2) := by
        exact List.mem_map_of_mem Prod.fst
          (List.mem_append.mpr (Or.inr (List.mem_cons_of_mem _ ha)))
      have hane : a.1 ≠ ph := fun he =>
        hndk (he ▸ List.mem_map_of_mem Prod.fst ha)
      exact checkPack_post fd b ph a.1 pack a.2 hwf hane hdisj0
        (hdisj a.1 haq) hb)
    hpost

theorem checkPacks_step_getk_ne (d : Diff) (p : String × Fragment)
    (fr : String) (hne : p.1 ≠ fr) :
    ((fun (d : Diff) (p : String × Fragment) =>
      match p.2.packs with
      | some packs =>
        match d.getk p.1 with
        | some fd => d.setk p.1 (checkPacksInFragment packs fd)
        | none => d
      | none => d) d p).getk fr = d.getk fr := by
  show (match p.2.packs with
    | some packs =>
      match d.getk p.1 with
      | some fd => d.setk p.1 (checkPacksInFragment packs fd)
      | none => d
    | none => d).getk fr = d.getk fr
  cases hp : p.2.packs with
  | none => rfl
  | some packs =>
    cases hg : d.getk p.1 with
    | none => rfl
    | some fd =>
      show (d.setk p.1 (checkPacksInFragment packs fd)).getk fr = d.getk fr
      exact JObj.getk_setk_ne _ _ _ _ (Ne.symm hne)

theorem checkPacks_getk (remote : Manifest) (diff : Diff) (fr : String)
    (frag : Fragment) (packs : JObj PackInfo) (fd : DiffFragment)
    (hnd : (JObj.keys remote).Nodup)
    (hmem : (fr, frag) ∈ remote)
    (hpacks : frag.packs = some packs)
    (hfd : diff.getk fr = some fd) :
    (checkPacks remote diff).getk fr = some (checkPacksInFragment packs fd) := by
  obtain ⟨R1, R2, hsplit⟩ := List.append_of_mem hmem
  subst hsplit
  have hndk : (R1.map Prod.fst ++ fr :: R2.map Prod.fst).Nodup := by
    simpa [JObj.keys] using hnd
  have hfrR1 : ∀ p ∈ R1, p.1 ≠ fr := by
    intro p hp he
    have hdisj := (List.nodup_append.mp hndk).2.2
    exact hdisj (he ▸ List.mem_map_of_mem Prod.fst hp)
      (List.mem_cons_self fr _)
  have hfrR2 : ∀ p ∈ R2, p.1 ≠ fr := by
    intro p hp he
    have h3 := (List.nodup_append.mp hndk).2.1
    exact (List.nodup_cons.mp h3).1 (he ▸ List.mem_map_of_mem Prod.fst hp)
  unfold checkPacks
  rw [List.foldl_append, List.foldl_cons]
  have h1 : (R1.foldl (fun d p =>
      match p.2.packs with
      | some packs =>
        match d.getk p.1 with
        | some fd => d.setk p.1 (checkPacksInFragment packs fd)
        | none => d
      | none => d) diff).getk fr = some fd :=
    foldlPreserve (fun d => d.getk fr = some fd) _ R1 diff
      (fun b a ha hb => (checkPacks_step_getk_ne b a fr (hfrR1 a ha)).trans hb)
      hfd
  set d1 := R1.foldl (fun d p =>
      match p.2.packs with
      | some packs =>
        match d.getk p.1 with
        | some fd => d.setk p.1 (checkPacksInFragment packs fd)
        | none => d
      | none => d) diff with hd1
  have h2 : (match (fr, frag).2.packs with
      | some packs =>
        match d1.getk (fr, frag).1 with
        | some fd => d1.setk (fr, frag).1 (checkPacksInFragment packs fd)
        | none => d1
      | none => d1).getk fr = some (checkPacksInFragment packs fd) := by
    show (match frag.packs with
      | some packs =>
        match d1.getk fr with
        | some fd => d1.setk fr (checkPacksInFragment packs fd)
        | none => d1
      | none => d1).getk fr = _
    rw [hpacks, h1]
    exact JObj.getk_setk_self _ _ _
  exact foldlPreserve
    (fun d => d.getk fr = some (checkPacksInFragment packs fd)) _ R2 _
    (fun b a ha hb => (checkPacks_step_getk_ne b a fr (hfrR2 a ha)).trans hb)
    h2

/-- A file entry present in a named bucket of the diff. -/
def PresentEntry (fr f : String) (e : DFile) (d : Diff) : Prop :=
  ∃ fd, d.getk fr = some fd ∧ fd.files.getk f = some e

theorem isMarked_of_present (d : Diff) (fr f : String) (e : DFile)
    (h : PresentEntry fr f e d) : isFileMarkedForDownload d f = true := by
  obtain ⟨fd, hfr, hf⟩ := h
  unfold isFileMarkedForDownload
  rw [List.any_eq_true]
  exact ⟨(fr, fd), JObj.getk_eq_some_mem hfr, by rw [hf]; rfl⟩

theorem createEmpty_present (d : Diff) (p1 fr f : String) (e : DFile)
    (h : PresentEntry fr f e d) :
    PresentEntry fr f e (createEmptyFragmentIfNeeded d p1) := by
  obtain ⟨fd, hfr, hf⟩ := h
  unfold createEmptyFragmentIfNeeded
  cases hg : d.getk p1 with
  | some fd' => simp only [hg, Option.isSome_some, if_true]; exact ⟨fd, hfr, hf⟩
  | none =>
    simp only [hg, Option.isSome_none, Bool.false_eq_true, if_false]
    have hne : p1 ≠ fr := by
      intro he; rw [he, hfr] at hg; cases hg
    exact ⟨fd, by rw [JObj.getk_setk_ne _ _ _ _ (Ne.symm hne)]; exact hfr, hf⟩

theorem markFileStep_present (p1 : String) (d : Diff) (q : String × MFile)
    (fr f : String) (e : DFile) (h : PresentEntry fr f e d) :
    PresentEntry fr f e (markFileStep p1 d q) := by
  unfold markFileStep
  by_cases hm : isFileMarkedForDownload d q.1
  · rw [if_pos hm]; exact h
  · rw [if_neg hm]
    have hqf : q.1 ≠ f := by
      intro he
      exact hm (he ▸ isMarked_of_present d fr f e h)
    obtain ⟨fd, hfr, hf⟩ := h
    cases hg : d.getk p1 with
    | none => exact ⟨fd, hfr, hf⟩
    | some fd' =>
      by_cases hp : p1 = fr
      · subst hp
        rw [hfr] at hg
        injection hg with hfd
        subst hfd
        refine ⟨_, JObj.getk_setk_self _ _ _, ?_⟩
        show (fd.files.setk q.1 createDeletedFile).getk f = some e
        rw [JObj.getk_setk_ne _ _ _ _ (Ne.symm hqf)]
        exact hf
      · refine ⟨fd, ?_, hf⟩
        rw [JObj.getk_setk_ne _ _ _ _ (fun he => hp he.symm)]
        exact hfr

theorem markRemaining_present (lm : Manifest) (d : Diff) (fr f : String)
    (e : DFile) (h : PresentEntry fr f e d) :
    PresentEntry fr f e (markRemainingFilesToBeDeleted lm d) :=
  foldlPreserve (PresentEntry fr f e) markFragmentStep lm d
    (fun b a _ hb => by
      unfold markFragmentStep
      exact foldlPreserve (PresentEntry fr f e) (markFileStep a.1) a.2.files _
        (fun b' q _ hb' => markFileStep_present a.1 b' q fr f e hb')
        (createEmpty_present b a.1 fr f e hb))
    h

/-- C2: for every remote fragment carrying a packs table and every pack in it
whose hashes cover strictly more than half of their count in to-download
files of that fragment's step-1 diff bucket (here counted by `downloadInPack`,
with the pack keys absent from the bucket's file names), the delivered diff's
bucket for that fragment holds the synthetic pack entry
{isPack:=true, download:=true, packFiles, hash, size} under the pack's hash,
and every member file listed for the pack is present with download=false. -/
theorem C2_pack_coalescing
    (fragments : List String) (localHashes remoteHashes : Manifest)
    (isWin32 : Bool) (d : Diff)
    (fr : String) (frag : Fragment) (packs : JObj PackInfo)
    (ph : String) (pack : PackInfo) (fd : DiffFragment)
    (hok : createDiff fragments localHashes remoteHashes isWin32 = .ok d)
    (hmem : (fr, frag) ∈ remoteHashes)
    (hnd : (JObj.keys remoteHashes).Nodup)
    (hpacks : frag.packs = some packs)
    (hmemp : (ph, pack) ∈ packs)
    (hndp : (JObj.keys packs).Nodup)
    (hfd : (findFilesToDownloadAndFragmentsToDelete fragments localHashes remoteHashes isWin32).1.getk fr = some fd)
    (hdisj : ∀ kh ∈ JObj.keys packs, fd.files.getk kh = none)
    (hcount : pack.hashes.length < 2 * (downloadInPack fd pack).length) :
    ∃ dfr, d.getk fr = some dfr ∧
      dfr.files.getk ph = some { download := true, isPack := true, packFiles := some (getFilesInPack pack fd), hash := some ph, size := pack.size } ∧
      ∀ f ∈ JObj.keys (getFilesInPack pack fd),
        ∃ e, dfr.files.getk f = some e ∧ e.download = false := by
  have hwf : BucketWF fd :=
    findFiles_bucketWF fragments localHashes remoteHashes isWin32 fr fd hfd
  obtain ⟨hh, hndf, hph, hmembers⟩ :=
    checkPacksInFragment_pack packs fd ph pack hwf hmemp hndp hdisj hcount
  have hck : (checkPacks remoteHashes
      (findFilesToDownloadAndFragmentsToDelete fragments localHashes remoteHashes isWin32).1).getk fr =
      some (checkPacksInFragment packs fd) :=
    checkPacks_getk remoteHashes _ fr frag packs fd hnd hmem hpacks hfd
  unfold createDiff at hok
  split at hok
  · cases hok
  · injection hok with hd
    subst hd
    obtain ⟨dfr, hdfr, hdph⟩ :=
      markRemaining_present
        (findFilesToDownloadAndFragmentsToDelete fragments localHashes remoteHashes isWin32).2
        _ fr ph _ ⟨_, hck, hph⟩
    refine ⟨dfr, hdfr, hdph, ?_⟩
    intro f hf
    obtain ⟨e, he, hdl⟩ := hmembers f hf
    obtain ⟨dfr2, hdfr2, hdf⟩ :=
      markRemaining_present
        (findFilesToDownloadAndFragmentsToDelete fragments localHashes remoteHashes isWin32).2
        _ fr f e ⟨_, hck, he⟩
    rw [hdfr] at hdfr2
    injection hdfr2 with h2
    rw [h2]
    exact ⟨e, hdf, hdl⟩

/-- Pack of the C2 witness: four hashes, three of which are to-download. -/
def packC2 : PackInfo := { size := 10, hashes := ["h1", "h2", "h3", "h4"] }

def packsC2 : JObj PackInfo := [("p", packC2)]

/-- Remote fragment of the C2 witness: three fresh files and one pack. -/
def fragC2 : Fragment :=
  { files := [("a", { hash := "h1", size := 1, executable := false }),
              ("b", { hash := "h2", size := 1, executable := false }),
              ("c", { hash := "h3", size := 1, executable := false })],
    packs := some packsC2 }

def localC2 : Manifest := []

def remoteC2 : Manifest := [("main", fragC2)]

/-- Step-1 diff bucket of the C2 witness. -/
def fdC2 : DiffFragment :=
  ((findFilesToDownloadAndFragmentsToDelete ["main"] localC2 remoteC2 false).1.getk "main").getD {}

/-- Delivered diff of the C2 witness. -/
def diffC2 : Diff := (createDiff ["main"] localC2 remoteC2 false).toOption.getD []

/-- Witness for C2: a fresh install of one fragment with three files whose
hashes cover 3 of the pack's 4 (3 > 4 × 0.5): the delivered diff holds the
synthetic pack entry and the three members with download = false. -/
theorem C2_pack_coalescing_witness :
    ∃ dfr, diffC2.getk "main" = some dfr ∧
      dfr.files.getk "p" = some { download := true, isPack := true, packFiles := some (getFilesInPack packC2 fdC2), hash := some "p", size := packC2.size } ∧
      ∀ f ∈ JObj.keys (getFilesInPack packC2 fdC2),
        ∃ e, dfr.files.getk f = some e ∧ e.download = false :=
  C2_pack_coalescing ["main"] localC2 remoteC2 false diffC2 "main"
    fragC2 packsC2 "p" packC2 fdC2
    (by rfl) (by decide) (by decide) (by decide) (by decide) (by decide)
    (by decide) (by decide) (by decide)

/-! ## C1: the update queue (`exports.add` … `exports.onUpdateCompleted`)

`Update` objects are reduced to the four flags the queue reads
(`id`, `_isRunning`, `_isPaused`, `_isPausedByUser`); `pause`/`resume` are
modelled atomically (their `.then` continuations run at once), so the
transient `_isPausing`/`_isResuming` flags are constantly `false` and the
`!update.isPausing` test of `startFirstUpdateInQueue` is dropped.  The
global `updateId` counter becomes `nextId`.  Exceptions (`throw`) abort an
operation before it mutates anything, so they are modelled as no-ops.  The
mutual recursion `setIndex` ↔ `startFirstUpdateInQueue` is bounded by a
fuel parameter; out-of-fuel returns the state unchanged, and the top-level
entry points pass enough fuel for every reachable recursion. -/

/-- The queue-relevant state of an `Update` sequencer (part_003): the
constructor sets `_isRunning = false`, `_isPaused = isPausedByUser`,
`_isPausedByUser = isPausedByUser`. -/
structure Upd where
  id : Nat
  isRunning : Bool
  isPaused : Bool
  isPausedByUser : Bool
deriving DecidableEq, Repr

/-- `Update.start` (part_003 lines 666-682): no-op when already running,
otherwise sets `_isRunning = true` (other flags untouched). -/
def Upd.start (u : Upd) : Upd :=
  if u.isRunning then u else { u with isRunning := true }

/-- `Update.pause` (lines 714-733), continuation included: allowed when
running and not paused, then sets `_isPausedByUser = pausedByUser` and
`_isPaused = true`. -/
def Upd.pause (u : Upd) (pausedByUser : Bool) : Upd :=
  if u.isRunning && !u.isPaused then
    { u with isPaused := true, isPausedByUser := pausedByUser }
  else u

/-- `Update.resume` (lines 766-786), continuation included: allowed when
running and paused, then clears `_isPaused` and `_isPausedByUser`. -/
def Upd.resume (u : Upd) : Upd :=
  if u.isRunning && u.isPaused then
    { u with isPaused := false, isPausedByUser := false }
  else u

/-- State of the `updateQueue` module: `this.updates`, `this.currentUpdate`
(kept by id), `this.isPaused`, and the global `updateId` counter. -/
structure QState where
  updates : List Upd
  current : Option Nat
  isPaused : Bool
  nextId : Nat
deriving DecidableEq, Repr

/-- `this.updates.indexOf(update)` with object identity replaced by id. -/
def idxOfUid : List Upd → Nat → Option Nat
  | [], _ => none
  | u :: t, uid => if u.id == uid then some 0 else (idxOfUid t uid).map (· + 1)

/-- The queue element standing for a given `Update` object. -/
def findUid (l : List Upd) (uid : Nat) : Option Upd :=
  l.find? (fun u => u.id == uid)

/-- In-place mutation of the `Update` object with the given id. -/
def setUpd (st : QState) (uid : Nat) (f : Upd → Upd) : QState :=
  { st with updates := st.updates.map (fun u => if u.id == uid then f u else u) }

/-- `exports.clearCurrentUpdate` (lines 573-588): throws without a current
update; otherwise pauses it when not yet paused and clears `currentUpdate`. -/
def clearCurrentUpdate (pausedByUser : Bool) (st : QState) : QState :=
  match st.current with
  | none => st
  | some c => { setUpd st c (fun u => u.pause pausedByUser) with current := none }

mutual

/-- `exports.startFirstUpdateInQueue` (lines 489-517): when the head of the
queue is paused by the user (and this is not a user resume), move the first
not-user-paused update to the front instead; otherwise make the head
current and resume it (running and paused) or start it. -/
def startFirstF : Nat → Bool → QState → QState
  | 0, _, st => st
  | fuel + 1, resumedByUser, st =>
    match st.updates with
    | [] => st
    | h :: _ =>
      if !resumedByUser && h.isPausedByUser then
        match st.updates.find? (fun u => !u.isPausedByUser) with
        | some next => setIndexF fuel next.id 0 false false st
        | none => st
      else
        { setUpd st h.id
            (fun u => if u.isRunning && u.isPaused then u.resume else u.start)
          with current := some h.id }

/-- `exports.setIndex` (lines 375-402): throws when the update is not in the
queue or the new index is out of bounds; splices the update to its new
index; when either index is 0, clears the current update (if any) and, if
the queue is not paused, starts the first update in the queue. -/
def setIndexF : Nat → Nat → Nat → Bool → Bool → QState → QState
  | 0, _, _, _, _, st => st
  | fuel + 1, uid, newIndex, pausedByUser, resumedByUser, st =>
    match idxOfUid st.updates uid, findUid st.updates uid with
    | some currentIndex, some u =>
      if st.updates.length ≤ newIndex then st
      else
        let st1 := if currentIndex = newIndex then st
          else { st with
            updates := (st.updates.eraseIdx currentIndex).insertIdx newIndex u }
        if newIndex = 0 ∨ currentIndex = 0 then
          let st2 := if st1.current.isSome then clearCurrentUpdate pausedByUser st1
            else st1
          if st2.isPaused then st2 else startFirstF fuel resumedByUser st2
        else st1
    | _, _ => st

end

/-- Fuel covering every reachable recursion of the two functions above
(`startFirst → setIndex → clearCurrentUpdate; startFirst → done`). -/
def FUEL : Nat := 4

/-- `this.currentUpdate.isPausedByUser` read in `exports.add`. -/
def currentPausedByUser (st : QState) : Bool :=
  match st.current with
  | none => false
  | some c => ((findUid st.updates c).map Upd.isPausedByUser).getD false

/-- `exports.add` (lines 282-307): push a freshly constructed `Update`
(`isPausedByUser` is a constructor argument; the constructor sets
`_isPaused = isPausedByUser`, `_isRunning = false`) and start the first
update when there is no current update or it is paused by the user, and the
queue is not paused. -/
def qAdd (pbu : Bool) (st : QState) : QState :=
  let u : Upd := { id := st.nextId, isRunning := false, isPaused := pbu, isPausedByUser := pbu }
  let st1 : QState := { st with updates := st.updates ++ [u], nextId := st.nextId + 1 }
  if (st1.current.isNone || currentPausedByUser st1) && !st1.isPaused then
    startFirstF FUEL false st1
  else st1

/-- `exports.remove` (lines 314-358): throws when removing the running
current update or an update not in the queue; splices it out; when it was
the current update, clears `currentUpdate` and restarts the queue if not
paused and non-empty. -/
def qRemove (uid : Nat) (st : QState) : QState :=
  if (match st.current, findUid st.updates uid with
      | some c, some u => c == uid && u.isRunning
      | _, _ => false) then st
  else
    match idxOfUid st.updates uid with
    | none => st
    | some index =>
      let st1 : QState := { st with updates := st.updates.eraseIdx index }
      match st1.current with
      | some c =>
        if c == uid then
          let st2 : QState := { st1 with current := none }
          if !st2.isPaused && decide (0 < st2.updates.length) then
            startFirstF FUEL false st2
          else st2
        else st1
      | none => st1

/-- `exports.pause` (lines 430-446): no-op when already paused; otherwise
pause the queue and the current update when it is not paused. -/
def qPause (st : QState) : QState :=
  if st.isPaused then st
  else
    let st1 : QState := { st with isPaused := true }
    match st1.current with
    | some c =>
      match findUid st1.updates c with
      | some u => if !u.isPaused then setUpd st1 c (fun v => v.pause false) else st1
      | none => st1
    | none => st1

/-- `exports.resume` (lines 455-481) with no target release: no-op when not
paused; otherwise unpause the queue, resume the current update unless it is
paused by the user, or start the first update of a non-empty queue. -/
def qResume (st : QState) : QState :=
  if !st.isPaused then
    st
  else
    let st1 : QState := { st with isPaused := false }
    match st1.current with
    | some c =>
      match findUid st1.updates c with
      | some u => if !u.isPausedByUser then setUpd st1 c (fun v => v.resume) else st1
      | none => st1
    | none =>
      if decide (0 < st1.updates.length) then startFirstF FUEL false st1 else st1

/-- `exports.pauseCurrentUpdate` (lines 553-565): with more than one queued
update, move the current update to the back (user pause); otherwise clear
it (pausing it).  `setIndex(null, …)` and `clearCurrentUpdate` throw when
there is no current update. -/
def qPauseCurrentUpdate (st : QState) : QState :=
  if 1 < st.updates.length then
    match st.current with
    | some c => setIndexF FUEL c (st.updates.length - 1) true false st
    | none => st
  else clearCurrentUpdate true st

/-- `exports.resumeUpdate` (lines 531-545): move the target update to the
front as a user resume. -/
def qResumeUpdate (uid : Nat) (st : QState) : QState :=
  setIndexF FUEL uid 0 false true st

/-- `exports.onUpdateCompleted` (lines 601-612): null `currentUpdate`,
remove the completed update (`remove` no longer throws nor restarts, as
`currentUpdate` is null), then start the first update of a non-empty queue
(note: without checking `this.isPaused`). -/
def qOnUpdateCompleted (st : QState) : QState :=
  match st.current with
  | none => st
  | some c =>
    let st1 : QState := { st with current := none }
    match idxOfUid st1.updates c with
    | none => st1
    | some index =>
      let st2 : QState := { st1 with updates := st1.updates.eraseIdx index }
      if decide (0 < st2.updates.length) then startFirstF FUEL false st2 else st2

/-- An update-queue operation of the claim. -/
inductive QOp where
  | add (pbu : Bool)
  | remove (uid : Nat)
  | setIndex (uid newIndex : Nat) (pbu rbu : Bool)
  | pause
  | resume
  | pauseCurrentUpdate
  | resumeUpdate (uid : Nat)
  | completed
deriving DecidableEq, Repr

def qStep (st : QState) : QOp → QState
  | .add pbu => qAdd pbu st
  | .remove uid => qRemove uid st
  | .setIndex uid newIndex pbu rbu => setIndexF FUEL uid newIndex pbu rbu st
  | .pause => qPause st
  | .resume => qResume st
  | .pauseCurrentUpdate => qPauseCurrentUpdate st
  | .resumeUpdate uid => qResumeUpdate uid st
  | .completed => qOnUpdateCompleted st

/-- The empty queue the claim starts from. -/
def qInit : QState := { updates := [], current := none, isPaused := false, nextId := 0 }

/-- Run a sequence of queue operations from the empty queue. -/
def qRun (ops : List QOp) : QState := ops.foldl qStep qInit

/-! ## C1 invariant -/

/-- Queue ids stay below the global counter. -/
def idsBound (st : QState) : Prop := ∀ u ∈ st.updates, u.id < st.nextId

/-- Queue ids are pairwise distinct. -/
def idsNodup (st : QState) : Prop := (st.updates.map Upd.id).Nodup

/-- The current update, when set, is the head of the queue. -/
def headCurrent (st : QState) : Prop :=
  ∀ c, st.current = some c → ∃ h t, st.updates = h :: t ∧ h.id = c

/-- Every active (running and not paused) queued update is the current one. -/
def activeCurrent (st : QState) : Prop :=
  ∀ u ∈ st.updates, u.isRunning = true → u.isPaused = false → st.current = some u.id

/-- The update-queue invariant. -/
def QInv (st : QState) : Prop :=
  idsBound st ∧ idsNodup st ∧ headCurrent st ∧ activeCurrent st

/-- No queued update is active. -/
def NoActive (st : QState) : Prop :=
  ∀ u ∈ st.updates, u.isRunning = true → u.isPaused = false → False

/-- The invariant in the momentary no-current form. -/
def QInvN (st : QState) : Prop :=
  idsBound st ∧ idsNodup st ∧ st.current = none ∧ NoActive st

theorem QInvN.toQInv {st : QState} (h : QInvN st) : QInv st := by
  obtain ⟨hb, hn, hc, ha⟩ := h
  refine ⟨hb, hn, ?_, ?_⟩
  · intro c hcc; rw [hc] at hcc; cases hcc
  · intro u hu hr hp; exact absurd (ha u hu hr hp) not_false

theorem QInv.toQInvN {st : QState} (h : QInv st) (hc : st.current = none) :
    QInvN st := by
  obtain ⟨hb, hn, _, ha⟩ := h
  refine ⟨hb, hn, hc, ?_⟩
  intro u hu hr hp
  have := ha u hu hr hp
  rw [hc] at this
  cases this

theorem Upd.start_id (u : Upd) : (u.start).id = u.id := by
  unfold Upd.start; split <;> rfl

theorem Upd.pause_id (u : Upd) (p : Bool) : (u.pause p).id = u.id := by
  unfold Upd.pause; split <;> rfl

theorem Upd.resume_id (u : Upd) : (u.resume).id = u.id := by
  unfold Upd.resume; split <;> rfl

/-- An update is never active right after `pause`: either the pause fires
(leaving it paused) or it was not pausable (not running, or already
paused). -/
theorem Upd.pause_never_active (u : Upd) (p : Bool) :
    (u.pause p).isRunning = true → (u.pause p).isPaused = false → False := by
  unfold Upd.pause
  by_cases hg : (u.isRunning && !u.isPaused) = true
  · rw [if_pos hg]
    intro _ hp
    cases hp
  · rw [if_neg hg]
    intro hr hp
    apply hg
    rw [hr, hp]
    rfl

theorem setUpd_updates (st : QState) (uid : Nat) (f : Upd → Upd) :
    (setUpd st uid f).updates =
      st.updates.map (fun u => if u.id == uid then f u else u) := rfl

theorem setUpd_ids (st : QState) (uid : Nat) (f : Upd → Upd)
    (hf : ∀ u, (f u).id = u.id) :
    (setUpd st uid f).updates.map Upd.id = st.updates.map Upd.id := by
  rw [setUpd_updates, List.map_map]
  apply List.map_congr_left
  intro u _
  show Upd.id (if u.id == uid then f u else u) = u.id
  split
  · exact hf u
  · rfl

theorem idxOfUid_getElem (l : List Upd) (uid i : Nat)
    (h : idxOfUid l uid = some i) :
    ∃ u, findUid l uid = some u ∧ l[i]? = some u ∧ u.id = uid := by
  induction l generalizing i with
  | nil => cases h
  | cons v t ih =>
    unfold idxOfUid at h
    by_cases hv : (v.id == uid) = true
    · rw [if_pos hv] at h
      injection h with h0
      subst h0
      refine ⟨v, ?_, by simp, by simpa using hv⟩
      unfold findUid
      rw [List.find?_cons]
      rw [hv]
    · rw [if_neg hv] at h
      cases hidx : idxOfUid t uid with
      | none => rw [hidx] at h; cases h
      | some i' =>
        rw [hidx] at h
        injection h with h0
        obtain ⟨u, hfind, hget, hid⟩ := ih i' hidx
        refine ⟨u, ?_, ?_, hid⟩
        · unfold findUid
          rw [List.find?_cons]
          rw [Bool.not_eq_true] at hv
          rw [hv]
          exact hfind
        · rw [← h0]
          simpa using hget

theorem perm_cons_eraseIdx {α : Type} (l : List α) (i : Nat) (u : α)
    (h : l[i]? = some u) : l.Perm (u :: l.eraseIdx i) := by
  induction l generalizing i with
  | nil => cases h
  | cons v t ih =>
    cases i with
    | zero =>
      rw [List.getElem?_cons_zero] at h
      injection h with h0
      subst h0
      exact List.Perm.refl _
    | succ i' =>
      have hget : t[i']? = some u := by simpa using h
      rw [List.eraseIdx_cons_succ]
      exact ((ih i' hget).cons v).trans (List.Perm.swap u v _)

theorem idx_lt_of_getElem {α : Type} (l : List α) (i : Nat) (u : α)
    (h : l[i]? = some u) : i < l.length := by
  obtain ⟨hi, _⟩ := List.getElem?_eq_some.mp h
  exact hi

theorem move_perm {α : Type} (l : List α) (i j : Nat) (u : α)
    (h : l[i]? = some u) (hj : j < l.length) :
    ((l.eraseIdx i).insertIdx j u).Perm l := by
  have hi := idx_lt_of_getElem l i u h
  have hlen : (l.eraseIdx i).length = l.length - 1 := by
    rw [List.length_eraseIdx, if_pos hi]
  have hj' : j ≤ (l.eraseIdx i).length := by
    rw [hlen]; omega
  exact (List.perm_insertIdx u _ hj').trans (perm_cons_eraseIdx l i u h).symm

theorem move_head (h0 : Upd) (t : List Upd) (i j : Nat) (u : Upd) :
    ((h0 :: t).eraseIdx (i + 1)).insertIdx (j + 1) u =
      h0 :: ((t.eraseIdx i).insertIdx j u) := by
  rw [List.eraseIdx_cons_succ, List.insertIdx_succ_cons]

/-- Clearing the current update restores the no-current invariant form:
nobody is active afterwards. -/
theorem clearCurrentUpdate_invN (st : QState) (c : Nat) (pbu : Bool)
    (hb : idsBound st) (hn : idsNodup st) (ha : activeCurrent st)
    (hc : st.current = some c) :
    QInvN (clearCurrentUpdate pbu st) := by
  unfold clearCurrentUpdate
  rw [hc]
  refine ⟨?_, ?_, rfl, ?_⟩
  · intro u hu
    obtain ⟨v, hv, hgv⟩ := List.mem_map.mp hu
    subst hgv
    show (if v.id == c then v.pause pbu else v).id < st.nextId
    split
    · rw [Upd.pause_id]; exact hb v hv
    · exact hb v hv
  · show ((setUpd st c (fun u => u.pause pbu)).updates.map Upd.id).Nodup
    rw [setUpd_ids _ _ _ (fun u => Upd.pause_id u pbu)]
    exact hn
  · intro u hu hr hp
    obtain ⟨v, hv, hgv⟩ := List.mem_map.mp hu
    subst hgv
    by_cases hvc : (v.id == c) = true
    · rw [if_pos hvc] at hr hp
      exact Upd.pause_never_active v pbu hr hp
    · rw [if_neg hvc] at hr hp
      have := ha v hv hr hp
      rw [hc] at this
      injection this with h0
      exact hvc (by simpa using h0.symm)

/-- The invariant parts that survive an arbitrary reordering of the queue. -/
def preQInv (st : QState) : Prop := idsBound st ∧ idsNodup st ∧ activeCurrent st

theorem preQInv_of_perm (st st' : QState) (h : preQInv st)
    (hp : st'.updates.Perm st.updates) (hc : st'.current = st.current)
    (hn : st'.nextId = st.nextId) : preQInv st' := by
  obtain ⟨hb, hnd, ha⟩ := h
  refine ⟨?_, ?_, ?_⟩
  · intro u hu
    rw [hn]
    exact hb u (hp.mem_iff.mp hu)
  · exact ((hp.map Upd.id).nodup_iff).mpr hnd
  · intro u hu hr hpz
    rw [hc]
    exact ha u (hp.mem_iff.mp hu) hr hpz

theorem preQInv_invN (st : QState) (h : preQInv st) (hc : st.current = none) :
    QInvN st := by
  obtain ⟨hb, hnd, ha⟩ := h
  refine ⟨hb, hnd, hc, ?_⟩
  intro u hu hr hp
  have := ha u hu hr hp
  rw [hc] at this
  cases this

/-- The else branch of `startFirstUpdateInQueue`: making the head current
and starting or resuming it keeps the invariant. -/
theorem startFirst_activate (st : QState) (h : Upd) (t : List Upd)
    (hup : st.updates = h :: t) (hinv : QInvN st) :
    QInv { setUpd st h.id
        (fun u => if u.isRunning && u.isPaused then u.resume else u.start)
      with current := some h.id } := by
  obtain ⟨hb, hn, _, hna⟩ := hinv
  have hfid : ∀ u : Upd,
      ((fun (u : Upd) => if u.isRunning && u.isPaused then u.resume else u.start) u).id = u.id := by
    intro u
    show (if u.isRunning && u.isPaused then u.resume else u.start).id = u.id
    split
    · exact Upd.resume_id u
    · exact Upd.start_id u
  refine ⟨?_, ?_, ?_, ?_⟩
  · intro u hu
    obtain ⟨v, hv, hgv⟩ := List.mem_map.mp hu
    subst hgv
    show (if v.id == h.id then _ else v).id < st.nextId
    split
    · rw [hfid]; exact hb v hv
    · exact hb v hv
  · show ((setUpd st h.id _).updates.map Upd.id).Nodup
    rw [setUpd_ids _ _ _ hfid]
    exact hn
  · intro c hcc
    injection hcc with hcc
    subst hcc
    refine ⟨(fun u : Upd => if u.id == h.id then (if u.isRunning && u.isPaused then u.resume else u.start) else u) h, t.map (fun u : Upd => if u.id == h.id then (if u.isRunning && u.isPaused then u.resume else u.start) else u), ?_, ?_⟩
    · rw [setUpd_updates, hup, List.map_cons]
    · show (if (h.id == h.id) = true then (if h.isRunning && h.isPaused then h.resume else h.start) else h).id = h.id
      rw [if_pos (by simp : (h.id == h.id) = true)]
      split
      · exact Upd.resume_id h
      · exact Upd.start_id h
  · intro u hu hr hp
    obtain ⟨v, hv, hgv⟩ := List.mem_map.mp hu
    subst hgv
    by_cases hvh : (v.id == h.id) = true
    · show some h.id = some (if v.id == h.id then _ else v).id
      rw [if_pos hvh, hfid]
      have : v.id = h.id := by simpa using hvh
      rw [this]
    · rw [if_neg hvh] at hr hp
      exact absurd (hna v hv hr hp) not_false

/-- `setIndex` preserves the invariant and `startFirstUpdateInQueue`
re-establishes it from any no-current state, for every fuel bound. -/
theorem qMutualInv (fuel : Nat) :
    (∀ uid j pbu rbu st, QInv st → QInv (setIndexF fuel uid j pbu rbu st)) ∧
    (∀ rbu st, QInvN st → QInv (startFirstF fuel rbu st)) := by
  induction fuel with
  | zero =>
    constructor
    · intro uid j pbu rbu st h
      exact h
    · intro rbu st h
      exact h.toQInv
  | succ fuel ih =>
    constructor
    · intro uid j pbu rbu st hst
      show QInv (setIndexF (fuel + 1) uid j pbu rbu st)
      unfold setIndexF
      cases hidx : idxOfUid st.updates uid with
      | none =>
        exact hst
      | some ci =>
        cases hfind : findUid st.updates uid with
        | none =>
          exact hst
        | some u =>
          obtain ⟨u', hfind', hget, hid⟩ := idxOfUid_getElem st.updates uid ci hidx
          rw [hfind] at hfind'
          injection hfind' with hu'
          subst hu'
          set st1 := (if ci = j then st else { st with updates := (st.updates.eraseIdx ci).insertIdx j u }) with hst1
          set st2 := (if st1.current.isSome then clearCurrentUpdate pbu st1 else st1) with hst2
          show QInv (if st.updates.length ≤ j then st else if j = 0 ∨ ci = 0 then (if st2.isPaused = true then st2 else startFirstF fuel rbu st2) else st1)
          by_cases hlen : st.updates.length ≤ j
          · rw [if_pos hlen]
            exact hst
          · rw [if_neg hlen]
            have hperm : st1.updates.Perm st.updates := by
              rw [hst1]
              split
              · exact List.Perm.refl _
              · exact move_perm st.updates ci j u hget (Nat.lt_of_not_le hlen)
            have hcur : st1.current = st.current := by
              rw [hst1]; split <;> rfl
            have hnid : st1.nextId = st.nextId := by
              rw [hst1]; split <;> rfl
            have hpre1 : preQInv st1 :=
              preQInv_of_perm st st1 ⟨hst.1, hst.2.1, hst.2.2.2⟩ hperm hcur hnid
            by_cases hz : j = 0 ∨ ci = 0
            · rw [if_pos hz]
              have hinvN2 : QInvN st2 := by
                cases hc1 : st1.current with
                | some c =>
                  have hs2 : st2 = clearCurrentUpdate pbu st1 := by
                    rw [hst2, hc1]
                    rfl
                  rw [hs2]
                  exact clearCurrentUpdate_invN st1 c pbu hpre1.1 hpre1.2.1 hpre1.2.2 hc1
                | none =>
                  have hs2 : st2 = st1 := by
                    rw [hst2, hc1]
                    rfl
                  rw [hs2]
                  exact preQInv_invN st1 hpre1 hc1
              by_cases hps : st2.isPaused
              · rw [if_pos hps]
                exact hinvN2.toQInv
              · rw [if_neg hps]
                exact ih.2 rbu st2 hinvN2
            · rw [if_neg hz]
              push_neg at hz
              obtain ⟨hj0, hci0⟩ := hz
              refine ⟨hpre1.1, hpre1.2.1, ?_, hpre1.2.2⟩
              intro c hcc
              rw [hcur] at hcc
              obtain ⟨h, t, hup, hhid⟩ := hst.2.2.1 c hcc
              rw [hst1]
              by_cases hcij : ci = j
              · rw [if_pos hcij]
                exact ⟨h, t, hup, hhid⟩
              · rw [if_neg hcij]
                cases ci with
                | zero => exact absurd rfl hci0
                | succ ci' =>
                  cases j with
                  | zero => exact absurd rfl hj0
                  | succ j' =>
                    refine ⟨h, (t.eraseIdx ci').insertIdx j' u, ?_, hhid⟩
                    show ((st.updates.eraseIdx (ci' + 1)).insertIdx (j' + 1) u) = _
                    rw [hup, move_head]
    · intro rbu st hinv
      show QInv (startFirstF (fuel + 1) rbu st)
      unfold startFirstF
      cases hup : st.updates with
      | nil =>
        exact hinv.toQInv
      | cons h t =>
        show QInv (if (!rbu && h.isPausedByUser) = true then (match (h :: t).find? (fun u => !u.isPausedByUser) with | some next => setIndexF fuel next.id 0 false false st | none => st) else { setUpd st h.id (fun u => if u.isRunning && u.isPaused then u.resume else u.start) with current := some h.id })
        by_cases hcond : (!rbu && h.isPausedByUser) = true
        · rw [if_pos hcond]
          cases hf : (h :: t).find? (fun u => !u.isPausedByUser) with
          | some next =>
            exact ih.1 next.id 0 false false st hinv.toQInv
          | none =>
            exact hinv.toQInv
        · rw [if_neg hcond]
          exact startFirst_activate st h t hup hinv

theorem idxOfUid_none (l : List Upd) (uid : Nat)
    (h : idxOfUid l uid = none) : ∀ v ∈ l, (v.id == uid) = false := by
  induction l with
  | nil => intro v hv; cases hv
  | cons w t ih =>
    unfold idxOfUid at h
    by_cases hw : (w.id == uid) = true
    · rw [if_pos hw] at h; cases h
    · rw [if_neg hw] at h
      intro v hv
      rcases List.mem_cons.mp hv with hv | hv
      · subst hv; exact Bool.not_eq_true _ ▸ (by simpa using hw)
      · cases hidx : idxOfUid t uid with
        | none => exact ih hidx v hv
        | some i => rw [hidx] at h; cases h

theorem findUid_head (h0 : Upd) (t : List Upd) (c : Nat) (hid : h0.id = c) :
    findUid (h0 :: t) c = some h0 := by
  unfold findUid
  rw [List.find?_cons]
  rw [show (h0.id == c) = true by simp [hid]]

/-- A head id never recurs in the tail of a nodup-id queue. -/
theorem head_id_not_in_tail (h0 : Upd) (t : List Upd)
    (hn : ((h0 :: t).map Upd.id).Nodup) :
    ∀ x ∈ t, x.id ≠ h0.id := by
  intro x hx he
  rw [List.map_cons] at hn
  exact (List.nodup_cons.mp hn).1 (he ▸ List.mem_map_of_mem Upd.id hx)

/-- Invariant parts survive dropping queue elements (sublists). -/
theorem preQInv_of_sublist (st st' : QState) (h : preQInv st)
    (hs : st'.updates.Sublist st.updates) (hc : st'.current = st.current)
    (hn : st'.nextId = st.nextId) : preQInv st' := by
  obtain ⟨hb, hnd, ha⟩ := h
  refine ⟨?_, ?_, ?_⟩
  · intro u hu
    rw [hn]
    exact hb u (hs.mem hu)
  · exact ((hs.map Upd.id).nodup hnd)
  · intro u hu hr hp
    rw [hc]
    exact ha u (hs.mem hu) hr hp

theorem clearCurrentUpdate_inv (p : Bool) (st : QState) (hst : QInv st) :
    QInv (clearCurrentUpdate p st) := by
  cases hc : st.current with
  | none =>
    unfold clearCurrentUpdate
    rw [hc]
    exact hst
  | some c =>
    exact (clearCurrentUpdate_invN st c p hst.1 hst.2.1 hst.2.2.2 hc).toQInv

/-- `startFirstUpdateInQueue` keeps the invariant when the current update is
the head of the queue and is paused by the user (the only call with a
current update still set: from `exports.add`). -/
theorem startFirst_inv_pausedHead (fuel : Nat) (st : QState) (c : Nat)
    (h : Upd) (t : List Upd) (hinv : QInv st) (hup : st.updates = h :: t)
    (hc : st.current = some c) (hpb : h.isPausedByUser = true) :
    QInv (startFirstF fuel false st) := by
  cases fuel with
  | zero => exact hinv
  | succ fuel =>
    show QInv (startFirstF (fuel + 1) false st)
    unfold startFirstF
    rw [hup]
    show QInv (if (!false && h.isPausedByUser) = true then (match (h :: t).find? (fun u => !u.isPausedByUser) with | some next => setIndexF fuel next.id 0 false false st | none => st) else { setUpd st h.id (fun u => if u.isRunning && u.isPaused then u.resume else u.start) with current := some h.id })
    rw [if_pos (by rw [hpb]; rfl)]
    cases hf : (h :: t).find? (fun u => !u.isPausedByUser) with
    | some next => exact (qMutualInv fuel).1 next.id 0 false false st hinv
    | none => exact hinv

theorem qAdd_inv (pbu : Bool) (st : QState) (hst : QInv st) :
    QInv (qAdd pbu st) := by
  obtain ⟨hb, hn, hh, ha⟩ := hst
  unfold qAdd
  set u : Upd := { id := st.nextId, isRunning := false, isPaused := pbu, isPausedByUser := pbu } with hu
  set st1 : QState := { st with updates := st.updates ++ [u], nextId := st.nextId + 1 } with hst1
  show QInv (if (st1.current.isNone || currentPausedByUser st1) && !st1.isPaused then startFirstF FUEL false st1 else st1)
  have hinv1 : QInv st1 := by
    refine ⟨?_, ?_, ?_, ?_⟩
    · intro x hx
      rcases List.mem_append.mp hx with hx | hx
      · exact Nat.lt_succ_of_lt (hb x hx)
      · rcases List.mem_singleton.mp hx with rfl
        exact Nat.lt_succ_self _
    · show ((st.updates ++ [u]).map Upd.id).Nodup
      rw [List.map_append]
      rw [List.nodup_append]
      refine ⟨hn, List.nodup_singleton _, ?_⟩
      intro x hx hx1
      obtain ⟨v, hv, hvx⟩ := List.mem_map.mp hx
      rcases List.mem_singleton.mp hx1 with rfl
      have := hb v hv
      rw [hvx, hu] at this
      simp at this
    · intro c hcc
      obtain ⟨h0, t0, hup0, hid0⟩ := hh c hcc
      exact ⟨h0, t0 ++ [u], by show st.updates ++ [u] = _; rw [hup0]; rfl, hid0⟩
    · intro x hx hr hp
      rcases List.mem_append.mp hx with hx | hx
      · exact ha x hx hr hp
      · rcases List.mem_singleton.mp hx with rfl
        cases hr
  by_cases hg : ((st1.current.isNone || currentPausedByUser st1) && !st1.isPaused) = true
  · rw [if_pos hg]
    cases hc : st1.current with
    | none => exact (qMutualInv FUEL).2 false st1 (hinv1.toQInvN hc)
    | some c =>
      obtain ⟨h0, t0, hup0, hid0⟩ := hinv1.2.2.1 c hc
      have hcp : currentPausedByUser st1 = h0.isPausedByUser := by
        unfold currentPausedByUser
        rw [hc]
        show ((findUid st1.updates c).map Upd.isPausedByUser).getD false = _
        rw [hup0, findUid_head h0 t0 c hid0]
        rfl
      have hpb : h0.isPausedByUser = true := by
        rw [hc] at hg
        rw [hcp] at hg
        simpa using ((Bool.and_eq_true _ _).mp hg).1
      exact startFirst_inv_pausedHead FUEL st1 c h0 t0 hinv1 hup0 hc hpb
  · rw [if_neg hg]
    exact hinv1

theorem qRemove_inv (uid : Nat) (st : QState) (hst : QInv st) :
    QInv (qRemove uid st) := by
  unfold qRemove
  by_cases hthrow : (match st.current, findUid st.updates uid with
      | some c, some u => c == uid && u.isRunning
      | _, _ => false) = true
  · rw [if_pos hthrow]
    exact hst
  · rw [if_neg hthrow]
    cases hidx : idxOfUid st.updates uid with
    | none => exact hst
    | some index =>
      set st1 : QState := { st with updates := st.updates.eraseIdx index } with hst1
      have hsub : st1.updates.Sublist st.updates := List.eraseIdx_sublist _ _
      have hpre1 : preQInv st1 :=
        preQInv_of_sublist st st1 ⟨hst.1, hst.2.1, hst.2.2.2⟩ hsub rfl rfl
      show QInv (match st1.current with
        | some c =>
          if c == uid then
            (fun st2 => if !st2.isPaused && decide (0 < st2.updates.length) then startFirstF FUEL false st2 else st2) ({ st1 with current := none })
          else st1
        | none => st1)
      cases hc : st.current with
      | none =>
        show QInv st1
        exact (preQInv_invN st1 hpre1 hc).toQInv
      | some c =>
        show QInv (if c == uid then (fun st2 => if !st2.isPaused && decide (0 < st2.updates.length) then startFirstF FUEL false st2 else st2) ({ st1 with current := none }) else st1)
        obtain ⟨h0, t0, hup0, hid0⟩ := hst.2.2.1 c hc
        by_cases hcu : (c == uid) = true
        · rw [if_pos hcu]
          have hcuid : c = uid := by simpa using hcu
          have hidx0 : index = 0 := by
            have : idxOfUid st.updates uid = some 0 := by
              rw [hup0]
              show (if (h0.id == uid) = true then some 0 else (idxOfUid t0 uid).map (· + 1)) = _
              rw [if_pos (by simp [hid0, hcuid])]
            rw [this] at hidx
            injection hidx with h
            exact h.symm
          have hupd1 : st1.updates = t0 := by
            show st.updates.eraseIdx index = t0
            rw [hidx0, hup0]
            rfl
          set st2 : QState := { st1 with current := none } with hst2
          have hinvN2 : QInvN st2 := by
            refine ⟨hpre1.1, hpre1.2.1, rfl, ?_⟩
            intro x hx hr hp
            have hxc := hst.2.2.2 x (hsub.mem hx) hr hp
            rw [hc] at hxc
            injection hxc with hxc
            rw [hupd1] at hx
            exact head_id_not_in_tail h0 t0 (hup0 ▸ hst.2.1) x hx (by rw [← hxc, hid0])
          show QInv (if !st2.isPaused && decide (0 < st2.updates.length) then startFirstF FUEL false st2 else st2)
          by_cases hgo : (!st2.isPaused && decide (0 < st2.updates.length)) = true
          · rw [if_pos hgo]
            exact (qMutualInv FUEL).2 false st2 hinvN2
          · rw [if_neg hgo]
            exact hinvN2.toQInv
        · rw [if_neg hcu]
          refine ⟨hpre1.1, hpre1.2.1, ?_, hpre1.2.2⟩
          intro c' hcc
          have hcc' : st.current = some c' := hcc
          rw [hc] at hcc'
          injection hcc' with hcc'
          subst hcc'
          have hne : (h0.id == uid) = false := by
            simp only [hid0]
            simpa using hcu
          have hidxs : ∃ i', index = i' + 1 := by
            have : idxOfUid st.updates uid = ((idxOfUid t0 uid).map (· + 1)) := by
              rw [hup0]
              show (if (h0.id == uid) = true then some 0 else (idxOfUid t0 uid).map (· + 1)) = _
              rw [if_neg (by simp [hne])]
            rw [this] at hidx
            cases hrest : idxOfUid t0 uid with
            | none => rw [hrest] at hidx; cases hidx
            | some i' =>
              rw [hrest] at hidx
              injection hidx with h
              exact ⟨i', h.symm⟩
          obtain ⟨i', rfl⟩ := hidxs
          refine ⟨h0, t0.eraseIdx i', ?_, hid0⟩
          show st.updates.eraseIdx (i' + 1) = _
          rw [hup0, List.eraseIdx_cons_succ]

/-- `setUpd` of the current update by a pause or resume keeps the invariant
(`qPause`/`qResume` on a present current update). -/
theorem setUpd_current_inv (st : QState) (c : Nat) (f : Upd → Upd)
    (hst : QInv st) (hc : st.current = some c)
    (hfid : ∀ u, (f u).id = u.id) :
    QInv (setUpd st c f) := by
  obtain ⟨hb, hn, hh, ha⟩ := hst
  refine ⟨?_, ?_, ?_, ?_⟩
  · intro x hx
    obtain ⟨v, hv, hgv⟩ := List.mem_map.mp hx
    subst hgv
    show (if v.id == c then f v else v).id < st.nextId
    split
    · rw [hfid]; exact hb v hv
    · exact hb v hv
  · show ((setUpd st c f).updates.map Upd.id).Nodup
    rw [setUpd_ids _ _ _ hfid]
    exact hn
  · intro c' hcc
    obtain ⟨h0, t0, hup0, hid0⟩ := hh c' hcc
    refine ⟨(fun v : Upd => if v.id == c then f v else v) h0, t0.map (fun v : Upd => if v.id == c then f v else v), ?_, ?_⟩
    · show st.updates.map _ = _
      rw [hup0, List.map_cons]
    · show (if (h0.id == c) = true then f h0 else h0).id = c'
      split
      · rw [hfid]; exact hid0
      · exact hid0
  · intro x hx hr hp
    obtain ⟨v, hv, hgv⟩ := List.mem_map.mp hx
    subst hgv
    by_cases hvc : (v.id == c) = true
    · rw [if_pos hvc] at hr hp ⊢
      show st.current = some (f v).id
      rw [hfid, show v.id = c by simpa using hvc, hc]
    · rw [if_neg hvc] at hr hp ⊢
      exact ha v hv hr hp

theorem qPause_inv (st : QState) (hst : QInv st) : QInv (qPause st) := by
  unfold qPause
  by_cases hp : st.isPaused = true
  · rw [if_pos hp]
    exact hst
  · rw [if_neg hp]
    set st1 : QState := { st with isPaused := true } with hst1
    have hinv1 : QInv st1 := ⟨hst.1, hst.2.1, hst.2.2.1, hst.2.2.2⟩
    show QInv (match st1.current with
      | some c =>
        match findUid st1.updates c with
        | some u => if !u.isPaused then setUpd st1 c (fun v => v.pause false) else st1
        | none => st1
      | none => st1)
    cases hc : st.current with
    | none => exact hinv1
    | some c =>
      show QInv (match findUid st1.updates c with
        | some u => if !u.isPaused then setUpd st1 c (fun v => v.pause false) else st1
        | none => st1)
      cases hf : findUid st1.updates c with
      | none => exact hinv1
      | some u =>
        show QInv (if (!u.isPaused) = true then setUpd st1 c (fun v => v.pause false) else st1)
        by_cases hup : (!u.isPaused) = true
        · rw [if_pos hup]
          exact setUpd_current_inv st1 c _ hinv1 hc (fun v => Upd.pause_id v false)
        · rw [if_neg hup]
          exact hinv1

theorem qResume_inv (st : QState) (hst : QInv st) : QInv (qResume st) := by
  unfold qResume
  by_cases hp : (!st.isPaused) = true
  · rw [if_pos hp]
    exact hst
  · rw [if_neg hp]
    set st1 : QState := { st with isPaused := false } with hst1
    have hinv1 : QInv st1 := ⟨hst.1, hst.2.1, hst.2.2.1, hst.2.2.2⟩
    show QInv (match st1.current with
      | some c =>
        match findUid st1.updates c with
        | some u => if !u.isPausedByUser then setUpd st1 c (fun v => v.resume) else st1
        | none => st1
      | none => if decide (0 < st1.updates.length) then startFirstF FUEL false st1 else st1)
    cases hc : st.current with
    | none =>
      show QInv (if decide (0 < st1.updates.length) then startFirstF FUEL false st1 else st1)
      have hinvN : QInvN st1 := hinv1.toQInvN hc
      split
      · exact (qMutualInv FUEL).2 false st1 hinvN
      · exact hinv1
    | some c =>
      show QInv (match findUid st1.updates c with
        | some u => if !u.isPausedByUser then setUpd st1 c (fun v => v.resume) else st1
        | none => st1)
      cases hf : findUid st1.updates c with
      | none => exact hinv1
      | some u =>
        show QInv (if (!u.isPausedByUser) = true then setUpd st1 c (fun v => v.resume) else st1)
        by_cases hub : (!u.isPausedByUser) = true
        · rw [if_pos hub]
          exact setUpd_current_inv st1 c _ hinv1 hc (fun v => Upd.resume_id v)
        · rw [if_neg hub]
          exact hinv1

theorem qPauseCurrentUpdate_inv (st : QState) (hst : QInv st) :
    QInv (qPauseCurrentUpdate st) := by
  unfold qPauseCurrentUpdate
  split
  · show QInv (match st.current with
      | some c => setIndexF FUEL c (st.updates.length - 1) true false st
      | none => st)
    cases st.current with
    | some c => exact (qMutualInv FUEL).1 c (st.updates.length - 1) true false st hst
    | none => exact hst
  · exact clearCurrentUpdate_inv true st hst

theorem qResumeUpdate_inv (uid : Nat) (st : QState) (hst : QInv st) :
    QInv (qResumeUpdate uid st) :=
  (qMutualInv FUEL).1 uid 0 false true st hst

theorem qOnUpdateCompleted_inv (st : QState) (hst : QInv st) :
    QInv (qOnUpdateCompleted st) := by
  unfold qOnUpdateCompleted
  cases hc : st.current with
  | none => exact hst
  | some c =>
    set st1 : QState := { st with current := none } with hst1
    show QInv (match idxOfUid st1.updates c with
      | none => st1
      | some index =>
        (fun st2 => if decide (0 < st2.updates.length) then startFirstF FUEL false st2 else st2) { st1 with updates := st1.updates.eraseIdx index })
    cases hidx : idxOfUid st.updates c with
    | none =>
      show QInv st1
      refine (QInvN.toQInv ⟨hst.1, hst.2.1, rfl, ?_⟩)
      intro x hx hr hp
      have hxc := hst.2.2.2 x hx hr hp
      rw [hc] at hxc
      injection hxc with hxc
      have := idxOfUid_none st.updates c hidx x hx
      rw [hxc] at this
      simp at this
    | some index =>
      show QInv (if decide (0 < ((st1.updates.eraseIdx index : List Upd)).length) then startFirstF FUEL false { st1 with updates := st1.updates.eraseIdx index } else { st1 with updates := st1.updates.eraseIdx index })
      obtain ⟨h0, t0, hup0, hid0⟩ := hst.2.2.1 c hc
      set st2 : QState := { st1 with updates := st1.updates.eraseIdx index } with hst2
      have hidx0 : index = 0 := by
        have : idxOfUid st.updates c = some 0 := by
          rw [hup0]
          show (if (h0.id == c) = true then some 0 else (idxOfUid t0 c).map (· + 1)) = _
          rw [if_pos (by simp [hid0])]
        rw [this] at hidx
        injection hidx with h
        exact h.symm
      have hupd2 : st2.updates = t0 := by
        show st.updates.eraseIdx index = t0
        rw [hidx0, hup0]
        rfl
      have hsub : st2.updates.Sublist st.updates := List.eraseIdx_sublist _ _
      have hinvN2 : QInvN st2 := by
        refine ⟨?_, ?_, rfl, ?_⟩
        · intro x hx
          exact hst.1 x (hsub.mem hx)
        · exact (hsub.map Upd.id).nodup hst.2.1
        · intro x hx hr hp
          have hxc := hst.2.2.2 x (hsub.mem hx) hr hp
          rw [hc] at hxc
          injection hxc with hxc
          rw [hupd2] at hx
          exact head_id_not_in_tail h0 t0 (hup0 ▸ hst.2.1) x hx (by rw [← hxc, hid0])
      split
      · exact (qMutualInv FUEL).2 false st2 hinvN2
      · exact hinvN2.toQInv

/-- Every queue operation preserves the invariant. -/
theorem qStep_inv (st : QState) (op : QOp) (hst : QInv st) :
    QInv (qStep st op) := by
  cases op with
  | add pbu => exact qAdd_inv pbu st hst
  | remove uid => exact qRemove_inv uid st hst
  | setIndex uid newIndex pbu rbu => exact (qMutualInv FUEL).1 uid newIndex pbu rbu st hst
  | pause => exact qPause_inv st hst
  | resume => exact qResume_inv st hst
  | pauseCurrentUpdate => exact qPauseCurrentUpdate_inv st hst
  | resumeUpdate uid => exact qResumeUpdate_inv uid st hst
  | completed => exact qOnUpdateCompleted_inv st hst

/-- The invariant holds at every reachable state. -/
theorem qRun_inv (ops : List QOp) : QInv (qRun ops) := by
  unfold qRun
  apply foldlPreserve QInv qStep ops qInit
  · intro b a _ hb
    exact qStep_inv b a hb
  · refine ⟨?_, ?_, ?_, ?_⟩
    · intro u hu; cases hu
    · exact List.nodup_nil
    · intro c hcc; cases hcc
    · intro u hu; cases hu

/-- Two queued updates with the same id are the same element when ids are
pairwise distinct. -/
theorem eq_of_mem_id (l : List Upd) (hn : (l.map Upd.id).Nodup) :
    ∀ u ∈ l, ∀ v ∈ l, u.id = v.id → u = v := by
  induction l with
  | nil => intro u hu; cases hu
  | cons w t ih =>
    rw [List.map_cons] at hn
    have hwt := (List.nodup_cons.mp hn).1
    have hnt := (List.nodup_cons.mp hn).2
    intro u hu v hv he
    rcases List.mem_cons.mp hu with hu1 | hu1
    · rcases List.mem_cons.mp hv with hv1 | hv1
      · rw [hu1, hv1]
      · exfalso
        apply hwt
        have hvm : v.id ∈ t.map Upd.id := List.mem_map_of_mem Upd.id hv1
        rw [← he, hu1] at hvm
        exact hvm
    · rcases List.mem_cons.mp hv with hv1 | hv1
      · exfalso
        apply hwt
        have hum : u.id ∈ t.map Upd.id := List.mem_map_of_mem Upd.id hu1
        rw [he, hv1] at hum
        exact hum
      · exact ih hnt u hu1 v hv1 he

/-- **C1 (counterexample).**  From the empty queue: add two updates (the
first starts running and becomes current), then move the second to the
front of the queue.  `setIndex` clears the current update — pausing it but
leaving `isRunning` true — and starts the second.  The final state keeps
update 0 in the queue with `isRunning = true` while update 1 is current, so
"every other queued Update is not running" fails; only "at most one is
active (running and not paused)" survives. -/
theorem C1_queued_running_counterexample :
    (qRun [QOp.add false, QOp.add false, QOp.setIndex 1 0 false false]).current = some 1 ∧
    ({ id := 0, isRunning := true, isPaused := true, isPausedByUser := false } : Upd) ∈
      (qRun [QOp.add false, QOp.add false, QOp.setIndex 1 0 false false]).updates := by
  refine ⟨by decide, by decide⟩

/-- **C1 (amended).**  For every sequence of update-queue operations (add,
remove, setIndex, pause, resume, pauseCurrentUpdate, resumeUpdate,
update-completed) starting from the empty queue, at most one queued Update
is active (running and not paused) in the reached state: any two active
queued updates are the same element.  (The original claim's stronger second
sentence — every other queued update is not running — is refuted by
`C1_queued_running_counterexample`: a dethroned current update stays
running, merely paused.) -/
theorem C1_at_most_one_active (ops : List QOp) (u v : Upd)
    (hu : u ∈ (qRun ops).updates) (hv : v ∈ (qRun ops).updates)
    (hur : u.isRunning = true) (hup : u.isPaused = false)
    (hvr : v.isRunning = true) (hvp : v.isPaused = false) : u = v := by
  have hinv := qRun_inv ops
  have h1 := hinv.2.2.2 u hu hur hup
  have h2 := hinv.2.2.2 v hv hvr hvp
  rw [h1] at h2
  injection h2 with h2
  exact eq_of_mem_id (qRun ops).updates hinv.2.1 u hu v hv h2

/-- Witness: after a single `add`, the started update is active and the
uniqueness theorem applies to it. -/
theorem C1_at_most_one_active_witness :
    ({ id := 0, isRunning := true, isPaused := false, isPausedByUser := false } : Upd) =
      { id := 0, isRunning := true, isPaused := false, isPausedByUser := false } :=
  C1_at_most_one_active [QOp.add false] _ _ (by decide) (by decide) (by decide)
    (by decide) (by decide) (by decide)

/-! ## C8: the D2P archive codec (`D2PAdapter.extract` / `D2PAdapter.build`)

Buffers are byte lists (`List Nat`); file and property names are kept as
their UTF-8 byte sequences, so `writeUTF`'s `Buffer.byteLength` is the list
length.  `writeInt8`/`writeInt16BE`/`writeInt32BE` emit big-endian bytes of
the value reduced mod 2^8/2^16/2^32 (in-range values as the source writes
them); the signed readers return `Int` exactly as `Buffer.readIntNBE` and
fail (`none`) where `SmartBuffer` would throw on an out-of-bounds or
negative read offset. -/

/-- One `{name, buffer}` entry of the `archives` array passed to `build`. -/
structure D2PEntry where
  name : List Nat
  buffer : List Nat
deriving DecidableEq, Repr

/-- One `{key, value}` entry of `meta.properties`. -/
structure D2PProp where
  key : List Nat
  value : List Nat
deriving DecidableEq, Repr

/-- Big-endian bytes of a 16-bit write (`writeInt16BE`). -/
def u16 (n : Nat) : List Nat := [n / 256 % 256, n % 256]

/-- Big-endian bytes of a 32-bit write (`writeInt32BE`). -/
def u32 (n : Nat) : List Nat :=
  [n / 16777216 % 256, n / 65536 % 256, n / 256 % 256, n % 256]

/-- `current.name.replace(/\\/g, '/')` on one byte. -/
def replBackslash (b : Nat) : Nat := if b = 92 then 47 else b

/-- `SmartBuffer.prototype.writeUTF`: 16-bit byte length, then the bytes. -/
def writeUTF (s : List Nat) : List Nat := u16 s.length ++ s

/-- State of `archives.reduce` in `build`: running `offset` (starts at 2),
the index buffer, the concatenated files buffer, and `count`. -/
def buildFold (st : Nat × List Nat × List Nat × Nat) (a : D2PEntry) :
    Nat × List Nat × List Nat × Nat :=
  (st.1 + a.buffer.length,
   st.2.1 ++ writeUTF (a.name.map replBackslash) ++ u32 (st.1 - 2) ++ u32 a.buffer.length,
   st.2.2.1 ++ a.buffer,
   st.2.2.2 + 1)

/-- `D2PAdapter.build` (lines 175-230), as the byte sequence written to
disk: version `2.1`, the file bodies in `archives` order, the index (names
with backslashes replaced by slashes, data-relative offsets, sizes), the
properties, and the six-field trailer. -/
def buildD2P (archives : List D2PEntry) (props : List D2PProp) : List Nat :=
  let st := archives.foldl buildFold (2, [], [], 0)
  let filesBuffer := st.2.2.1
  let indexesBuffer := st.2.1
  let propBytes := props.foldl (fun acc p => acc ++ writeUTF p.key ++ writeUTF p.value) []
  [2, 1] ++ filesBuffer ++ indexesBuffer ++ propBytes ++
    u32 2 ++ u32 filesBuffer.length ++ u32 (2 + filesBuffer.length) ++
    u32 st.2.2.2 ++ u32 (2 + filesBuffer.length + indexesBuffer.length) ++
    u32 props.length

/-- `readInt8`: one signed byte, failing out of bounds. -/
def readInt8 (b : List Nat) (off : Int) : Option Int :=
  if off < 0 then none
  else match b[off.toNat]? with
    | some b0 => some (if b0 < 128 then (b0 : Int) else (b0 : Int) - 256)
    | none => none

/-- `readInt16BE`: two bytes big-endian, signed. -/
def readInt16BE (b : List Nat) (off : Int) : Option Int :=
  if off < 0 then none
  else match b[off.toNat]?, b[off.toNat + 1]? with
    | some b0, some b1 =>
      some (if b0 * 256 + b1 < 32768 then ((b0 * 256 + b1 : Nat) : Int) else ((b0 * 256 + b1 : Nat) : Int) - 65536)
    | _, _ => none

/-- `readInt32BE`: four bytes big-endian, signed. -/
def readInt32BE (b : List Nat) (off : Int) : Option Int :=
  if off < 0 then none
  else match b[off.toNat]?, b[off.toNat + 1]?, b[off.toNat + 2]?, b[off.toNat + 3]? with
    | some b0, some b1, some b2, some b3 =>
      some (if b0 * 16777216 + b1 * 65536 + b2 * 256 + b3 < 2147483648 then ((b0 * 16777216 + b1 * 65536 + b2 * 256 + b3 : Nat) : Int) else ((b0 * 16777216 + b1 * 65536 + b2 * 256 + b3 : Nat) : Int) - 4294967296)
    | _, _, _, _ => none

/-- `SmartBuffer.prototype.readUTF`: a 16-bit length then that many bytes;
returns the bytes and the new read offset.  A negative length (which would
move `readOffset` backwards) is rejected. -/
def readUTF (b : List Nat) (off : Int) : Option (List Nat × Int) :=
  match readInt16BE b off with
  | none => none
  | some len =>
    if len < 0 then none
    else some ((b.drop (off.toNat + 2)).take len.toNat, off + 2 + len)

/-- The properties loop of `extract` (`for i < propertiesCount`). -/
def readProps (b : List Nat) : Int → Nat → Option (List D2PProp × Int)
  | off, 0 => some ([], off)
  | off, n + 1 =>
    match readUTF b off with
    | none => none
    | some (k, off1) =>
      match readUTF b off1 with
      | none => none
      | some (v, off2) =>
        match readProps b off2 n with
        | none => none
        | some (ps, off3) => some ({ key := k, value := v } :: ps, off3)

/-- The index loop of `extract`: each record is a name, a 32-bit file
offset (to which `dataOffset` is added) and a 32-bit size. -/
def readIndexes (b : List Nat) (dataOffset : Int) :
    Int → Nat → Option (List (List Nat × Int × Int))
  | off, 0 => some []
  | off, n + 1 =>
    match readUTF b off with
    | none => none
    | some (nm, off1) =>
      match readInt32BE b off1, readInt32BE b (off1 + 4) with
      | some fo, some fs =>
        match readIndexes b dataOffset (off1 + 8) n with
        | none => none
        | some ix => some ((nm, fo + dataOffset, fs) :: ix)
      | _, _ => none

/-- `indexes.set(filename, fileInfo)`: JavaScript `Map` update — an
existing key keeps its position and takes the new value, a new key is
appended. -/
def mapSet (m : List (List Nat × Int × Int)) (k : List Nat) (v : Int × Int) :
    List (List Nat × Int × Int) :=
  match m with
  | [] => [(k, v)]
  | p :: t => if p.1 = k then (k, v) :: t else p :: mapSet t k v

/-- The file loop of `extract`: `readBuffer(fileSize)` at `fileOffset`. -/
def readFiles (b : List Nat) :
    List (List Nat × Int × Int) → Option (List (List Nat × List Nat))
  | [] => some []
  | (nm, fo, fs) :: t =>
    if fo < 0 then none
    else
      match readFiles b t with
      | none => none
      | some rest => some ((nm, (b.drop fo.toNat).take fs.toNat) :: rest)

/-- Result of a successful `extract`: `meta.properties`, `meta.files`, and
the per-file buffers in `indexes` iteration order. -/
structure D2PExtract where
  properties : List D2PProp
  files : List (List Nat)
  entries : List (List Nat × List Nat)
deriving DecidableEq, Repr

/-- `D2PAdapter.extract` (lines 84-167) on an in-memory byte list: check
version 2.1, read the six trailer fields at `length - 24`, the properties,
the index records (building the `Map`), then every file's bytes.  `none`
stands for the promise rejecting. -/
def d2pExtract (b : List Nat) : Option D2PExtract :=
  match readInt8 b 0, readInt8 b 1 with
  | some 2, some 1 =>
    let t : Int := (b.length : Int) - 24
    match readInt32BE b t, readInt32BE b (t + 4), readInt32BE b (t + 8),
        readInt32BE b (t + 12), readInt32BE b (t + 16), readInt32BE b (t + 20) with
    | some dataOffset, some _dataCount, some indexOffset, some indexCount,
        some propertiesOffset, some propertiesCount =>
      match readProps b propertiesOffset propertiesCount.toNat with
      | none => none
      | some (props, _) =>
        match readIndexes b dataOffset indexOffset indexCount.toNat with
        | none => none
        | some ixs =>
          let m := ixs.foldl (fun m q => mapSet m q.1 q.2) []
          match readFiles b m with
          | none => none
          | some entries =>
            some { properties := props, files := ixs.map (·.1), entries := entries }
    | _, _, _, _, _, _ => none
  | _, _ => none

/-- The concatenated file bodies (`filesBuffer`). -/
def dataBytes : List D2PEntry → List Nat
  | [] => []
  | a :: t => a.buffer ++ dataBytes t

/-- The index buffer written by `build`, with the running absolute offset
(starting at 2). -/
def indexBytes : List D2PEntry → Nat → List Nat
  | [], _ => []
  | a :: t, off =>
    writeUTF (a.name.map replBackslash) ++ u32 (off - 2) ++ u32 a.buffer.length ++
      indexBytes t (off + a.buffer.length)

/-- The properties buffer written by `build`. -/
def propBytes : List D2PProp → List Nat
  | [] => []
  | p :: t => writeUTF p.key ++ writeUTF p.value ++ propBytes t

/-- The index records `extract` should find: replaced name, absolute file
offset, file size. -/
def ixList : List D2PEntry → Nat → List (List Nat × Int × Int)
  | [], _ => []
  | a :: t, off =>
    (a.name.map replBackslash, (off : Int), (a.buffer.length : Int)) ::
      ixList t (off + a.buffer.length)

theorem buildFold_spec (archives : List D2PEntry) (off0 : Nat)
    (ib fb : List Nat) (c0 : Nat) :
    archives.foldl buildFold (off0, ib, fb, c0) =
      (off0 + (dataBytes archives).length, ib ++ indexBytes archives off0,
       fb ++ dataBytes archives, c0 + archives.length) := by
  induction archives generalizing off0 ib fb c0 with
  | nil => simp [dataBytes, indexBytes]
  | cons a t ih =>
    rw [List.foldl_cons]
    show (t.foldl buildFold (off0 + a.buffer.length, ib ++ writeUTF (a.name.map replBackslash) ++ u32 (off0 - 2) ++ u32 a.buffer.length, fb ++ a.buffer, c0 + 1)) = _
    rw [ih]
    refine congrArg₂ Prod.mk ?_ (congrArg₂ Prod.mk ?_ (congrArg₂ Prod.mk ?_ ?_))
    · show off0 + a.buffer.length + (dataBytes t).length = off0 + (a.buffer ++ dataBytes t).length
      rw [List.length_append]
      omega
    · show ib ++ writeUTF (a.name.map replBackslash) ++ u32 (off0 - 2) ++ u32 a.buffer.length ++ indexBytes t (off0 + a.buffer.length) = ib ++ (writeUTF (a.name.map replBackslash) ++ u32 (off0 - 2) ++ u32 a.buffer.length ++ indexBytes t (off0 + a.buffer.length))
      simp [List.append_assoc]
    · show fb ++ a.buffer ++ dataBytes t = fb ++ (a.buffer ++ dataBytes t)
      rw [List.append_assoc]
    · show c0 + 1 + t.length = c0 + (t.length + 1)
      omega

theorem propFold_spec (props : List D2PProp) (acc : List Nat) :
    props.foldl (fun acc p => acc ++ writeUTF p.key ++ writeUTF p.value) acc =
      acc ++ propBytes props := by
  induction props generalizing acc with
  | nil => simp [propBytes]
  | cons p t ih =>
    rw [List.foldl_cons, ih]
    show acc ++ writeUTF p.key ++ writeUTF p.value ++ propBytes t = acc ++ propBytes (p :: t)
    show _ = acc ++ (writeUTF p.key ++ writeUTF p.value ++ propBytes t)
    simp [List.append_assoc]

/-- `build` in closed form. -/
theorem buildD2P_eq (archives : List D2PEntry) (props : List D2PProp) :
    buildD2P archives props =
      [2, 1] ++ dataBytes archives ++ indexBytes archives 2 ++ propBytes props ++
        u32 2 ++ u32 (dataBytes archives).length ++
        u32 (2 + (dataBytes archives).length) ++ u32 archives.length ++
        u32 (2 + (dataBytes archives).length + (indexBytes archives 2).length) ++
        u32 props.length := by
  unfold buildD2P
  rw [buildFold_spec, propFold_spec]
  simp

theorem getAt (pre l : List Nat) (i : Nat) :
    (pre ++ l)[pre.length + i]? = l[i]? := by
  rw [List.getElem?_append_right (Nat.le_add_right _ _)]
  congr 1
  omega

theorem readInt16BE_bytes (b : List Nat) (off : Int) (b0 b1 : Nat)
    (hoff : ¬ off < 0) (h0 : b[off.toNat]? = some b0)
    (h1 : b[off.toNat + 1]? = some b1) :
    readInt16BE b off = some (if b0 * 256 + b1 < 32768 then ((b0 * 256 + b1 : Nat) : Int) else ((b0 * 256 + b1 : Nat) : Int) - 65536) := by
  unfold readInt16BE
  rw [if_neg hoff, h0, h1]

theorem readInt16_at (pre rest : List Nat) (n : Nat) (hn : n < 32768) :
    readInt16BE (pre ++ (u16 n ++ rest)) (pre.length : Int) = some (n : Int) := by
  have ht : ((pre.length : Int)).toNat = pre.length := Int.toNat_natCast _
  rw [readInt16BE_bytes (pre ++ (u16 n ++ rest)) (pre.length : Int) (n / 256 % 256) (n % 256) (by omega) (by rw [ht]; simpa [u16] using getAt pre (u16 n ++ rest) 0) (by rw [ht]; simpa [u16] using getAt pre (u16 n ++ rest) 1)]
  rw [if_pos (by omega)]
  congr 1
  omega

theorem readInt32BE_bytes (b : List Nat) (off : Int) (b0 b1 b2 b3 : Nat)
    (hoff : ¬ off < 0) (h0 : b[off.toNat]? = some b0)
    (h1 : b[off.toNat + 1]? = some b1) (h2 : b[off.toNat + 2]? = some b2)
    (h3 : b[off.toNat + 3]? = some b3) :
    readInt32BE b off = some (if b0 * 16777216 + b1 * 65536 + b2 * 256 + b3 < 2147483648 then ((b0 * 16777216 + b1 * 65536 + b2 * 256 + b3 : Nat) : Int) else ((b0 * 16777216 + b1 * 65536 + b2 * 256 + b3 : Nat) : Int) - 4294967296) := by
  unfold readInt32BE
  rw [if_neg hoff, h0, h1, h2, h3]

theorem readInt32_at (pre rest : List Nat) (n : Nat) (hn : n < 2147483648) :
    readInt32BE (pre ++ (u32 n ++ rest)) (pre.length : Int) = some (n : Int) := by
  have ht : ((pre.length : Int)).toNat = pre.length := Int.toNat_natCast _
  rw [readInt32BE_bytes (pre ++ (u32 n ++ rest)) (pre.length : Int) (n / 16777216 % 256) (n / 65536 % 256) (n / 256 % 256) (n % 256) (by omega) (by rw [ht]; simpa [u32] using getAt pre (u32 n ++ rest) 0) (by rw [ht]; simpa [u32] using getAt pre (u32 n ++ rest) 1) (by rw [ht]; simpa [u32] using getAt pre (u32 n ++ rest) 2) (by rw [ht]; simpa [u32] using getAt pre (u32 n ++ rest) 3)]
  rw [if_pos (by omega)]
  congr 1
  omega

theorem readUTF_at (pre rest : List Nat) (s : List Nat) (hs : s.length < 32768) :
    readUTF (pre ++ (writeUTF s ++ rest)) (pre.length : Int) =
      some (s, (pre.length : Int) + 2 + s.length) := by
  unfold readUTF
  have harr : pre ++ (writeUTF s ++ rest) = pre ++ (u16 s.length ++ (s ++ rest)) := by
    show pre ++ ((u16 s.length ++ s) ++ rest) = _
    rw [List.append_assoc]
  rw [harr, readInt16_at pre (s ++ rest) s.length hs]
  show (if (s.length : Int) < 0 then none else some ((pre ++ (u16 s.length ++ (s ++ rest))).drop (((pre.length : Int)).toNat + 2) |>.take ((s.length : Int)).toNat, (pre.length : Int) + 2 + (s.length : Int))) = _
  rw [if_neg (by omega)]
  have ht : ((pre.length : Int)).toNat = pre.length := Int.toNat_natCast _
  rw [ht]
  have hdrop : (pre ++ (u16 s.length ++ (s ++ rest))).drop (pre.length + 2) = s ++ rest := by
    rw [show pre ++ (u16 s.length ++ (s ++ rest)) = (pre ++ u16 s.length) ++ (s ++ rest) by simp [List.append_assoc]]
    rw [show pre.length + 2 = (pre ++ u16 s.length).length by simp [u16]]
    exact List.drop_left _ _
  rw [hdrop]
  have htake : (s ++ rest).take ((s.length : Int)).toNat = s := by
    rw [Int.toNat_natCast]
    exact List.take_left _ _
  rw [htake]

theorem readProps_cons (b : List Nat) (off : Int) (n : Nat) (k v : List Nat)
    (off1 off2 : Int) (ps : List D2PProp) (off3 : Int)
    (h1 : readUTF b off = some (k, off1)) (h2 : readUTF b off1 = some (v, off2))
    (h3 : readProps b off2 n = some (ps, off3)) :
    readProps b off (n + 1) = some ({ key := k, value := v } :: ps, off3) := by
  unfold readProps
  simp only [h1, h2, h3]

theorem readProps_at (props : List D2PProp) (pre rest : List Nat)
    (hb : ∀ p ∈ props, p.key.length < 32768 ∧ p.value.length < 32768) :
    readProps (pre ++ (propBytes props ++ rest)) (pre.length : Int) props.length =
      some (props, (pre.length : Int) + (propBytes props).length) := by
  induction props generalizing pre with
  | nil =>
    show readProps (pre ++ ([] ++ rest)) (pre.length : Int) 0 = _
    unfold readProps
    show some ([], (pre.length : Int)) = _
    simp [propBytes]
  | cons p t ih =>
    have hk := (hb p (List.mem_cons_self p t)).1
    have hv := (hb p (List.mem_cons_self p t)).2
    have hB : pre ++ (propBytes (p :: t) ++ rest) =
        pre ++ (writeUTF p.key ++ (writeUTF p.value ++ (propBytes t ++ rest))) := by
      show pre ++ ((writeUTF p.key ++ writeUTF p.value ++ propBytes t) ++ rest) = _
      simp [List.append_assoc]
    have hB2 : pre ++ (writeUTF p.key ++ (writeUTF p.value ++ (propBytes t ++ rest))) =
        (pre ++ writeUTF p.key) ++ (writeUTF p.value ++ (propBytes t ++ rest)) := by
      simp [List.append_assoc]
    have hB3 : pre ++ (writeUTF p.key ++ (writeUTF p.value ++ (propBytes t ++ rest))) =
        (pre ++ writeUTF p.key ++ writeUTF p.value) ++ (propBytes t ++ rest) := by
      simp [List.append_assoc]
    have hoff1 : (pre.length : Int) + 2 + p.key.length =
        (((pre ++ writeUTF p.key).length : Nat) : Int) := by
      simp [writeUTF, u16]
      push_cast
      ring
    have hoff2 : (((pre ++ writeUTF p.key).length : Nat) : Int) + 2 + p.value.length =
        (((pre ++ writeUTF p.key ++ writeUTF p.value).length : Nat) : Int) := by
      simp [writeUTF, u16]
      push_cast
      ring
    rw [hB, List.length_cons]
    rw [readProps_cons _ _ _ p.key p.value ((pre.length : Int) + 2 + p.key.length)
      ((((pre ++ writeUTF p.key).length : Nat) : Int) + 2 + p.value.length) t
      ((((pre ++ writeUTF p.key ++ writeUTF p.value).length : Nat) : Int) + (propBytes t).length)
      (readUTF_at pre _ p.key hk)
      (by rw [hoff1, hB2]; exact readUTF_at (pre ++ writeUTF p.key) _ p.value hv)
      (by rw [hoff2, hB3]; exact ih (pre ++ writeUTF p.key ++ writeUTF p.value) (fun q hq => hb q (List.mem_cons_of_mem p hq)))]
    show some (p :: t, _) = some (p :: t, _)
    have : (((pre ++ writeUTF p.key ++ writeUTF p.value).length : Nat) : Int) + (propBytes t).length = (pre.length : Int) + (propBytes (p :: t)).length := by
      show _ = (pre.length : Int) + ((writeUTF p.key ++ writeUTF p.value ++ propBytes t).length : Nat)
      simp [writeUTF, u16]
      push_cast
      ring
    rw [this]

theorem readIndexes_cons (b : List Nat) (dOff off : Int) (n : Nat)
    (nm : List Nat) (off1 fo fs : Int) (ix : List (List Nat × Int × Int))
    (h1 : readUTF b off = some (nm, off1))
    (h2 : readInt32BE b off1 = some fo) (h3 : readInt32BE b (off1 + 4) = some fs)
    (h4 : readIndexes b dOff (off1 + 8) n = some ix) :
    readIndexes b dOff off (n + 1) = some ((nm, fo + dOff, fs) :: ix) := by
  unfold readIndexes
  simp only [h1, h2, h3, h4]

theorem readIndexes_at (archives : List D2PEntry) (off0 : Nat)
    (pre rest : List Nat) (h2off : 2 ≤ off0)
    (hnames : ∀ a ∈ archives, a.name.length < 32768)
    (hbound : off0 - 2 + (dataBytes archives).length < 2147483648) :
    readIndexes (pre ++ (indexBytes archives off0 ++ rest)) 2
      (pre.length : Int) archives.length = some (ixList archives off0) := by
  induction archives generalizing pre off0 with
  | nil =>
    show readIndexes (pre ++ ([] ++ rest)) 2 (pre.length : Int) 0 = some []
    unfold readIndexes
    rfl
  | cons a t ih =>
    have hnm : (a.name.map replBackslash).length < 32768 := by
      rw [List.length_map]
      exact hnames a (List.mem_cons_self a t)
    have hdlen : (dataBytes (a :: t)).length = a.buffer.length + (dataBytes t).length := by
      show (a.buffer ++ dataBytes t).length = _
      rw [List.length_append]
    have hB : pre ++ (indexBytes (a :: t) off0 ++ rest) =
        pre ++ (writeUTF (a.name.map replBackslash) ++ (u32 (off0 - 2) ++ (u32 a.buffer.length ++ (indexBytes t (off0 + a.buffer.length) ++ rest)))) := by
      show pre ++ ((writeUTF (a.name.map replBackslash) ++ u32 (off0 - 2) ++ u32 a.buffer.length ++ indexBytes t (off0 + a.buffer.length)) ++ rest) = _
      simp [List.append_assoc]
    set nm := a.name.map replBackslash with hnmdef
    set P1 := pre ++ writeUTF nm with hP1
    set P2 := pre ++ writeUTF nm ++ u32 (off0 - 2) with hP2
    set P3 := pre ++ writeUTF nm ++ u32 (off0 - 2) ++ u32 a.buffer.length with hP3
    have hoff1 : (pre.length : Int) + 2 + nm.length = ((P1.length : Nat) : Int) := by
      rw [hP1]
      simp [writeUTF, u16]
      push_cast
      ring
    have hoff2 : ((P1.length : Nat) : Int) + 4 = ((P2.length : Nat) : Int) := by
      rw [hP1, hP2]
      simp [u32]
      push_cast
      ring
    have hoff3 : ((P1.length : Nat) : Int) + 8 = ((P3.length : Nat) : Int) := by
      rw [hP1, hP3]
      simp [u32]
      push_cast
      ring
    rw [hB, List.length_cons]
    rw [readIndexes_cons _ 2 _ t.length nm ((P1.length : Nat) : Int)
      ((off0 - 2 : Nat) : Int) ((a.buffer.length : Nat) : Int) (ixList t (off0 + a.buffer.length))
      (by rw [← hoff1]; exact readUTF_at pre _ nm hnm)
      (by rw [show pre ++ (writeUTF nm ++ (u32 (off0 - 2) ++ (u32 a.buffer.length ++ (indexBytes t (off0 + a.buffer.length) ++ rest)))) = P1 ++ (u32 (off0 - 2) ++ (u32 a.buffer.length ++ (indexBytes t (off0 + a.buffer.length) ++ rest))) by rw [hP1]; simp [List.append_assoc]]
          exact readInt32_at P1 _ (off0 - 2) (by omega))
      (by rw [hoff2, show pre ++ (writeUTF nm ++ (u32 (off0 - 2) ++ (u32 a.buffer.length ++ (indexBytes t (off0 + a.buffer.length) ++ rest)))) = P2 ++ (u32 a.buffer.length ++ (indexBytes t (off0 + a.buffer.length) ++ rest)) by rw [hP2]; simp [List.append_assoc]]
          exact readInt32_at P2 _ a.buffer.length (by omega))
      (by rw [hoff3, show pre ++ (writeUTF nm ++ (u32 (off0 - 2) ++ (u32 a.buffer.length ++ (indexBytes t (off0 + a.buffer.length) ++ rest)))) = P3 ++ (indexBytes t (off0 + a.buffer.length) ++ rest) by rw [hP3]; simp [List.append_assoc]]
          exact ih (off0 + a.buffer.length) P3 (by omega)
            (fun x hx => hnames x (List.mem_cons_of_mem a hx)) (by omega))]
    show some ((nm, ((off0 - 2 : Nat) : Int) + 2, ((a.buffer.length : Nat) : Int)) :: ixList t (off0 + a.buffer.length)) = some ((nm, ((off0 : Nat) : Int), ((a.buffer.length : Nat) : Int)) :: ixList t (off0 + a.buffer.length))
    have : ((off0 - 2 : Nat) : Int) + 2 = ((off0 : Nat) : Int) := by omega
    rw [this]

theorem ixList_names (archives : List D2PEntry) (off : Nat) :
    (ixList archives off).map (fun q => q.1) =
      archives.map (fun a => a.name.map replBackslash) := by
  induction archives generalizing off with
  | nil => rfl
  | cons a t ih => simp [ixList, ih]

theorem mapSet_fresh (m : List (List Nat × Int × Int)) (k : List Nat)
    (v : Int × Int) (hk : ∀ p ∈ m, p.1 ≠ k) : mapSet m k v = m ++ [(k, v)] := by
  induction m with
  | nil => rfl
  | cons p t ih =>
    unfold mapSet
    rw [if_neg (hk p (List.mem_cons_self p t))]
    rw [ih (fun q hq => hk q (List.mem_cons_of_mem p hq))]
    rfl

theorem foldl_mapSet (ixs acc : List (List Nat × Int × Int))
    (hnd : (ixs.map (fun q => q.1)).Nodup)
    (hdisj : ∀ p ∈ acc, ∀ q ∈ ixs, p.1 ≠ q.1) :
    ixs.foldl (fun m q => mapSet m q.1 q.2) acc = acc ++ ixs := by
  induction ixs generalizing acc with
  | nil => simp
  | cons q t ih =>
    rw [List.foldl_cons]
    rw [mapSet_fresh acc q.1 q.2 (fun p hp => hdisj p hp q (List.mem_cons_self q t))]
    rw [List.map_cons] at hnd
    rw [ih (acc ++ [q]) (List.nodup_cons.mp hnd).2 ?_]
    · rw [List.append_assoc]
      rfl
    · intro p hp r hr
      rcases List.mem_append.mp hp with hp | hp
      · exact hdisj p hp r (List.mem_cons_of_mem q hr)
      · rcases List.mem_singleton.mp hp with rfl
        intro he
        exact (List.nodup_cons.mp hnd).1 (he ▸ List.mem_map_of_mem (fun q => q.1) hr)

theorem readFiles_at (archives : List D2PEntry) (pre2 rest2 : List Nat) :
    readFiles (pre2 ++ (dataBytes archives ++ rest2)) (ixList archives pre2.length) =
      some (archives.map (fun a => (a.name.map replBackslash, a.buffer))) := by
  induction archives generalizing pre2 with
  | nil => rfl
  | cons a t ih =>
    have hB : pre2 ++ (dataBytes (a :: t) ++ rest2) = (pre2 ++ a.buffer) ++ (dataBytes t ++ rest2) := by
      show pre2 ++ ((a.buffer ++ dataBytes t) ++ rest2) = _
      simp [List.append_assoc]
    have hlen : (pre2 ++ a.buffer).length = pre2.length + a.buffer.length :=
      List.length_append _ _
    have hrec : readFiles (pre2 ++ (dataBytes (a :: t) ++ rest2)) (ixList t (pre2.length + a.buffer.length)) = some (t.map (fun a => (a.name.map replBackslash, a.buffer))) := by
      rw [hB, ← hlen]
      exact ih (pre2 ++ a.buffer)
    have hslice : ((pre2 ++ (dataBytes (a :: t) ++ rest2)).drop (((pre2.length : Int)).toNat)).take (((a.buffer.length : Int)).toNat) = a.buffer := by
      rw [Int.toNat_natCast, Int.toNat_natCast]
      rw [show pre2 ++ (dataBytes (a :: t) ++ rest2) = pre2 ++ (a.buffer ++ (dataBytes t ++ rest2)) by rw [show dataBytes (a :: t) = a.buffer ++ dataBytes t from rfl]; simp [List.append_assoc]]
      rw [List.drop_left]
      exact List.take_left _ _
    show readFiles _ ((a.name.map replBackslash, ((pre2.length : Nat) : Int), ((a.buffer.length : Nat) : Int)) :: ixList t (pre2.length + a.buffer.length)) = _
    unfold readFiles
    rw [if_neg (by omega)]
    simp only [hrec]
    rw [hslice]
    rfl

theorem length_le_indexBytes (archives : List D2PEntry) (off : Nat) :
    archives.length ≤ (indexBytes archives off).length := by
  induction archives generalizing off with
  | nil => exact Nat.le_refl 0
  | cons a t ih =>
    show t.length + 1 ≤ (writeUTF (a.name.map replBackslash) ++ u32 (off - 2) ++ u32 a.buffer.length ++ indexBytes t (off + a.buffer.length)).length
    have := ih (off + a.buffer.length)
    simp [writeUTF, u16, u32]
    omega

theorem length_le_propBytes (props : List D2PProp) :
    props.length ≤ (propBytes props).length := by
  induction props with
  | nil => exact Nat.le_refl 0
  | cons p t ih =>
    show t.length + 1 ≤ (writeUTF p.key ++ writeUTF p.value ++ propBytes t).length
    simp [writeUTF, u16]
    omega

theorem repl_repl (b : Nat) : replBackslash (replBackslash b) = replBackslash b := by
  by_cases hb : b = 92 <;> simp [replBackslash, hb]

theorem dataBytes_map_repl (archives : List D2PEntry) :
    dataBytes (archives.map (fun a => { name := a.name.map replBackslash, buffer := a.buffer })) = dataBytes archives := by
  induction archives with
  | nil => rfl
  | cons a t ih =>
    show a.buffer ++ dataBytes (t.map _) = a.buffer ++ dataBytes t
    rw [ih]

theorem indexBytes_map_repl (archives : List D2PEntry) (off : Nat) :
    indexBytes (archives.map (fun a => { name := a.name.map replBackslash, buffer := a.buffer })) off = indexBytes archives off := by
  induction archives generalizing off with
  | nil => rfl
  | cons a t ih =>
    show writeUTF ((a.name.map replBackslash).map replBackslash) ++ u32 (off - 2) ++ u32 a.buffer.length ++ indexBytes (t.map _) (off + a.buffer.length) = _
    rw [ih]
    rw [List.map_map]
    rw [show replBackslash ∘ replBackslash = replBackslash from funext repl_repl]
    rfl

theorem build_repl (archives : List D2PEntry) (props : List D2PProp) :
    buildD2P (archives.map (fun a => { name := a.name.map replBackslash, buffer := a.buffer })) props = buildD2P archives props := by
  rw [buildD2P_eq, buildD2P_eq]
  rw [dataBytes_map_repl, indexBytes_map_repl, List.length_map]

theorem d2pExtract_eq (b : List Nat) (dOff dCnt iOff iCnt pOff pCnt : Int)
    (props : List D2PProp) (poff : Int) (ixs : List (List Nat × Int × Int))
    (entries : List (List Nat × List Nat))
    (h2 : readInt8 b 0 = some 2) (h1 : readInt8 b 1 = some 1)
    (ht0 : readInt32BE b ((b.length : Int) - 24) = some dOff)
    (ht1 : readInt32BE b ((b.length : Int) - 24 + 4) = some dCnt)
    (ht2 : readInt32BE b ((b.length : Int) - 24 + 8) = some iOff)
    (ht3 : readInt32BE b ((b.length : Int) - 24 + 12) = some iCnt)
    (ht4 : readInt32BE b ((b.length : Int) - 24 + 16) = some pOff)
    (ht5 : readInt32BE b ((b.length : Int) - 24 + 20) = some pCnt)
    (hp : readProps b pOff pCnt.toNat = some (props, poff))
    (hi : readIndexes b dOff iOff iCnt.toNat = some ixs)
    (hf : readFiles b (ixs.foldl (fun m q => mapSet m q.1 q.2) []) = some entries) :
    d2pExtract b = some { properties := props, files := ixs.map (fun q => q.1), entries := entries } := by
  unfold d2pExtract
  simp only [h2, h1, ht0, ht1, ht2, ht3, ht4, ht5, hp, hi, hf]

theorem d2pExtract_build (archives : List D2PEntry) (props : List D2PProp)
    (hnd : (archives.map (fun a => a.name.map replBackslash)).Nodup)
    (hnames : ∀ a ∈ archives, a.name.length < 32768)
    (hprops : ∀ p ∈ props, p.key.length < 32768 ∧ p.value.length < 32768)
    (hlen : (buildD2P archives props).length < 2147483648) :
    d2pExtract (buildD2P archives props) =
      some { properties := props,
             files := archives.map (fun a => a.name.map replBackslash),
             entries := archives.map (fun a => (a.name.map replBackslash, a.buffer)) } := by
  have hx : buildD2P archives props = [2, 1] ++ dataBytes archives ++ indexBytes archives 2 ++ propBytes props ++ u32 2 ++ u32 (dataBytes archives).length ++ u32 (2 + (dataBytes archives).length) ++ u32 archives.length ++ u32 (2 + (dataBytes archives).length + (indexBytes archives 2).length) ++ u32 props.length := buildD2P_eq archives props
  set D := dataBytes archives with hD
  set I := indexBytes archives 2 with hI
  set P := propBytes props with hP
  have hxlen : (buildD2P archives props).length = 2 + D.length + I.length + P.length + 24 := by
    rw [hx]
    simp [u32]
    omega
  have hdl : D.length < 2147483648 := by omega
  have hil : I.length < 2147483648 := by omega
  have hpl : P.length < 2147483648 := by omega
  have hcnt : archives.length < 2147483648 :=
    Nat.lt_of_le_of_lt (hI ▸ length_le_indexBytes archives 2) hil
  have hpcnt : props.length < 2147483648 :=
    Nat.lt_of_le_of_lt (hP ▸ length_le_propBytes props) hpl
  set Q0 : List Nat := [2, 1] ++ D ++ I ++ P with hQ0
  set Q1 : List Nat := Q0 ++ u32 2 with hQ1
  set Q2 : List Nat := Q1 ++ u32 D.length with hQ2
  set Q3 : List Nat := Q2 ++ u32 (2 + D.length) with hQ3
  set Q4 : List Nat := Q3 ++ u32 archives.length with hQ4
  set Q5 : List Nat := Q4 ++ u32 (2 + D.length + I.length) with hQ5
  have hT : ((buildD2P archives props).length : Int) - 24 = ((Q0.length : Nat) : Int) := by
    rw [hxlen, hQ0]
    simp
    push_cast
    ring
  have hT1 : ((Q0.length : Nat) : Int) + 4 = ((Q1.length : Nat) : Int) := by
    rw [hQ1]
    simp [u32]
  have hT2 : ((Q0.length : Nat) : Int) + 8 = ((Q2.length : Nat) : Int) := by
    rw [hQ2, hQ1]
    simp [u32]
  have hT3 : ((Q0.length : Nat) : Int) + 12 = ((Q3.length : Nat) : Int) := by
    rw [hQ3, hQ2, hQ1]
    simp [u32]
  have hT4 : ((Q0.length : Nat) : Int) + 16 = ((Q4.length : Nat) : Int) := by
    rw [hQ4, hQ3, hQ2, hQ1]
    simp [u32]
  have hT5 : ((Q0.length : Nat) : Int) + 20 = ((Q5.length : Nat) : Int) := by
    rw [hQ5, hQ4, hQ3, hQ2, hQ1]
    simp [u32]
  have hx0 : buildD2P archives props = Q0 ++ (u32 2 ++ (u32 D.length ++ (u32 (2 + D.length) ++ (u32 archives.length ++ (u32 (2 + D.length + I.length) ++ u32 props.length))))) := by
    rw [hx, hQ5, hQ4, hQ3, hQ2, hQ1, hQ0]
    simp [List.append_assoc]
  have hx1 : buildD2P archives props = Q1 ++ (u32 D.length ++ (u32 (2 + D.length) ++ (u32 archives.length ++ (u32 (2 + D.length + I.length) ++ u32 props.length)))) := by
    rw [hx0, hQ1]
    simp [List.append_assoc]
  have hx2 : buildD2P archives props = Q2 ++ (u32 (2 + D.length) ++ (u32 archives.length ++ (u32 (2 + D.length + I.length) ++ u32 props.length))) := by
    rw [hx1, hQ2]
    simp [List.append_assoc]
  have hx3 : buildD2P archives props = Q3 ++ (u32 archives.length ++ (u32 (2 + D.length + I.length) ++ u32 props.length)) := by
    rw [hx2, hQ3]
    simp [List.append_assoc]
  have hx4 : buildD2P archives props = Q4 ++ (u32 (2 + D.length + I.length) ++ u32 props.length) := by
    rw [hx3, hQ4]
    simp [List.append_assoc]
  have hx5 : buildD2P archives props = Q5 ++ (u32 props.length ++ []) := by
    rw [hx4, hQ5]
    simp [List.append_assoc]
  have ht0 : readInt32BE (buildD2P archives props) (((buildD2P archives props).length : Int) - 24) = some ((2 : Nat) : Int) := by
    rw [hT]
    rw [show readInt32BE (buildD2P archives props) ((Q0.length : Nat) : Int) = readInt32BE (Q0 ++ (u32 2 ++ (u32 D.length ++ (u32 (2 + D.length) ++ (u32 archives.length ++ (u32 (2 + D.length + I.length) ++ u32 props.length)))))) ((Q0.length : Nat) : Int) from by rw [← hx0]]
    exact readInt32_at Q0 _ 2 (by omega)
  have ht1 : readInt32BE (buildD2P archives props) (((buildD2P archives props).length : Int) - 24 + 4) = some ((D.length : Nat) : Int) := by
    rw [hT, hT1]
    rw [show readInt32BE (buildD2P archives props) ((Q1.length : Nat) : Int) = readInt32BE (Q1 ++ (u32 D.length ++ (u32 (2 + D.length) ++ (u32 archives.length ++ (u32 (2 + D.length + I.length) ++ u32 props.length))))) ((Q1.length : Nat) : Int) from by rw [← hx1]]
    exact readInt32_at Q1 _ D.length hdl
  have ht2 : readInt32BE (buildD2P archives props) (((buildD2P archives props).length : Int) - 24 + 8) = some ((2 + D.length : Nat) : Int) := by
    rw [hT, hT2]
    rw [show readInt32BE (buildD2P archives props) ((Q2.length : Nat) : Int) = readInt32BE (Q2 ++ (u32 (2 + D.length) ++ (u32 archives.length ++ (u32 (2 + D.length + I.length) ++ u32 props.length)))) ((Q2.length : Nat) : Int) from by rw [← hx2]]
    exact readInt32_at Q2 _ (2 + D.length) (by omega)
  have ht3 : readInt32BE (buildD2P archives props) (((buildD2P archives props).length : Int) - 24 + 12) = some ((archives.length : Nat) : Int) := by
    rw [hT, hT3]
    rw [show readInt32BE (buildD2P archives props) ((Q3.length : Nat) : Int) = readInt32BE (Q3 ++ (u32 archives.length ++ (u32 (2 + D.length + I.length) ++ u32 props.length))) ((Q3.length : Nat) : Int) from by rw [← hx3]]
    exact readInt32_at Q3 _ archives.length hcnt
  have ht4 : readInt32BE (buildD2P archives props) (((buildD2P archives props).length : Int) - 24 + 16) = some ((2 + D.length + I.length : Nat) : Int) := by
    rw [hT, hT4]
    rw [show readInt32BE (buildD2P archives props) ((Q4.length : Nat) : Int) = readInt32BE (Q4 ++ (u32 (2 + D.length + I.length) ++ u32 props.length)) ((Q4.length : Nat) : Int) from by rw [← hx4]]
    exact readInt32_at Q4 _ (2 + D.length + I.length) (by omega)
  have ht5 : readInt32BE (buildD2P archives props) (((buildD2P archives props).length : Int) - 24 + 20) = some ((props.length : Nat) : Int) := by
    rw [hT, hT5]
    rw [show readInt32BE (buildD2P archives props) ((Q5.length : Nat) : Int) = readInt32BE (Q5 ++ (u32 props.length ++ [])) ((Q5.length : Nat) : Int) from by rw [← hx5]]
    exact readInt32_at Q5 _ props.length hpcnt
  have h2r : readInt8 (buildD2P archives props) 0 = some 2 := by
    rw [hx0, hQ0]
    unfold readInt8
    norm_num
  have h1r : readInt8 (buildD2P archives props) 1 = some 1 := by
    rw [hx0, hQ0]
    unfold readInt8
    norm_num
  have hpr : readProps (buildD2P archives props) ((2 + D.length + I.length : Nat) : Int) (((props.length : Nat) : Int)).toNat = some (props, ((([2, 1] ++ D ++ I : List Nat).length : Nat) : Int) + P.length) := by
    rw [Int.toNat_natCast]
    rw [show ((2 + D.length + I.length : Nat) : Int) = ((([2, 1] ++ D ++ I : List Nat).length : Nat) : Int) from by simp; push_cast; ring]
    rw [show buildD2P archives props = ([2, 1] ++ D ++ I) ++ (P ++ (u32 2 ++ (u32 D.length ++ (u32 (2 + D.length) ++ (u32 archives.length ++ (u32 (2 + D.length + I.length) ++ u32 props.length)))))) from by rw [hx0, hQ0]; simp [List.append_assoc]]
    exact readProps_at props ([2, 1] ++ D ++ I) _ hprops
  have hir : readIndexes (buildD2P archives props) ((2 : Nat) : Int) ((2 + D.length : Nat) : Int) (((archives.length : Nat) : Int)).toNat = some (ixList archives 2) := by
    rw [Int.toNat_natCast]
    rw [show ((2 + D.length : Nat) : Int) = ((([2, 1] ++ D : List Nat).length : Nat) : Int) from by simp; push_cast; ring]
    rw [show buildD2P archives props = ([2, 1] ++ D) ++ (I ++ (P ++ (u32 2 ++ (u32 D.length ++ (u32 (2 + D.length) ++ (u32 archives.length ++ (u32 (2 + D.length + I.length) ++ u32 props.length))))))) from by rw [hx0, hQ0]; simp [List.append_assoc]]
    show readIndexes _ 2 _ _ = _
    rw [hI]
    exact readIndexes_at archives 2 ([2, 1] ++ D) _ (Nat.le_refl 2) hnames (by have hdl2 := hdl; rw [hD] at hdl2; omega)
  have hmap : (ixList archives 2).foldl (fun m q => mapSet m q.1 q.2) [] = ixList archives 2 := by
    have := foldl_mapSet (ixList archives 2) []
      (by rw [ixList_names]; exact hnd) (fun p hp => absurd hp (List.not_mem_nil p))
    simpa using this
  have hfr : readFiles (buildD2P archives props) ((ixList archives 2).foldl (fun m q => mapSet m q.1 q.2) []) = some (archives.map (fun a => (a.name.map replBackslash, a.buffer))) := by
    rw [hmap]
    rw [show buildD2P archives props = [2, 1] ++ (D ++ (I ++ (P ++ (u32 2 ++ (u32 D.length ++ (u32 (2 + D.length) ++ (u32 archives.length ++ (u32 (2 + D.length + I.length) ++ u32 props.length)))))))) from by rw [hx0, hQ0]; simp [List.append_assoc]]
    rw [hD]
    exact readFiles_at archives [2, 1] _
  rw [d2pExtract_eq (buildD2P archives props) ((2 : Nat) : Int) ((D.length : Nat) : Int) ((2 + D.length : Nat) : Int) ((archives.length : Nat) : Int) ((2 + D.length + I.length : Nat) : Int) ((props.length : Nat) : Int) props (((([2, 1] ++ D ++ I : List Nat).length : Nat) : Int) + P.length) (ixList archives 2) (archives.map (fun a => (a.name.map replBackslash, a.buffer))) h2r h1r ht0 ht1 ht2 ht3 ht4 ht5 hpr hir hfr]
  rw [ixList_names]

/-- **C8.**  For every valid version-2.1 archive laid out with its file
bodies in index order — i.e. every byte sequence produced by `build` from
entries with in-range name lengths (< 2^15), slash-normalised names pairwise
distinct, in-range property name lengths and total size below 2^31 —
extracting it and building again from the extracted entries and meta yields
the identical byte sequence. -/
theorem C8_extract_build_roundtrip (archives : List D2PEntry) (props : List D2PProp)
    (hnd : (archives.map (fun a => a.name.map replBackslash)).Nodup)
    (hnames : ∀ a ∈ archives, a.name.length < 32768)
    (hprops : ∀ p ∈ props, p.key.length < 32768 ∧ p.value.length < 32768)
    (hlen : (buildD2P archives props).length < 2147483648) :
    ∃ ex, d2pExtract (buildD2P archives props) = some ex ∧
      buildD2P (ex.entries.map (fun e => { name := e.1, buffer := e.2 })) ex.properties =
        buildD2P archives props := by
  refine ⟨_, d2pExtract_build archives props hnd hnames hprops hlen, ?_⟩
  show buildD2P ((archives.map (fun a => (a.name.map replBackslash, a.buffer))).map (fun e => { name := e.1, buffer := e.2 })) props = _
  rw [List.map_map]
  rw [show ((fun (e : List Nat × List Nat) => ({ name := e.1, buffer := e.2 } : D2PEntry)) ∘ (fun a => (a.name.map replBackslash, a.buffer))) = (fun (a : D2PEntry) => ({ name := a.name.map replBackslash, buffer := a.buffer } : D2PEntry)) from rfl]
  exact build_repl archives props

/-- Archives of the C8 witness: two files, one name holding a backslash. -/
def archivesC8 : List D2PEntry :=
  [{ name := [97], buffer := [5, 6] }, { name := [98, 92, 99], buffer := [7] }]

def propsC8 : List D2PProp := [{ key := [107], value := [118, 118] }]

/-- Witness: the two-file archive with one property round-trips. -/
theorem C8_extract_build_roundtrip_witness :
    ∃ ex, d2pExtract (buildD2P archivesC8 propsC8) = some ex ∧
      buildD2P (ex.entries.map (fun e => { name := e.1, buffer := e.2 })) ex.properties =
        buildD2P archivesC8 propsC8 :=
  C8_extract_build_roundtrip archivesC8 propsC8 (by decide) (by decide) (by decide)
    (by decide)
